import Mathlib

/-!
Verification of the codfreq core (hivdb/codfreq) against its specification.

This file shallowly embeds, in Lean 4, the parts of the source that the
verified claims are about:

  - codfreq/posnas.py: the PosNA data class, merge_posnas (IUPAC ambiguity
    merging), and iter_single_read_posnas (per-read base extraction with
    insertion indexing);
  - codfreq/segfreq.py: the SegFreq structure and its queries
    (get_frequency, get_pos_nas, get_consensus, get_patterns), the helper
    functions (get_segment_pos, remove_first_n_pos, remove_last_n_pos,
    is_continuous, mask_segment), add, update, dump and load;
  - codfreq/codonalign_consensus.py: the counter-rewriting loop of
    codonalign_consensus (the external postalign codon aligner is taken as
    an oracle parameter).

Python dicts and Counters are modelled as insertion-ordered association
lists (Python dicts preserve insertion order, and Counter.most_common is a
stable sort by descending count; both facts are observable through the
queries and are modelled faithfully).  Python ints are Int; floats (the
consensus level and the pattern fractions) are modelled as rationals.
Exceptions are modelled with Option/Except.
-/

namespace Codfreq

/-- Byte value of the gap character (ord of the ASCII minus sign). -/
def GAP : Nat := 45

/-- A single read observation: reference position, insertion offset and
nucleotide byte (posnas.py, class PosNA). -/
structure PosNA where
  pos : Int
  bp : Nat
  na : Nat
deriving DecidableEq, Repr

/-- Lexicographic comparison of PosNA by (pos, bp, na), the order that the
Python dunder comparison methods implement via tuple comparison. -/
def PosNA.keyLt (x y : PosNA) : Prop :=
  x.pos < y.pos ∨ (x.pos = y.pos ∧ (x.bp < y.bp ∨ (x.bp = y.bp ∧ x.na < y.na)))

instance : DecidablePred (fun p : PosNA × PosNA => PosNA.keyLt p.1 p.2) := by
  intro p; unfold PosNA.keyLt; infer_instance

instance (x y : PosNA) : Decidable (PosNA.keyLt x y) := by
  unfold PosNA.keyLt; infer_instance

/-- Lexicographic comparison of (pos, bp) slots only. -/
def slotLt (x y : PosNA) : Prop :=
  x.pos < y.pos ∨ (x.pos = y.pos ∧ x.bp < y.bp)

instance (x y : PosNA) : Decidable (slotLt x y) := by
  unfold slotLt; infer_instance

theorem slotLt_imp_keyLt {x y : PosNA} (h : slotLt x y) : PosNA.keyLt x y := by
  rcases h with h | ⟨h1, h2⟩
  · exact Or.inl h
  · exact Or.inr ⟨h1, Or.inl h2⟩

/-! ## Insertion-ordered counters (Python Counter / dict of int values) -/

/-- A Python Counter with insertion order: an association list from keys to
Int counts.  Keys are unique in every counter that the embedded code
builds; raw values quantified in theorems carry explicit no-duplicate
hypotheses where needed. -/
abbrev Cnt (α : Type) : Type := List (α × Int)

namespace Cnt

variable {α : Type} [DecidableEq α]

/-- Counter lookup with Python Counter default 0. -/
def get : Cnt α → α → Int
  | [], _ => 0
  | (k0, v0) :: rest, k => if k0 = k then v0 else get rest k

/-- Key membership (Python `k in c`). -/
def hasKey : Cnt α → α → Bool
  | [], _ => false
  | (k0, _) :: rest, k => if k0 = k then true else hasKey rest k

/-- Python `c[k] += v`: update the key in place if present, append it
otherwise (matching dict insertion-order semantics). -/
def add : Cnt α → α → Int → Cnt α
  | [], k, v => [(k, v)]
  | (k0, v0) :: rest, k, v =>
    if k0 = k then (k0, v0 + v) :: rest else (k0, v0) :: add rest k v

/-- Python `del c[k]`: remove the (unique) entry for the key. -/
def del : Cnt α → α → Cnt α
  | [], _ => []
  | (k0, v0) :: rest, k => if k0 = k then rest else (k0, v0) :: del rest k

/-- Sum of all counts. -/
def sumValues (c : Cnt α) : Int := (c.map Prod.snd).sum

/-- Stable insertion into a descending-by-count list; ties keep the earlier
element first, matching Python sorted(..., reverse=True) stability. -/
def insertDesc (x : α × Int) : Cnt α → Cnt α
  | [] => [x]
  | y :: ys => if y.2 > x.2 then y :: insertDesc x ys else x :: y :: ys

/-- Python Counter.most_common(): entries sorted by descending count,
ties in insertion order (stable). -/
def mostCommon (c : Cnt α) : Cnt α := c.foldr insertDesc []

/-- All keys pairwise distinct. -/
def keysDistinct : Cnt α → Bool
  | [] => true
  | (k, _) :: rest => !(rest.any (fun e => e.1 = k)) && keysDistinct rest

@[simp] theorem get_nil (k : α) : get ([] : Cnt α) k = 0 := rfl

theorem get_add (c : Cnt α) (k k2 : α) (v : Int) :
    get (add c k v) k2 = get c k2 + (if k2 = k then v else 0) := by
  induction c with
  | nil =>
    by_cases h : k = k2
    · subst h; simp [add, get]
    · have h2 : ¬(k2 = k) := fun hh => h hh.symm
      simp [add, get, h, h2]
  | cons e rest ih =>
    obtain ⟨k0, v0⟩ := e
    by_cases h0 : k0 = k
    · subst h0
      by_cases h2 : k0 = k2
      · subst h2; simp [add, get]
      · have h3 : ¬(k2 = k0) := fun hh => h2 hh.symm
        simp [add, get, h2, h3]
    · by_cases h2 : k0 = k2
      · subst h2
        have h3 : ¬(k0 = k) := h0
        simp [add, get, h0, h3, fun hh : k0 = k => h0 hh]
      · simp [add, get, h0, h2, ih]

theorem hasKey_add (c : Cnt α) (k k2 : α) (v : Int) :
    hasKey (add c k v) k2 = (hasKey c k2 || decide (k2 = k)) := by
  induction c with
  | nil =>
    by_cases h : k = k2
    · subst h; simp [add, hasKey]
    · have h2 : ¬(k2 = k) := fun hh => h hh.symm
      simp [add, hasKey, h, h2]
  | cons e rest ih =>
    obtain ⟨k0, v0⟩ := e
    by_cases h2 : k0 = k2
    · subst h2
      by_cases h0 : k0 = k
      · subst h0; simp [add, hasKey]
      · simp [add, hasKey, h0]
    · by_cases h0 : k0 = k
      · subst h0
        have h3 : ¬(k2 = k0) := fun hh => h2 hh.symm
        simp [add, hasKey, h2, h3]
      · simp [add, hasKey, h0, h2, ih]

theorem sumValues_add (c : Cnt α) (k : α) (v : Int) :
    sumValues (add c k v) = sumValues c + v := by
  induction c with
  | nil => simp [add, sumValues]
  | cons e rest ih =>
    obtain ⟨k0, v0⟩ := e
    simp only [add]
    by_cases h : k0 = k
    · simp only [if_pos h, sumValues, List.map_cons, List.sum_cons]
      ring
    · simp only [if_neg h, sumValues, List.map_cons, List.sum_cons] at *
      rw [ih]; ring

theorem sumValues_del (c : Cnt α) (k : α) :
    sumValues (del c k) = sumValues c - get c k := by
  induction c with
  | nil => simp [del, sumValues, get]
  | cons e rest ih =>
    obtain ⟨k0, v0⟩ := e
    simp only [del, get]
    by_cases h : k0 = k
    · simp only [if_pos h, sumValues, List.map_cons, List.sum_cons]
      ring
    · simp only [if_neg h, sumValues, List.map_cons, List.sum_cons] at *
      rw [ih]; ring

end Cnt

/-! ## codonutils.py: ambiguity tables, and posnas.py: merge_posnas -/

/-- AMBIGUOUS_NAS from codfreq/codonutils.py: IUPAC code byte to the
ascending list of base bytes it stands for (A=65, C=67, G=71, T=84). -/
def AMBIGUOUS_NAS (na : Nat) : Option (List Nat) :=
  if na = 87 then some [65, 84]          -- W = AT
  else if na = 83 then some [67, 71]     -- S = CG
  else if na = 77 then some [65, 67]     -- M = AC
  else if na = 75 then some [71, 84]     -- K = GT
  else if na = 82 then some [65, 71]     -- R = AG
  else if na = 89 then some [67, 84]     -- Y = CT
  else if na = 66 then some [67, 71, 84] -- B = CGT
  else if na = 68 then some [65, 71, 84] -- D = AGT
  else if na = 72 then some [65, 67, 84] -- H = ACT
  else if na = 86 then some [65, 67, 71] -- V = ACG
  else if na = 78 then some [65, 67, 71, 84] -- N = ACGT
  else none

/-- Modelled from the spec: the inverse IUPAC table REVERSED_AMBIGUOUS_NAS
is imported by codfreq/posnas.py from codfreq/codonutils.py but is absent
from that module in this source tree; the spec gives the merge table
explicitly (A+C=M, A+G=R, A+T=W, C+G=S, C+T=Y, G+T=K, A+C+G=V, A+C+T=H,
A+G+T=D, C+G+T=B, A+C+G+T=N), keyed here by the ascending list of base
bytes. -/
def REVERSED_AMBIGUOUS_NAS (nas : List Nat) : Option Nat :=
  if nas = [65, 84] then some 87
  else if nas = [67, 71] then some 83
  else if nas = [65, 67] then some 77
  else if nas = [71, 84] then some 75
  else if nas = [65, 71] then some 82
  else if nas = [67, 84] then some 89
  else if nas = [67, 71, 84] then some 66
  else if nas = [65, 71, 84] then some 68
  else if nas = [65, 67, 84] then some 72
  else if nas = [65, 67, 71] then some 86
  else if nas = [65, 67, 71, 84] then some 78
  else none

/-- Ascending insertion keeping a sorted list duplicate-free: Python
bytes(sorted(set(xs))). -/
def insertSortedDedup (x : Nat) : List Nat → List Nat
  | [] => [x]
  | y :: ys =>
    if x = y then y :: ys
    else if x < y then x :: y :: ys
    else y :: insertSortedDedup x ys

/-- Python bytes(sorted(set(xs))): ascending, duplicate-free. -/
def sortedDedup (xs : List Nat) : List Nat := xs.foldr insertSortedDedup []

/-- Python AMBIGUOUS_NAS.get(na, bytes([na])). -/
def expandNa (na : Nat) : List Nat :=
  match AMBIGUOUS_NAS na with
  | some s => s
  | none => [na]

/-- merge_posnas from codfreq/posnas.py.  Raising (mismatched pos or bp,
or a combination byte set missing from the reversed table) is modelled as
none. -/
def mergePosnas (posna1 posna2 : PosNA) : Option PosNA :=
  if posna1.pos ≠ posna2.pos then none
  else if posna1.bp ≠ posna2.bp then none
  else if posna1.na = GAP ∨ posna2.na = GAP then some ⟨posna1.pos, posna1.bp, GAP⟩
  else if posna1.na = posna2.na then some posna1
  else
    (REVERSED_AMBIGUOUS_NAS (sortedDedup (expandNa posna1.na ++ expandNa posna2.na))).map
      (fun c => ⟨posna1.pos, posna1.bp, c⟩)

/-- The call site segfreq.py line 239 is merge_posnas(star-unpacked
qualified): the function takes exactly two positional arguments, so any
other list length raises TypeError, modelled as none. -/
def mergePosnasStar (qualified : List PosNA) : Option PosNA :=
  match qualified with
  | [a, b] => mergePosnas a b
  | _ => none

/-! ## posnas.py: iter_single_read_posnas -/

/-- Loop state of iter_single_read_posnas: prev_refpos (1-based, 0 before
any reference match), the running insertion index, the trailing-insertion
buffer size, and the accumulated output list. -/
structure PState where
  prevRefpos : Nat
  insidx : Nat
  bufferSize : Nat
  acc : List PosNA
deriving DecidableEq, Repr

/-- Byte read for one aligned pair: the gap byte for a deletion (absent
sequence index), otherwise the read base.  An out-of-range sequence index
is modelled with a 0 byte (Python would raise IndexError there; theorems
never depend on the byte value). -/
def pairNa (seq : List Nat) (sp : Option Nat) : Nat :=
  match sp with
  | none => GAP
  | some i => seq.getD i 0

/-- One iteration of the iter_single_read_posnas main loop for an aligned
pair (seq position or None, ref position or None). -/
def posnasStep (seq : List Nat) (st : PState) (pair : Option Nat × Option Nat) : PState :=
  let refpos : Nat := match pair.2 with
    | none => st.prevRefpos
    | some r => r + 1
  let insidx : Nat := match pair.2 with
    | none => st.insidx + 1
    | some _ => 0
  let n : Nat := pairNa seq pair.1
  if refpos = 0 then
    { st with prevRefpos := refpos, insidx := insidx }
  else
    { prevRefpos := refpos, insidx := insidx,
      bufferSize := if insidx > 0 then st.bufferSize + 1 else 0,
      acc := st.acc ++ [⟨(refpos : Int), insidx, n⟩] }

/-- The forward pass of iter_single_read_posnas (everything before the
final trailing-insertion slice). -/
def posnasForward (seq : List Nat) (pairs : List (Option Nat × Option Nat)) : PState :=
  pairs.foldl (posnasStep seq) ⟨0, 0, 0, []⟩

/-- iter_single_read_posnas from codfreq/posnas.py: forward pass, then
return posnas[:len(posnas) - buffer_size]. -/
def iterSingleReadPosnas (seq : List Nat)
    (pairs : List (Option Nat × Option Nat)) : List PosNA :=
  let st := posnasForward seq pairs
  st.acc.take (st.acc.length - st.bufferSize)

/-- Removal of the maximal trailing run of insertion observations
(entries with ins_idx greater than 0). -/
def stripTrailingIns (l : List PosNA) : List PosNA :=
  (l.reverse.dropWhile (fun x => decide (0 < x.bp))).reverse

/-- The buffer_size counter of iter_single_read_posnas always equals the
length of the maximal trailing insertion run of the accumulated output. -/
def bufInv (st : PState) : Prop :=
  (st.acc.reverse.takeWhile (fun p => decide (0 < p.bp))).length = st.bufferSize

theorem posnasStep_some (seq : List Nat) (sp : Option Nat) (r : Nat) (st : PState) :
    posnasStep seq st (sp, some r)
      = { prevRefpos := r + 1, insidx := 0, bufferSize := 0,
          acc := st.acc ++ [⟨((r + 1 : Nat) : Int), 0, pairNa seq sp⟩] } := by
  unfold posnasStep
  simp

theorem posnasStep_none_zero (seq : List Nat) (sp : Option Nat) (st : PState)
    (h : st.prevRefpos = 0) :
    posnasStep seq st (sp, none)
      = { st with prevRefpos := 0, insidx := st.insidx + 1 } := by
  unfold posnasStep
  simp [h]

theorem posnasStep_none_pos (seq : List Nat) (sp : Option Nat) (st : PState)
    (h : st.prevRefpos ≠ 0) :
    posnasStep seq st (sp, none)
      = { prevRefpos := st.prevRefpos, insidx := st.insidx + 1,
          bufferSize := st.bufferSize + 1,
          acc := st.acc ++ [⟨(st.prevRefpos : Int), st.insidx + 1, pairNa seq sp⟩] } := by
  unfold posnasStep
  simp [h]

theorem bufInv_step (seq : List Nat) (st : PState)
    (pair : Option Nat × Option Nat) (h : bufInv st) :
    bufInv (posnasStep seq st pair) := by
  rcases pair with ⟨sp, rp⟩
  cases rp with
  | none =>
    by_cases h0 : st.prevRefpos = 0
    · rw [posnasStep_none_zero seq sp st h0]
      unfold bufInv at *
      simpa using h
    · rw [posnasStep_none_pos seq sp st h0]
      unfold bufInv at *
      simp only [List.reverse_append, List.reverse_cons, List.reverse_nil,
        List.nil_append, List.singleton_append, List.takeWhile_cons]
      simp [h]
  | some r =>
    rw [posnasStep_some seq sp r st]
    unfold bufInv
    simp only [List.reverse_append, List.reverse_cons, List.reverse_nil,
      List.nil_append, List.singleton_append, List.takeWhile_cons]
    simp

theorem bufInv_foldl (seq : List Nat) (pairs : List (Option Nat × Option Nat)) :
    ∀ st : PState, bufInv st → bufInv (pairs.foldl (posnasStep seq) st) := by
  induction pairs with
  | nil => intro st h; exact h
  | cons p rest ih =>
    intro st h
    exact ih (posnasStep seq st p) (bufInv_step seq st p h)

theorem head?_dropWhile_bp (l : List PosNA) :
    ∀ x, (l.dropWhile (fun p => decide (0 < p.bp))).head? = some x → x.bp = 0 := by
  induction l with
  | nil => intro x h; simp at h
  | cons a l ih =>
    intro x h
    by_cases hp : 0 < a.bp
    · rw [List.dropWhile_cons_of_pos (by simpa using hp)] at h
      exact ih x h
    · rw [List.dropWhile_cons_of_neg (by simpa using hp)] at h
      simp only [List.head?_cons, Option.some.injEq] at h
      subst h; omega

theorem take_buffer_eq_strip (st : PState) (hinv : bufInv st) :
    st.acc.take (st.acc.length - st.bufferSize) = stripTrailingIns st.acc := by
  have hsplit : st.acc.reverse.takeWhile (fun q => decide (0 < q.bp))
        ++ st.acc.reverse.dropWhile (fun q => decide (0 < q.bp))
      = st.acc.reverse :=
    List.takeWhile_append_dropWhile (fun q => decide (0 < q.bp)) st.acc.reverse
  have hacc : st.acc
      = (st.acc.reverse.dropWhile (fun q => decide (0 < q.bp))).reverse
        ++ (st.acc.reverse.takeWhile (fun q => decide (0 < q.bp))).reverse := by
    calc st.acc = st.acc.reverse.reverse := (List.reverse_reverse _).symm
      _ = (st.acc.reverse.takeWhile (fun q => decide (0 < q.bp))
            ++ st.acc.reverse.dropWhile (fun q => decide (0 < q.bp))).reverse := by
          rw [hsplit]
      _ = _ := by rw [List.reverse_append]
  have h2 : st.acc.length
      = (st.acc.reverse.dropWhile (fun q => decide (0 < q.bp))).length
        + (st.acc.reverse.takeWhile (fun q => decide (0 < q.bp))).length := by
    have h3 := congrArg List.length hsplit
    simp only [List.length_append, List.length_reverse] at h3
    omega
  unfold bufInv at hinv
  have hlen : st.acc.length - st.bufferSize
      = (st.acc.reverse.dropWhile (fun q => decide (0 < q.bp))).reverse.length := by
    simp only [List.length_reverse]
    omega
  rw [hlen]
  unfold stripTrailingIns
  nth_rewrite 2 [hacc]
  exact List.take_left _ _

/-- C9: after the forward pass the extractor strips exactly the maximal
trailing run of insertion observations: the returned list is the forward
list with its trailing ins_idx-positive suffix removed (all earlier
entries unchanged), and hence its last element, when present, has
ins_idx 0. -/
theorem iter_posnas_strips_trailing_insertions
    (seq : List Nat) (pairs : List (Option Nat × Option Nat)) :
    iterSingleReadPosnas seq pairs
      = stripTrailingIns (posnasForward seq pairs).acc ∧
    ∀ x, (iterSingleReadPosnas seq pairs).getLast? = some x → x.bp = 0 := by
  have hinv : bufInv (posnasForward seq pairs) :=
    bufInv_foldl seq pairs ⟨0, 0, 0, []⟩ (by simp [bufInv])
  have hmain : iterSingleReadPosnas seq pairs
      = stripTrailingIns (posnasForward seq pairs).acc := by
    show (posnasForward seq pairs).acc.take
        ((posnasForward seq pairs).acc.length - (posnasForward seq pairs).bufferSize)
      = stripTrailingIns (posnasForward seq pairs).acc
    exact take_buffer_eq_strip _ hinv
  refine ⟨hmain, ?_⟩
  intro x hx
  rw [hmain] at hx
  unfold stripTrailingIns at hx
  rw [List.getLast?_reverse] at hx
  exact head?_dropWhile_bp _ x hx

/-! ### C10: strict monotonicity of the extractor output -/

/-- All emitted observations are bounded by the current (prev_refpos,
ins_idx) state of the forward pass, in the lexicographic slot order. -/
def emitBound (st : PState) : Prop :=
  ∀ x ∈ st.acc,
    x.pos < (st.prevRefpos : Int) ∨ (x.pos = (st.prevRefpos : Int) ∧ x.bp ≤ st.insidx)

/-- The next reference coordinate to be consumed is at least prev_refpos. -/
def refsLB (st : PState) (pairs : List (Option Nat × Option Nat)) : Prop :=
  ∀ r, (pairs.filterMap Prod.snd).head? = some r → st.prevRefpos ≤ r

theorem posnas_pairwise_foldl (seq : List Nat) :
    ∀ (pairs : List (Option Nat × Option Nat)) (st : PState),
    List.Chain' (· < ·) (pairs.filterMap Prod.snd) →
    refsLB st pairs →
    List.Pairwise slotLt st.acc → emitBound st →
    List.Pairwise slotLt (pairs.foldl (posnasStep seq) st).acc := by
  intro pairs
  induction pairs with
  | nil => intro st _ _ hpw _; exact hpw
  | cons pr rest ih =>
    intro st hchain hlb hpw hbound
    rcases pr with ⟨sp, rp⟩
    rw [List.foldl_cons]
    cases rp with
    | some r =>
      have hfm : ((sp, some r) :: rest).filterMap Prod.snd
          = r :: rest.filterMap Prod.snd := by
        simp [List.filterMap_cons]
      rw [hfm] at hchain
      have hprev : st.prevRefpos ≤ r := by
        apply hlb
        rw [hfm]
        rfl
      have hprevI : (st.prevRefpos : Int) ≤ (r : Int) := by exact_mod_cast hprev
      have hchain2 : List.Chain' (· < ·) (rest.filterMap Prod.snd) := hchain.tail
      have hhead : ∀ r2, (rest.filterMap Prod.snd).head? = some r2 → r < r2 := by
        intro r2 h2
        exact List.Chain'.rel_head? hchain (by rw [h2]; rfl)
      rw [posnasStep_some seq sp r st]
      apply ih
      · exact hchain2
      · intro r2 h2
        have := hhead r2 h2
        simp only
        omega
      · rw [List.pairwise_append]
        refine ⟨hpw, List.pairwise_singleton _ _, ?_⟩
        intro x hx y hy
        simp only [List.mem_singleton] at hy
        subst hy
        have hb := hbound x hx
        left
        simp only
        rcases hb with hb | ⟨hb1, _⟩
        · omega
        · rw [hb1]; omega
      · intro x hx
        simp only [List.mem_append, List.mem_singleton] at hx
        rcases hx with hx | hx
        · have hb := hbound x hx
          left
          simp only
          rcases hb with hb | ⟨hb1, _⟩
          · omega
          · rw [hb1]; omega
        · subst hx
          right
          exact ⟨rfl, le_refl _⟩
    | none =>
      have hfm : ((sp, none) :: rest).filterMap Prod.snd
          = rest.filterMap Prod.snd := by
        simp [List.filterMap_cons]
      rw [hfm] at hchain
      by_cases h0 : st.prevRefpos = 0
      · rw [posnasStep_none_zero seq sp st h0]
        apply ih
        · exact hchain
        · intro r2 h2
          have := hlb r2 (by rw [hfm]; exact h2)
          simp only
          omega
        · exact hpw
        · intro x hx
          simp only at hx
          have hb := hbound x hx
          simp only
          rcases hb with hb | ⟨hb1, hb2⟩
          · rw [h0] at hb
            exact Or.inl hb
          · rw [h0] at hb1
            exact Or.inr ⟨hb1, by show x.bp ≤ st.insidx + 1; omega⟩
      · rw [posnasStep_none_pos seq sp st h0]
        apply ih
        · exact hchain
        · intro r2 h2
          have := hlb r2 (by rw [hfm]; exact h2)
          simp only
          omega
        · rw [List.pairwise_append]
          refine ⟨hpw, List.pairwise_singleton _ _, ?_⟩
          intro x hx y hy
          simp only [List.mem_singleton] at hy
          subst hy
          have hb := hbound x hx
          rcases hb with hb | ⟨hb1, hb2⟩
          · exact Or.inl hb
          · exact Or.inr ⟨hb1, by show x.bp < st.insidx + 1; omega⟩
        · intro x hx
          simp only [List.mem_append, List.mem_singleton] at hx
          simp only
          rcases hx with hx | hx
          · have hb := hbound x hx
            rcases hb with hb | ⟨hb1, hb2⟩
            · exact Or.inl hb
            · exact Or.inr ⟨hb1, by show x.bp ≤ st.insidx + 1; omega⟩
          · subst hx
            exact Or.inr ⟨rfl, le_refl _⟩

/-- C10: when the non-absent reference coordinates of the aligned-pair
list are strictly increasing, the PosNA list returned by
iter_single_read_posnas is strictly increasing in the lexicographic
(pos, bp, na) order; in particular no (pos, ins_idx) slot is emitted
twice. -/
theorem iter_posnas_strictly_increasing
    (seq : List Nat) (pairs : List (Option Nat × Option Nat))
    (h : List.Chain' (· < ·) (pairs.filterMap Prod.snd)) :
    List.Pairwise PosNA.keyLt (iterSingleReadPosnas seq pairs) := by
  have hfwd : List.Pairwise slotLt (posnasForward seq pairs).acc := by
    apply posnas_pairwise_foldl seq pairs ⟨0, 0, 0, []⟩ h
    · intro r _; exact Nat.zero_le r
    · exact List.Pairwise.nil
    · intro x hx; simp at hx
  have hsub : List.Sublist (iterSingleReadPosnas seq pairs) (posnasForward seq pairs).acc := by
    unfold iterSingleReadPosnas
    exact List.take_sublist _ _
  exact (hfwd.sublist hsub).imp (fun h2 => slotLt_imp_keyLt h2)

/-- C10 witness: the monotonicity theorem applied to a concrete read with
an interior insertion. -/
theorem iter_posnas_strictly_increasing_witness :
    List.Chain' (· < ·)
      (([(some 0, some 9), (some 1, some 10), (some 2, none),
         (some 3, some 11)] : List (Option Nat × Option Nat)).filterMap Prod.snd) ∧
    List.Pairwise PosNA.keyLt
      (iterSingleReadPosnas [65, 67, 88, 71]
        [(some 0, some 9), (some 1, some 10), (some 2, none), (some 3, some 11)]) :=
  ⟨by norm_num [List.filterMap_cons, List.chain'_cons],
   iter_posnas_strictly_increasing [65, 67, 88, 71]
     [(some 0, some 9), (some 1, some 10), (some 2, none), (some 3, some 11)]
     (by norm_num [List.filterMap_cons, List.chain'_cons])⟩

/-- C8 counterexample: the aligned pair (None, None) after a reference
match is not skipped: it is emitted as an insertion-gap observation, so
the output of iter_single_read_posnas can contain a PosNA with ins_idx
greater than 0 and a gap base, contradicting the claim on the concrete
read ACGT with pairs [(0,0), (None,None), (1,1)]. -/
theorem iter_posnas_both_none_emitted :
    iterSingleReadPosnas [65, 67]
        [(some 0, some 0), (none, none), (some 1, some 1)]
      = [⟨1, 0, 65⟩, ⟨1, 1, GAP⟩, ⟨2, 0, 67⟩] ∧
    (⟨1, 1, GAP⟩ : PosNA) ∈ iterSingleReadPosnas [65, 67]
        [(some 0, some 0), (none, none), (some 1, some 1)] ∧
    (0 < (1 : Nat) ∧ GAP = 45) := by
  refine ⟨by decide, by decide, by decide, rfl⟩

/-- C8 amended: a both-absent aligned pair is treated as an insertion of a
deletion gap: whenever prev_refpos is positive the step emits exactly
PosNA(prev_refpos, ins_idx + 1, gap); it is dropped only while
prev_refpos is still 0 (before the first reference-consuming pair). -/
theorem posnas_step_both_none (seq : List Nat) (st : PState)
    (h : 0 < st.prevRefpos) :
    (posnasStep seq st (none, none)).acc
      = st.acc ++ [⟨(st.prevRefpos : Int), st.insidx + 1, GAP⟩] ∧
    ∀ st2 : PState, st2.prevRefpos = 0 →
      (posnasStep seq st2 (none, none)).acc = st2.acc := by
  constructor
  · rw [posnasStep_none_pos seq none st (by omega)]
    rfl
  · intro st2 h2
    rw [posnasStep_none_zero seq none st2 h2]

/-- C8 amended witness: the step theorem applied at a concrete state with
prev_refpos 3. -/
theorem posnas_step_both_none_witness :
    0 < (3 : Nat) ∧
    (posnasStep [] ⟨3, 0, 0, []⟩ (none, none)).acc = [] ++ [⟨(3 : Int), 1, GAP⟩] :=
  ⟨by decide, (posnas_step_both_none [] ⟨3, 0, 0, []⟩ (by decide)).1⟩

/-! ## segfreq.py: segments and the SegFreq structure -/

/-- A segment: a tuple of slots, each a PosNA or None (an unobserved
position). -/
abbrev Seg : Type := List (Option PosNA)

/-- get_segment_pos from segfreq.py: reference position of the segment,
derived from its first non-None node; a segment of only None slots is
malformed (ValueError, modelled as none). -/
def getSegmentPosAux : Nat → List (Option PosNA) → Option Int
  | _, [] => none
  | i, none :: rest => getSegmentPosAux (i + 1) rest
  | i, some nd :: _ => some (nd.pos - i)

def getSegmentPos (segment : Seg) : Option Int :=
  getSegmentPosAux 0 segment

/-- A slot counted as a position by remove_first_n_pos and
remove_last_n_pos: a None slot or a node with bp 0. -/
def isPosSlot : Option PosNA → Bool
  | none => true
  | some nd => decide (nd.bp = 0)

/-- remove_first_n_pos from segfreq.py: drop the first n reference
positions from a segment; failure to find enough positions raises
(modelled as none). -/
def removeFirstAux (n : Nat) : Nat → List (Option PosNA) → Option Seg
  | _, [] => none
  | cnt, slot :: rest =>
    let cnt2 := if isPosSlot slot then cnt + 1 else cnt
    if cnt2 > n then some (slot :: rest) else removeFirstAux n cnt2 rest

def removeFirstNPos (segment : Seg) (n : Nat) : Option Seg :=
  removeFirstAux n 0 segment

/-- remove_last_n_pos from segfreq.py: iterate the reversed segment and
truncate at the n-th position slot from the end; returns the index (from
the end) at which the scan stopped. -/
def removeLastAux (n : Nat) : Nat → Nat → List (Option PosNA) → Option Nat
  | _, _, [] => none
  | cnt, idx, slot :: rest =>
    let cnt2 := if isPosSlot slot then cnt + 1 else cnt
    if cnt2 = n then some idx else removeLastAux n cnt2 (idx + 1) rest

def removeLastNPos (segment : Seg) (n : Nat) : Option Seg :=
  (removeLastAux n 0 0 segment.reverse).map
    (fun idx => segment.take (segment.length - idx - 1))

/-- is_continuous from segfreq.py.  Python raises ValueError when either
removal runs out of position slots; that only happens on segments with
fewer position slots than the step, and is modelled here as false (the
claims below either restrict to inputs where no raise occurs or do not
depend on the value). -/
def isContinuous (left_segment right_segment : Seg) (segment_step : Nat) : Bool :=
  match removeFirstNPos left_segment segment_step,
        removeLastNPos right_segment segment_step with
  | some a, some b => decide (a = b)
  | _, _ => false

/-- mask_segment from segfreq.py: slots outside [min_pos, max_pos] become
None. -/
def maskSegment (segment : Seg) (min_pos max_pos : Int) : Seg :=
  segment.map (fun slot =>
    match slot with
    | none => none
    | some nd => if min_pos ≤ nd.pos ∧ nd.pos ≤ max_pos then some nd else none)

/-- The _segments attribute: a dict from segment position to a Counter of
segments, in insertion order. -/
abbrev SegDict : Type := List (Int × Cnt Seg)

namespace SegDict

/-- Python self._segments.get(pos, empty). -/
def get : SegDict → Int → Cnt Seg
  | [], _ => []
  | (p, c) :: rest, pos => if p = pos then c else get rest pos

/-- Python pos in self._segments. -/
def hasKey : SegDict → Int → Bool
  | [], _ => false
  | (p, _) :: rest, pos => if p = pos then true else hasKey rest pos

/-- Python d[pos] = v (replace, or append preserving insertion order). -/
def set : SegDict → Int → Cnt Seg → SegDict
  | [], pos, v => [(pos, v)]
  | (p, c) :: rest, pos, v =>
    if p = pos then (p, v) :: rest else (p, c) :: set rest pos v

/-- In-place update of the counter stored at a position.  A missing key
is created holding f of the empty counter; Python would raise KeyError
there, but every call site in get_patterns touches only keys that the
seeding phase pre-initialized, where the two behaviours agree. -/
def modify : SegDict → Int → (Cnt Seg → Cnt Seg) → SegDict
  | [], pos, f => [(pos, f [])]
  | (p, c) :: rest, pos, f =>
    if p = pos then (p, f c) :: rest else (p, c) :: modify rest pos f

/-- The add path self._segments[pos][segment] += count including creation
of a missing position entry. -/
def addSeg : SegDict → Int → Seg → Int → SegDict
  | [], pos, s, ct => [(pos, [(s, ct)])]
  | (p, c) :: rest, pos, s, ct =>
    if p = pos then (p, Cnt.add c s ct) :: rest else (p, c) :: addSeg rest pos s ct

end SegDict

/-- SegFreq from segfreq.py. -/
structure SegFreq where
  segment_size : Int
  segment_step : Int
  segments : SegDict
  max_segpos : Int
deriving DecidableEq

/-- The SegFreq constructor with its validation: segment_step at least 1
and segment_size at least segment_step + 2 (ValueError modelled as
none). -/
def mkSegFreq (segment_size segment_step : Int) : Option SegFreq :=
  if segment_step < 1 then none
  else if segment_size - segment_step < 2 then none
  else some ⟨segment_size, segment_step, [], 0⟩

namespace SegFreq

/-- Count stored for a segment at a position. -/
def countOf (sf : SegFreq) (pos : Int) (segment : Seg) : Int :=
  Cnt.get (SegDict.get sf.segments pos) segment

/-- SegFreq.add: add count occurrences of the segment, keyed by its
derived position; a malformed segment raises (none). -/
def add (sf : SegFreq) (segment : Seg) (count : Int) : Option SegFreq :=
  (getSegmentPos segment).map (fun pos =>
    { sf with
      segments := SegDict.addSeg sf.segments pos segment count,
      max_segpos := if sf.max_segpos > pos then sf.max_segpos else pos })

/-- Sequentially add a list of counted segments (the two nested loops of
SegFreq.update, flattened in iteration order). -/
def addList (sf : SegFreq) : List (Seg × Int) → Option SegFreq
  | [] => some sf
  | e :: rest => (sf.add e.1 e.2).bind (fun s2 => addList s2 rest)

/-- SegFreq.update (merge): checks only segment_size equality (the error
message is Incompatible segment sizes; segment_step is not compared),
then folds every counted segment of the other SegFreq in via add, in
insertion order. -/
def update (sf other : SegFreq) : Option SegFreq :=
  if sf.segment_size ≠ other.segment_size then none
  else sf.addList (other.segments.flatMap (fun pc => pc.2))

end SegFreq

/-! ## segfreq.py: get_frequency and get_pos_nas -/

/-- Python while len(positions) < na_size: positions.append(positions[-1]
+ 1); an empty positions list raises IndexError in Python, modelled by
returning the empty list unchanged. -/
def padGo (na_size : Nat) : Nat → List Int → List Int
  | 0, ps => ps
  | fuel + 1, ps =>
    if ps.length < na_size then padGo na_size fuel (ps ++ [ps.getLastD 0 + 1]) else ps

def padPositions (positions : List Int) (na_size : Nat) : List Int :=
  padGo na_size na_size positions

/-- Python min over a non-empty list (0 on the empty list, where Python
raises). -/
def listMinD : List Int → Int
  | [] => 0
  | x :: xs => xs.foldl min x

/-- The position-validation loop of get_frequency: positions at or past
the end of the final window are silently skipped; a position outside the
selected window raises PositionsTooFarApart. -/
def checkPositions (sf : SegFreq) (segpos : Int) : List Int → Except Unit Unit
  | [] => .ok ()
  | p :: rest =>
    if p ≥ sf.max_segpos + sf.segment_size then checkPositions sf segpos rest
    else if p < segpos ∨ p ≥ segpos + sf.segment_size then .error ()
    else checkPositions sf segpos rest

/-- The inner node scan of get_frequency for one requested position:
collect the na of every node at exactly that position (insertions
included), stopping at the first node past it; the flag records whether
any node matched. -/
def scanPos : List (Option PosNA) → Int → (List Nat × Bool)
  | [], _ => ([], false)
  | none :: rest, p => scanPos rest p
  | some nd :: rest, p =>
    if nd.pos = p then
      let r := scanPos rest p
      (nd.na :: r.1, true)
    else if nd.pos > p then ([], false)
    else scanPos rest p

/-- Bases contributed by one segment for the requested positions: none if
any position is unobserved in the segment (the segment then contributes
nothing). -/
def segmentNas (segment : Seg) : List Int → Option (List Nat)
  | [] => some []
  | p :: rest =>
    let r := scanPos segment p
    if r.2 then (segmentNas segment rest).map (fun tail => r.1 ++ tail)
    else none

/-- The window anchor selected by get_frequency and get_pos_nas: the
requested position aligned down to the step grid, clamped to the last
observed anchor. -/
def segposFor (sf : SegFreq) (p : Int) : Int :=
  let segpos := p - (p - 1) % sf.segment_step
  if segpos > sf.max_segpos then sf.max_segpos else segpos

/-- The body of the counting loop of get_frequency for one counted
segment: the for pos in positions loop with its for-else either
completes with the collected bases (counted) or breaks (the segment
contributes nothing). -/
def freqEntry (positions : List Int) (acc : Cnt (List Nat))
    (e : Seg × Int) : Cnt (List Nat) :=
  match segmentNas e.1 positions with
  | some nas => Cnt.add acc nas e.2
  | none => acc

/-- The counting loop of get_frequency over the segments anchored at the
selected window position. -/
def freqCounts (sf : SegFreq) (positions : List Int) : Cnt (List Nat) :=
  (SegDict.get sf.segments (segposFor sf (listMinD positions))).foldl
    (freqEntry positions) []

/-- SegFreq.get_frequency from segfreq.py. -/
def getFrequency (sf : SegFreq) (positions0 : List Int) (na_size : Nat) :
    Except Unit (Cnt (List Nat)) :=
  match checkPositions sf
      (segposFor sf (listMinD (padPositions positions0 na_size)))
      (padPositions positions0 na_size) with
  | .error _ => .error ()
  | .ok _ => .ok (freqCounts sf (padPositions positions0 na_size))

/-- The body of the counting loop of get_pos_nas for one counted
segment: collect the na of every node at exactly the position, count the
byte string when it is nonempty. -/
def posNasEntry (pos : Int) (acc : Cnt (List Nat)) (e : Seg × Int) :
    Cnt (List Nat) :=
  let nas := (e.1.filterMap id).filter (fun nd => decide (nd.pos = pos))
    |>.map PosNA.na
  if nas = [] then acc else Cnt.add acc nas e.2

/-- SegFreq.get_pos_nas from segfreq.py: counts of the byte strings
observed at exactly the position (all nodes at the position, insertions
concatenated), over the window containing it. -/
def getPosNas (sf : SegFreq) (pos : Int) : Cnt (List Nat) :=
  (SegDict.get sf.segments (segposFor sf pos)).foldl (posNasEntry pos) []

/-- Error discriminator for Except results. -/
def isErrB {ε α : Type} (e : Except ε α) : Bool :=
  match e with
  | .error _ => true
  | .ok _ => false

/-- All first components of an association list pairwise distinct. -/
def pairsKeysDistinct {α β : Type} [DecidableEq α] : List (α × β) → Bool
  | [] => true
  | e :: rest => !(rest.any (fun e2 => decide (e2.1 = e.1))) && pairsKeysDistinct rest

/-- Structural well-formedness of the stored segments map: distinct
position keys, distinct segments within a position, and every segment
keyed by its own derived position (true of every SegFreq built through
add). -/
def SegFreq.wfSegments (sf : SegFreq) : Bool :=
  pairsKeysDistinct sf.segments &&
  sf.segments.all (fun pc =>
    pairsKeysDistinct pc.2 &&
    pc.2.all (fun e => decide (getSegmentPos e.1 = some pc.1)))

/-! ### C1: the PositionsTooFarApart condition of get_frequency -/

theorem checkPositions_error_iff (sf : SegFreq) (segpos : Int) :
    ∀ l, checkPositions sf segpos l = .error () ↔
      ∃ p ∈ l, p < sf.max_segpos + sf.segment_size ∧
        (p < segpos ∨ p ≥ segpos + sf.segment_size) := by
  intro l
  induction l with
  | nil => simp [checkPositions]
  | cons p rest ih =>
    unfold checkPositions
    by_cases h1 : p ≥ sf.max_segpos + sf.segment_size
    · rw [if_pos h1, ih]
      constructor
      · intro ⟨q, hq, hq2⟩; exact ⟨q, List.mem_cons_of_mem p hq, hq2⟩
      · intro ⟨q, hq, hq2, hq3⟩
        rcases List.mem_cons.mp hq with hq | hq
        · subst hq; omega
        · exact ⟨q, hq, hq2, hq3⟩
    · rw [if_neg h1]
      by_cases h2 : p < segpos ∨ p ≥ segpos + sf.segment_size
      · rw [if_pos h2]
        constructor
        · intro _
          exact ⟨p, List.mem_cons_self p rest, by omega, h2⟩
        · intro _; rfl
      · rw [if_neg h2, ih]
        constructor
        · intro ⟨q, hq, hq2⟩; exact ⟨q, List.mem_cons_of_mem p hq, hq2⟩
        · intro ⟨q, hq, hq2, hq3⟩
          rcases List.mem_cons.mp hq with hq | hq
          · subst hq; exact absurd hq3 h2
          · exact ⟨q, hq, hq2, hq3⟩

/-- C1 amended: for a non-empty positions list, get_frequency fails with
PositionsTooFarApart if and only if some requested (padded) position
precedes the end of the final window yet lies outside the window selected
for the minimum position (aligned down to the step grid and clamped to
the final anchor).  Positions at or past the end of the final window are
silently skipped, and the window alignment means positions
segment_size - 1 apart can still fail when the minimum is off the step
grid. -/
theorem isErrB_check (e : Except Unit Unit) : isErrB e = true ↔ e = .error () := by
  rcases e with u | u
  · cases u; simp [isErrB]
  · cases u; simp [isErrB]

theorem isErrB_getFrequency (sf : SegFreq) (positions0 : List Int) (na_size : Nat) :
    isErrB (getFrequency sf positions0 na_size)
      = isErrB (checkPositions sf
          (segposFor sf (listMinD (padPositions positions0 na_size)))
          (padPositions positions0 na_size)) := by
  unfold getFrequency
  rcases hchk : checkPositions sf
      (segposFor sf (listMinD (padPositions positions0 na_size)))
      (padPositions positions0 na_size) with u | u
  · cases u; rfl
  · cases u; rfl

theorem getFrequency_error_iff (sf : SegFreq) (positions0 : List Int)
    (na_size : Nat) (_hne : positions0 ≠ []) :
    isErrB (getFrequency sf positions0 na_size) = true ↔
      ∃ p ∈ padPositions positions0 na_size,
        p < sf.max_segpos + sf.segment_size ∧
        (p < segposFor sf (listMinD (padPositions positions0 na_size)) ∨
         p ≥ segposFor sf (listMinD (padPositions positions0 na_size))
              + sf.segment_size) := by
  rw [isErrB_getFrequency, isErrB_check]
  exact checkPositions_error_iff sf _ (padPositions positions0 na_size)

/-- Concrete segment used by the C1 counterexample: bases at reference
positions 3 to 6. -/
def segC1 : Seg :=
  [some ⟨3, 0, 65⟩, some ⟨4, 0, 66⟩, some ⟨5, 0, 67⟩, some ⟨6, 0, 68⟩]

/-- The C1 counterexample SegFreq: segment_size 4, segment_step 2, one
segment anchored at position 3. -/
def sfC1 : SegFreq := ⟨4, 2, [(3, [(segC1, 1)])], 3⟩

/-- C1 counterexample: on the SegFreq with segment_size 4, segment_step 2
and one segment anchored at 3, the positions 2 and 5 lie segment_size - 1
apart (max - min = 3 < 4, one segment window), yet get_frequency raises
PositionsTooFarApart because the window is aligned down to the step grid;
this refutes both the only-if direction of the claim and its
size-minus-one success case. -/
theorem getFrequency_positions_counterexample :
    (mkSegFreq 4 2).bind (fun s => s.add segC1 1) = some sfC1 ∧
    listMinD [2, 5] = 2 ∧ (5 : Int) - 2 = sfC1.segment_size - 1 ∧
    isErrB (getFrequency sfC1 [2, 5] 2) = true := by
  refine ⟨by decide, by decide, by decide, by decide⟩

/-- C1 amended witness: the error characterization applied to the
counterexample SegFreq and positions. -/
theorem getFrequency_error_iff_witness :
    ([2, 5] : List Int) ≠ [] ∧
    (isErrB (getFrequency sfC1 [2, 5] 2) = true ↔
      ∃ p ∈ padPositions [2, 5] 2,
        p < sfC1.max_segpos + sfC1.segment_size ∧
        (p < segposFor sfC1 (listMinD (padPositions [2, 5] 2)) ∨
         p ≥ segposFor sfC1 (listMinD (padPositions [2, 5] 2))
              + sfC1.segment_size)) :=
  ⟨by decide, getFrequency_error_iff sfC1 [2, 5] 2 (by decide)⟩

/-! ### C2: update (merge) compatibility checking -/

theorem get_addSeg (d : SegDict) (pos q : Int) (s s2 : Seg) (ct : Int) :
    Cnt.get (SegDict.get (SegDict.addSeg d pos s ct) q) s2
      = Cnt.get (SegDict.get d q) s2 + (if q = pos ∧ s2 = s then ct else 0) := by
  induction d with
  | nil =>
    simp only [SegDict.addSeg, SegDict.get]
    by_cases hq : pos = q
    · subst hq
      rw [if_pos rfl]
      simp only [Cnt.get]
      by_cases hs : s = s2
      · subst hs
        simp
      · rw [if_neg hs, if_neg (by intro hh; exact hs hh.2.symm)]
        omega
    · rw [if_neg hq]
      simp only [Cnt.get]
      rw [if_neg (by intro hh; exact hq hh.1.symm)]
      omega
  | cons e rest ih =>
    obtain ⟨p0, c0⟩ := e
    by_cases hp : p0 = pos
    · subst hp
      simp only [SegDict.addSeg, if_pos rfl, SegDict.get]
      by_cases hq : p0 = q
      · rw [if_pos hq, if_pos hq, Cnt.get_add]
        by_cases hs : s2 = s
        · rw [if_pos hs, if_pos ⟨hq.symm, hs⟩]
        · rw [if_neg hs, if_neg (by intro hh; exact hs hh.2)]
      · rw [if_neg hq, if_neg hq,
          if_neg (by intro hh; exact hq hh.1.symm)]
        omega
    · simp only [SegDict.addSeg, if_neg hp, SegDict.get]
      by_cases hq : p0 = q
      · rw [if_pos hq, if_pos hq,
          if_neg (by intro hh; rw [← hq] at hh; exact hp hh.1)]
        omega
      · rw [if_neg hq, if_neg hq, ih]

theorem countOf_add (sf : SegFreq) (segment : Seg) (count : Int) (p : Int)
    (sf2 : SegFreq) (hp : getSegmentPos segment = some p)
    (h : sf.add segment count = some sf2) :
    (∀ q s, sf2.countOf q s
        = sf.countOf q s + (if q = p ∧ s = segment then count else 0)) ∧
    sf2.segment_size = sf.segment_size ∧ sf2.segment_step = sf.segment_step := by
  unfold SegFreq.add at h
  rw [hp] at h
  have h2 : ({ sf with
      segments := SegDict.addSeg sf.segments p segment count,
      max_segpos := if sf.max_segpos > p then sf.max_segpos else p }) = sf2 :=
    Option.some.inj h
  subst h2
  refine ⟨?_, rfl, rfl⟩
  intro q s
  unfold SegFreq.countOf
  exact get_addSeg sf.segments p q segment s count

theorem addList_countOf (entries : List (Seg × Int)) :
    ∀ sf : SegFreq, (∀ e ∈ entries, (getSegmentPos e.1).isSome) →
    ∃ sf2, sf.addList entries = some sf2 ∧
      sf2.segment_size = sf.segment_size ∧ sf2.segment_step = sf.segment_step ∧
      ∀ q s, sf2.countOf q s = sf.countOf q s +
        (entries.map (fun e =>
          if getSegmentPos e.1 = some q ∧ e.1 = s then e.2 else 0)).sum := by
  induction entries with
  | nil =>
    intro sf _
    exact ⟨sf, rfl, rfl, rfl, by intro q s; simp⟩
  | cons e rest ih =>
    intro sf hall
    have he : (getSegmentPos e.1).isSome := hall e (List.mem_cons_self e rest)
    rcases hp : getSegmentPos e.1 with _ | p
    · rw [hp] at he; cases he
    · have hadd : sf.add e.1 e.2
          = some { sf with
              segments := SegDict.addSeg sf.segments p e.1 e.2,
              max_segpos := if sf.max_segpos > p then sf.max_segpos else p } := by
        unfold SegFreq.add
        rw [hp]
        rfl
      obtain ⟨sf2, hrec, hsize, hstep, hcount⟩ :=
        ih { sf with
              segments := SegDict.addSeg sf.segments p e.1 e.2,
              max_segpos := if sf.max_segpos > p then sf.max_segpos else p }
          (fun e2 he2 => hall e2 (List.mem_cons_of_mem e he2))
      refine ⟨sf2, ?_, hsize, hstep, ?_⟩
      · unfold SegFreq.addList
        rw [hadd]
        simp only [Option.some_bind]
        exact hrec
      · intro q s
        rw [hcount q s]
        have hmid : SegFreq.countOf
            { sf with
              segments := SegDict.addSeg sf.segments p e.1 e.2,
              max_segpos := if sf.max_segpos > p then sf.max_segpos else p } q s
            = sf.countOf q s + (if q = p ∧ s = e.1 then e.2 else 0) := by
          unfold SegFreq.countOf
          exact get_addSeg sf.segments p q e.1 s e.2
        rw [hmid]
        simp only [List.map_cons, List.sum_cons]
        have hco : (if getSegmentPos e.1 = some q ∧ e.1 = s then e.2 else 0)
            = (if q = p ∧ s = e.1 then e.2 else 0) := by
          rw [hp]
          by_cases h1 : p = q
          · subst h1
            by_cases h2 : e.1 = s
            · rw [if_pos ⟨rfl, h2⟩, if_pos ⟨rfl, h2.symm⟩]
            · rw [if_neg (by intro hh; exact h2 hh.2),
                if_neg (by intro hh; exact h2 hh.2.symm)]
          · rw [if_neg (by intro hh; exact h1 (Option.some.inj hh.1)),
              if_neg (by intro hh; exact h1 hh.1.symm)]
        rw [hco]
        ring


theorem sum_contrib_eq_get {α : Type} [DecidableEq α] (c : List (α × Int)) (s : α)
    (hnd : pairsKeysDistinct c = true) :
    (c.map (fun e => if e.1 = s then e.2 else 0)).sum = Cnt.get c s := by
  induction c with
  | nil => simp [Cnt.get]
  | cons e rest ih =>
    simp only [pairsKeysDistinct, Bool.and_eq_true, Bool.not_eq_true ] at hnd
    obtain ⟨hne, hnd2⟩ := hnd
    simp only [List.map_cons, List.sum_cons]
    by_cases h : e.1 = s
    · rw [if_pos h]
      have hzero : (rest.map (fun e2 => if e2.1 = s then e2.2 else 0)).sum = 0 := by
        have : ∀ e2 ∈ rest, (if e2.1 = s then e2.2 else 0) = 0 := by
          intro e2 he2
          rw [if_neg]
          intro hh
          have : rest.any (fun e2 => decide (e2.1 = e.1)) = true :=
            List.any_eq_true.mpr ⟨e2, he2, by rw [hh, h]; simp⟩
          rw [this] at hne; cases hne
        calc (rest.map (fun e2 => if e2.1 = s then e2.2 else 0)).sum
            = (rest.map (fun _ => (0 : Int))).sum := by
              apply congrArg
              exact List.map_congr_left this
          _ = 0 := by simp
      rw [hzero]
      unfold Cnt.get
      rw [if_pos h]
      ring
    · rw [if_neg h]
      unfold Cnt.get
      rw [if_neg h, ih hnd2]
      simp

theorem segDictGet_cons (p : Int) (c : Cnt Seg) (rest : SegDict) (q : Int) :
    SegDict.get ((p, c) :: rest) q = if p = q then c else SegDict.get rest q := rfl

theorem segDictGet_missing (d : SegDict) (q : Int)
    (h : ∀ pc ∈ d, pc.1 ≠ q) : SegDict.get d q = [] := by
  induction d with
  | nil => rfl
  | cons e rest ih =>
    unfold SegDict.get
    rw [if_neg (h e (List.mem_cons_self e rest))]
    exact ih (fun pc hpc => h pc (List.mem_cons_of_mem e hpc))

theorem flatMap_contrib (q : Int) (s : Seg) :
    ∀ d : SegDict, pairsKeysDistinct d = true →
    (∀ pc ∈ d, pairsKeysDistinct pc.2 = true ∧
      ∀ e ∈ pc.2, getSegmentPos e.1 = some pc.1) →
    ((d.flatMap (fun pc => pc.2)).map
        (fun e => if getSegmentPos e.1 = some q ∧ e.1 = s then e.2 else 0)).sum
      = Cnt.get (SegDict.get d q) s := by
  intro d
  induction d with
  | nil => intro _ _; simp [SegDict.get, Cnt.get]
  | cons pc rest ih =>
    intro hnd hall
    obtain ⟨p0, c0⟩ := pc
    simp only [pairsKeysDistinct, Bool.and_eq_true, Bool.not_eq_true ] at hnd
    obtain ⟨hne, hnd2⟩ := hnd
    obtain ⟨hc0nd, hc0pos⟩ := hall (p0, c0) (List.mem_cons_self _ rest)
    have hrest := fun pc hpc => hall pc (List.mem_cons_of_mem _ hpc)
    simp only [List.flatMap_cons, List.map_append, List.sum_append]
    by_cases hq : p0 = q
    · subst hq
      have h1 : (c0.map
          (fun e => if getSegmentPos e.1 = some p0 ∧ e.1 = s then e.2 else 0)).sum
          = Cnt.get c0 s := by
        have hcongr : ∀ e ∈ c0,
            (if getSegmentPos e.1 = some p0 ∧ e.1 = s then e.2 else 0)
              = (if e.1 = s then e.2 else 0) := by
          intro e he
          by_cases hs : e.1 = s
          · rw [if_pos ⟨hc0pos e he, hs⟩, if_pos hs]
          · rw [if_neg (fun hh => hs hh.2), if_neg hs]
        rw [List.map_congr_left hcongr]
        exact sum_contrib_eq_get c0 s hc0nd
      have h2 : ((rest.flatMap (fun pc2 => pc2.2)).map
          (fun e => if getSegmentPos e.1 = some p0 ∧ e.1 = s then e.2 else 0)).sum
          = 0 := by
        rw [ih hnd2 hrest]
        rw [segDictGet_missing rest p0 ?_]
        · rfl
        · intro pc2 hpc2 hkey
          have : rest.any (fun e2 => decide (e2.1 = p0)) = true :=
            List.any_eq_true.mpr ⟨pc2, hpc2, by rw [hkey]; simp⟩
          rw [this] at hne; cases hne
      rw [h1, h2, segDictGet_cons, if_pos rfl]
      omega
    · have h1 : (c0.map
          (fun e => if getSegmentPos e.1 = some q ∧ e.1 = s then e.2 else 0)).sum
          = 0 := by
        have hcongr : ∀ e ∈ c0,
            (if getSegmentPos e.1 = some q ∧ e.1 = s then e.2 else 0) = 0 := by
          intro e he
          rw [if_neg]
          intro hh
          rw [hc0pos e he] at hh
          exact hq (Option.some.inj hh.1)
        rw [List.map_congr_left hcongr]
        simp
      rw [h1, ih hnd2 hrest, segDictGet_cons, if_neg hq]
      omega

/-- C2 amended: SegFreq.update verifies only that the two SegFreqs have
identical segment_size (failing when the sizes differ), and does not
compare segment_step; when the sizes agree it folds every counted
segment of the other SegFreq into this one, adding each segment with its
count. -/
theorem segfreq_update_checks_only_size (sf other : SegFreq) :
    (sf.segment_size ≠ other.segment_size → SegFreq.update sf other = none) ∧
    (sf.segment_size = other.segment_size → other.wfSegments = true →
      ∃ sf2, SegFreq.update sf other = some sf2 ∧
        sf2.segment_size = sf.segment_size ∧ sf2.segment_step = sf.segment_step ∧
        ∀ pos seg, sf2.countOf pos seg = sf.countOf pos seg + other.countOf pos seg) := by
  constructor
  · intro hne
    unfold SegFreq.update
    rw [if_pos hne]
  · intro heq hwf
    simp only [SegFreq.wfSegments, Bool.and_eq_true, List.all_eq_true] at hwf
    obtain ⟨hndo, halls⟩ := hwf
    have hall : ∀ pc ∈ sf.segments, True := fun _ _ => trivial
    have hprops : ∀ pc ∈ other.segments, pairsKeysDistinct pc.2 = true ∧
        ∀ e ∈ pc.2, getSegmentPos e.1 = some pc.1 := by
      intro pc hpc
      have h2 := halls pc hpc
      exact ⟨h2.1, fun e he => of_decide_eq_true (h2.2 e he)⟩
    have hsome : ∀ e ∈ other.segments.flatMap (fun pc => pc.2),
        (getSegmentPos e.1).isSome := by
      intro e he
      obtain ⟨pc, hpc, hin⟩ := List.mem_flatMap.mp he
      rw [(hprops pc hpc).2 e hin]
      rfl
    obtain ⟨sf2, hal, hsz, hst, hct⟩ :=
      addList_countOf (other.segments.flatMap (fun pc => pc.2)) sf hsome
    refine ⟨sf2, ?_, hsz, hst, ?_⟩
    · unfold SegFreq.update
      rw [if_neg (fun hh => hh heq)]
      exact hal
    · intro q s
      rw [hct q s, flatMap_contrib q s other.segments hndo hprops]
      rfl

/-- Segment used by the C2 counterexample, anchored at position 1. -/
def segC2 : Seg := [some ⟨1, 0, 65⟩, some ⟨2, 0, 66⟩, some ⟨3, 0, 67⟩, none, none]

/-- C2 counterexample SegFreqs: same segment_size 5, different
segment_step (1 versus 3). -/
def sfC2a : SegFreq := ⟨5, 1, [], 0⟩

def sfC2b : SegFreq := ⟨5, 3, [(1, [(segC2, 2)])], 1⟩

/-- C2 counterexample: update on two SegFreqs with equal segment_size 5
but different segment_step (1 and 3) succeeds instead of failing with
IncompatibleSegFreq: the code never compares segment_step. -/
theorem segfreq_update_step_not_checked :
    mkSegFreq 5 1 = some sfC2a ∧
    (mkSegFreq 5 3).bind (fun s => s.add segC2 2) = some sfC2b ∧
    sfC2a.segment_step = 1 ∧ sfC2b.segment_step = 3 ∧
    (SegFreq.update sfC2a sfC2b).isSome = true := by
  refine ⟨by decide, by decide, by decide, by decide, by decide⟩

/-- C2 amended witness: the update characterization applied to the two
concrete SegFreqs of the counterexample. -/
theorem segfreq_update_checks_only_size_witness :
    (sfC2a.segment_size = sfC2b.segment_size ∧ sfC2b.wfSegments = true) ∧
    (∃ sf2, SegFreq.update sfC2a sfC2b = some sf2 ∧
      sf2.segment_size = sfC2a.segment_size ∧
      sf2.segment_step = sfC2a.segment_step ∧
      ∀ pos seg, sf2.countOf pos seg
        = sfC2a.countOf pos seg + sfC2b.countOf pos seg) :=
  ⟨⟨by decide, by decide⟩,
   (segfreq_update_checks_only_size sfC2a sfC2b).2 (by decide) (by decide)⟩

/-! ## segfreq.py: dump and load (the segfreq sidecar file)

The CSV layer is modelled at row granularity: dump produces the two
header values and the list of (pos, segment string, offsets string,
count) rows, each string a list of byte values; load consumes the same
structure (the Python csv writer and reader are inverse on these fields,
and the header regex recovers exactly the two written integers). -/

/-- One dumped data row: pos, segment column, offsets column, count. -/
abbrev DumpRow : Type := Int × List Nat × List Nat × Int

/-- A dumped segfreq file: the two comment-header values and the data
rows. -/
structure DumpFile where
  size_header : Int
  step_header : Int
  rows : List DumpRow
deriving DecidableEq

/-- The segment column: one character per slot, the base byte or the dot
(46) for None. -/
def encodeNas (s : Seg) : List Nat :=
  s.map (fun slot =>
    match slot with
    | none => 46
    | some nd => nd.na)

/-- The offsets character for one adjacent pair of slots: dot unless both
slots are nodes at the same position (an insertion), then plus (43). -/
def offsetChar : Option PosNA → Option PosNA → Nat
  | none, _ => 46
  | some _, none => 46
  | some a, some b => if a.pos < b.pos then 46 else 43

/-- The offsets column over the adjacent pairs of slots (Python
pairwise). -/
def offsetsAux : Option PosNA → List (Option PosNA) → List Nat
  | _, [] => []
  | prev, cur :: rest => offsetChar prev cur :: offsetsAux cur rest

def encodeOffsets : Seg → List Nat
  | [] => []
  | a :: rest => offsetsAux a rest

/-- The sort key of dump for segments within one position: the tuple of
the bp values of the real nodes followed by their na values (Python
tuple comparison is lexicographic, shorter tuples first on ties). -/
def segKey (s : Seg) : List Nat :=
  (s.filterMap id).map PosNA.bp ++ (s.filterMap id).map PosNA.na

/-- Strict lexicographic order on Nat lists (Python tuple less-than). -/
def lexLtNat : List Nat → List Nat → Bool
  | [], [] => false
  | [], _ :: _ => true
  | _ :: _, [] => false
  | a :: as2, b :: bs2 =>
    if a < b then true else if b < a then false else lexLtNat as2 bs2

/-- Stable ascending insertion by a Nat-list key (ties keep earlier
elements first, like Python sorted). -/
def insertAscBy {β : Type} (key : β → List Nat) (x : β) : List β → List β
  | [] => [x]
  | y :: ys => if lexLtNat (key y) (key x) then y :: insertAscBy key x ys
               else x :: y :: ys

def sortByKey {β : Type} (key : β → List Nat) (l : List β) : List β :=
  l.foldr (insertAscBy key) []

/-- Stable ascending insertion sort of the position dict by position
(Python sorted(self._segments.items())). -/
def insertAscPos (x : Int × Cnt Seg) : SegDict → SegDict
  | [] => [x]
  | y :: ys => if y.1 < x.1 then y :: insertAscPos x ys else x :: y :: ys

def sortByPos (d : SegDict) : SegDict := d.foldr insertAscPos []

/-- The data rows of SegFreq.dump: positions ascending, segments within a
position ascending by their (bps, nas) key. -/
def dumpRows (sf : SegFreq) : List DumpRow :=
  (sortByPos sf.segments).flatMap (fun pc =>
    (sortByKey (fun e => segKey e.1) pc.2).map
      (fun e => (pc.1, encodeNas e.1, encodeOffsets e.1, e.2)))

/-- SegFreq.dump from segfreq.py, at row granularity. -/
def dump (sf : SegFreq) : DumpFile :=
  ⟨sf.segment_size, sf.segment_step, dumpRows sf⟩

/-- The row-decoding loop of SegFreq.load: walk the zipped
(offset, base) characters with the running (prev_pos, prev_bp) state.
61 is the ord of the equals sign prepended before the offsets column,
43 the plus sign, 46 the dot. -/
def decodeSeg : Int → Nat → List (Nat × Nat) → Seg
  | _, _, [] => []
  | pp, pb, (off, na) :: rest =>
    if off = 61 then
      (if na = 46 then none else some ⟨pp, 0, na⟩) :: decodeSeg pp pb rest
    else if off = 43 then
      some ⟨pp, pb + 1, na⟩ :: decodeSeg pp (pb + 1) rest
    else if na = 46 then
      none :: decodeSeg (pp + 1) 0 rest
    else
      some ⟨pp + 1, 0, na⟩ :: decodeSeg (pp + 1) 0 rest

/-- The segment encoded by one dumped row. -/
def rowSegment (row : DumpRow) : Seg :=
  decodeSeg row.1 0 ((61 :: row.2.2.1).zip row.2.1)

/-- SegFreq.load from segfreq.py: construct from the header values (the
constructor validates them), then add every decoded row via add. -/
def loadFile (f : DumpFile) : Option SegFreq :=
  (mkSegFreq f.size_header f.step_header).bind (fun sf0 =>
    sf0.addList (f.rows.map (fun row => (rowSegment row, row.2.2.2))))

/-! ### Well-formed segments (the Segment invariant of the data model)

A segment is well-formed for its anchor when its slots describe the
contiguous run of reference positions starting at the anchor: a None
slot or a fresh node advances the position by one, an insertion node
repeats the position of the immediately preceding real node with the
next bp, and no real node carries the dot byte (46) that dump uses for
None slots. -/

def wfAux : Int → Nat → Bool → List (Option PosNA) → Bool
  | _, _, _, [] => true
  | basePos, _, _, none :: rest => wfAux (basePos + 1) 0 false rest
  | basePos, curBp, lastReal, some nd :: rest =>
    if nd.pos = basePos + 1 ∧ nd.bp = 0 ∧ nd.na ≠ 46 then
      wfAux (basePos + 1) 0 true rest
    else if lastReal = true ∧ nd.pos = basePos ∧ nd.bp = curBp + 1 ∧ nd.na ≠ 46 then
      wfAux basePos (curBp + 1) true rest
    else false

def wfSeg (anchor : Int) (s : Seg) : Bool :=
  wfAux (anchor - 1) 0 false s && s.any (fun slot => slot.isSome)

theorem decode_encode_tail :
    ∀ (rest : List (Option PosNA)) (prev : Option PosNA) (basePos : Int) (curBp : Nat),
    wfAux basePos curBp prev.isSome rest = true →
    (∀ nd, prev = some nd → nd.pos = basePos ∧ nd.bp = curBp) →
    decodeSeg basePos curBp ((offsetsAux prev rest).zip (encodeNas rest)) = rest := by
  intro rest
  induction rest with
  | nil => intro prev basePos curBp _ _; rfl
  | cons cur rest2 ih =>
    intro prev basePos curBp hwf hprev
    cases cur with
    | none =>
      have hz : (offsetsAux prev (none :: rest2)).zip (encodeNas (none :: rest2))
          = (offsetChar prev none, 46) :: (offsetsAux none rest2).zip (encodeNas rest2) := by
        simp [offsetsAux, encodeNas]
      rw [hz]
      have hoff : offsetChar prev none = 46 := by
        cases prev with
        | none => rfl
        | some pd => rfl
      rw [hoff]
      unfold decodeSeg
      rw [if_neg (by omega), if_neg (by omega), if_pos rfl]
      have hwf2 : wfAux (basePos + 1) 0 (Option.isSome (none : Option PosNA)) rest2 = true := by
        simpa [wfAux] using hwf
      rw [ih none (basePos + 1) 0 hwf2 (by intro nd h; cases h)]
    | some nd =>
      simp only [wfAux] at hwf
      by_cases hadv : nd.pos = basePos + 1 ∧ nd.bp = 0 ∧ nd.na ≠ 46
      · rw [if_pos hadv] at hwf
        have hz : (offsetsAux prev (some nd :: rest2)).zip (encodeNas (some nd :: rest2))
            = (offsetChar prev (some nd), nd.na)
              :: (offsetsAux (some nd) rest2).zip (encodeNas rest2) := by
          simp [offsetsAux, encodeNas]
        rw [hz]
        have hoff : offsetChar prev (some nd) = 46 := by
          cases prev with
          | none => rfl
          | some pd =>
            have hpd := hprev pd rfl
            show (if pd.pos < nd.pos then (46 : Nat) else 43) = 46
            rw [if_pos (by omega)]
        rw [hoff]
        unfold decodeSeg
        rw [if_neg (by omega), if_neg (by omega), if_neg hadv.2.2]
        have hnd : (⟨basePos + 1, 0, nd.na⟩ : PosNA) = nd := by
          obtain ⟨p1, b1, n1⟩ := nd
          simp only at hadv
          simp [hadv.1, hadv.2.1]
        rw [hnd, ih (some nd) (basePos + 1) 0 (by simpa using hwf)
          (by intro nd2 h2; cases h2; exact ⟨hadv.1, hadv.2.1⟩)]
      · rw [if_neg hadv] at hwf
        by_cases hins : prev.isSome = true ∧ nd.pos = basePos ∧ nd.bp = curBp + 1 ∧ nd.na ≠ 46
        · rw [if_pos hins] at hwf
          obtain ⟨hreal, hpos, hbp, hna⟩ := hins
          rcases prev with _ | pd
          · cases hreal
          · have hpd := hprev pd rfl
            have hz : (offsetsAux (some pd) (some nd :: rest2)).zip
                  (encodeNas (some nd :: rest2))
                = (offsetChar (some pd) (some nd), nd.na)
                  :: (offsetsAux (some nd) rest2).zip (encodeNas rest2) := by
              simp [offsetsAux, encodeNas]
            rw [hz]
            have hoff : offsetChar (some pd) (some nd) = 43 := by
              show (if pd.pos < nd.pos then (46 : Nat) else 43) = 43
              rw [if_neg (by omega)]
            rw [hoff]
            unfold decodeSeg
            rw [if_neg (by omega), if_pos rfl]
            have hnd : (⟨basePos, curBp + 1, nd.na⟩ : PosNA) = nd := by
              obtain ⟨p1, b1, n1⟩ := nd
              simp only at hpos hbp
              simp [hpos, hbp]
            rw [hnd, ih (some nd) basePos (curBp + 1) (by simpa using hwf)
              (by intro nd2 h2; cases h2; exact ⟨hpos, hbp⟩)]
        · rw [if_neg (by
            intro hh
            exact hins ⟨hh.1, hh.2.1, hh.2.2.1, hh.2.2.2⟩)] at hwf
          cases hwf

/-- On a well-formed segment, the load decoding inverts the dump
encoding exactly. -/
theorem decode_encode (anchor : Int) (s : Seg) (hwf : wfSeg anchor s = true) :
    decodeSeg anchor 0 ((61 :: encodeOffsets s).zip (encodeNas s)) = s := by
  unfold wfSeg at hwf
  rw [Bool.and_eq_true] at hwf
  obtain ⟨hwf, _⟩ := hwf
  cases s with
  | nil => rfl
  | cons a rest =>
    have hz : (61 :: encodeOffsets (a :: rest)).zip (encodeNas (a :: rest))
        = ((61 : Nat), match a with | none => (46 : Nat) | some nd => nd.na)
          :: (offsetsAux a rest).zip (encodeNas rest) := by
      cases a <;> simp [encodeOffsets, encodeNas]
    rw [hz]
    have hbase : anchor - 1 + 1 = anchor := by omega
    cases a with
    | none =>
      unfold decodeSeg
      rw [if_pos rfl, if_pos rfl]
      simp only [wfAux] at hwf
      rw [hbase] at hwf
      rw [decode_encode_tail rest none anchor 0 (by simpa using hwf)
        (by intro nd h; cases h)]
    | some nd =>
      simp only [wfAux] at hwf
      by_cases hadv : nd.pos = anchor - 1 + 1 ∧ nd.bp = 0 ∧ nd.na ≠ 46
      · rw [if_pos hadv] at hwf
        rw [hbase] at hwf
        unfold decodeSeg
        rw [if_pos rfl, if_neg hadv.2.2]
        have hnd : (⟨anchor, 0, nd.na⟩ : PosNA) = nd := by
          obtain ⟨p1, b1, n1⟩ := nd
          simp only at hadv
          have hp1 : p1 = anchor := by
            have := hadv.1
            omega
          simp [hp1, hadv.2.1]
        rw [hnd, decode_encode_tail rest (some nd) anchor 0 (by simpa using hwf)
          (by
            intro nd2 h2
            cases h2
            constructor
            · have := hadv.1; omega
            · exact hadv.2.1)]
      · rw [if_neg hadv, if_neg (by simp)] at hwf
        cases hwf

theorem getpos_of_wfAux :
    ∀ (s : List (Option PosNA)) (basePos : Int) (curBp : Nat) (i : Nat),
    wfAux basePos curBp false s = true →
    s.any (fun slot => slot.isSome) = true →
    getSegmentPosAux i s = some (basePos + 1 - i) := by
  intro s
  induction s with
  | nil => intro _ _ _ _ hsome; simp at hsome
  | cons a rest ih =>
    intro basePos curBp i hwf hsome
    cases a with
    | none =>
      simp only [wfAux] at hwf
      unfold getSegmentPosAux
      have hsome2 : rest.any (fun slot => slot.isSome) = true := by
        simpa using hsome
      rw [ih (basePos + 1) 0 (i + 1) hwf hsome2]
      congr 1
      omega
    | some nd =>
      simp only [wfAux] at hwf
      by_cases hadv : nd.pos = basePos + 1 ∧ nd.bp = 0 ∧ nd.na ≠ 46
      · unfold getSegmentPosAux
        rw [hadv.1]
      · rw [if_neg hadv, if_neg (by simp)] at hwf
        cases hwf

/-- A well-formed segment is keyed by its anchor: get_segment_pos
recovers exactly the anchor. -/
theorem wf_getpos (anchor : Int) (s : Seg) (h : wfSeg anchor s = true) :
    getSegmentPos s = some anchor := by
  unfold wfSeg at h
  rw [Bool.and_eq_true] at h
  unfold getSegmentPos
  rw [getpos_of_wfAux s (anchor - 1) 0 0 h.1 h.2]
  congr 1
  omega

theorem insertAscBy_perm {β : Type} (key : β → List Nat) (x : β) :
    ∀ l : List β, (insertAscBy key x l).Perm (x :: l) := by
  intro l
  induction l with
  | nil => exact List.Perm.refl _
  | cons y ys ih =>
    unfold insertAscBy
    by_cases h : lexLtNat (key y) (key x) = true
    · rw [if_pos h]
      exact (ih.cons y).trans (List.Perm.swap x y ys)
    · rw [if_neg h]

theorem sortByKey_perm {β : Type} (key : β → List Nat) :
    ∀ l : List β, (sortByKey key l).Perm l := by
  intro l
  induction l with
  | nil => exact List.Perm.refl _
  | cons a l2 ih =>
    have h1 : sortByKey key (a :: l2) = insertAscBy key a (sortByKey key l2) := rfl
    rw [h1]
    exact (insertAscBy_perm key a (sortByKey key l2)).trans (ih.cons a)

theorem insertAscPos_perm (x : Int × Cnt Seg) :
    ∀ d : SegDict, (insertAscPos x d).Perm (x :: d) := by
  intro d
  induction d with
  | nil => exact List.Perm.refl _
  | cons y ys ih =>
    unfold insertAscPos
    by_cases h : y.1 < x.1
    · rw [if_pos h]
      exact (ih.cons y).trans (List.Perm.swap x y ys)
    · rw [if_neg h]

theorem sortByPos_perm : ∀ d : SegDict, (sortByPos d).Perm d := by
  intro d
  induction d with
  | nil => exact List.Perm.refl _
  | cons a d2 ih =>
    have h1 : sortByPos (a :: d2) = insertAscPos a (sortByPos d2) := rfl
    rw [h1]
    exact (insertAscPos_perm a (sortByPos d2)).trans (ih.cons a)

theorem dump_rows_decode (sf : SegFreq)
    (hseg : ∀ pc ∈ sf.segments, ∀ e ∈ pc.2, wfSeg pc.1 e.1 = true) :
    (dumpRows sf).map (fun row => (rowSegment row, row.2.2.2))
      = (sortByPos sf.segments).flatMap
          (fun pc => sortByKey (fun e => segKey e.1) pc.2) := by
  unfold dumpRows
  rw [List.map_flatMap]
  apply List.flatMap_congr
  intro pc hpc
  have hpc2 : pc ∈ sf.segments := ((sortByPos_perm sf.segments).mem_iff).mp hpc
  rw [List.map_map]
  have hid : ∀ e ∈ sortByKey (fun e2 => segKey e2.1) pc.2,
      ((fun row : DumpRow => (rowSegment row, row.2.2.2)) ∘
        (fun e2 => (pc.1, encodeNas e2.1, encodeOffsets e2.1, e2.2))) e = e := by
    intro e he
    have hin : e ∈ pc.2 := ((sortByKey_perm _ pc.2).mem_iff).mp he
    have hwfe := hseg pc hpc2 e hin
    obtain ⟨s0, c0⟩ := e
    simp only [Function.comp]
    unfold rowSegment
    simp only
    rw [decode_encode pc.1 s0 hwfe]
  rw [List.map_congr_left hid]
  exact List.map_id _

/-- C3: dump followed by load round-trips every SegFreq whose segments
satisfy the data-model Segment invariant (contiguous positions from the
anchor, consecutive insertion offsets after a real node, no real node
carrying the dot byte): the loaded SegFreq has the same segment_size,
the same segment_step, and the same position-to-counted-segments
mapping. -/
theorem segfreq_dump_load_roundtrip (sf : SegFreq)
    (hstep : 1 ≤ sf.segment_step) (hsize : sf.segment_step + 2 ≤ sf.segment_size)
    (hwf : sf.wfSegments = true)
    (hseg : ∀ pc ∈ sf.segments, ∀ e ∈ pc.2, wfSeg pc.1 e.1 = true) :
    ∃ sf2, loadFile (dump sf) = some sf2 ∧
      sf2.segment_size = sf.segment_size ∧ sf2.segment_step = sf.segment_step ∧
      ∀ pos seg, sf2.countOf pos seg = sf.countOf pos seg := by
  have hmk : mkSegFreq sf.segment_size sf.segment_step
      = some ⟨sf.segment_size, sf.segment_step, [], 0⟩ := by
    unfold mkSegFreq
    rw [if_neg (by omega), if_neg (by omega)]
  have hmap := dump_rows_decode sf hseg
  have hsome : ∀ e ∈ (sortByPos sf.segments).flatMap
      (fun pc => sortByKey (fun e2 => segKey e2.1) pc.2),
      (getSegmentPos e.1).isSome := by
    intro e he
    obtain ⟨pc, hpc, hin⟩ := List.mem_flatMap.mp he
    have hpc2 : pc ∈ sf.segments := ((sortByPos_perm sf.segments).mem_iff).mp hpc
    have hin2 : e ∈ pc.2 := ((sortByKey_perm _ pc.2).mem_iff).mp hin
    rw [wf_getpos pc.1 e.1 (hseg pc hpc2 e hin2)]
    rfl
  obtain ⟨sf2, hal, hsz, hst, hct⟩ :=
    addList_countOf _ ⟨sf.segment_size, sf.segment_step, [], 0⟩ hsome
  refine ⟨sf2, ?_, hsz, hst, ?_⟩
  · unfold loadFile
    show (mkSegFreq sf.segment_size sf.segment_step).bind _ = some sf2
    rw [hmk]
    simp only [Option.some_bind]
    show SegFreq.addList _ ((dumpRows sf).map (fun row => (rowSegment row, row.2.2.2)))
      = some sf2
    rw [hmap]
    exact hal
  · intro q s
    rw [hct q s]
    have hperm : List.Perm
        ((sortByPos sf.segments).flatMap (fun pc => sortByKey (fun e2 => segKey e2.1) pc.2))
        (sf.segments.flatMap (fun pc => pc.2)) :=
      (List.Perm.flatMap_left (sortByPos sf.segments)
        (fun pc _ => sortByKey_perm (fun e2 => segKey e2.1) pc.2)).trans
        ((sortByPos_perm sf.segments).flatMap_right (fun pc => pc.2))
    have hsum := (hperm.map
      (fun e => if getSegmentPos e.1 = some q ∧ e.1 = s then e.2 else 0)).sum_eq
    rw [hsum]
    simp only [SegFreq.wfSegments, Bool.and_eq_true, List.all_eq_true] at hwf
    obtain ⟨hndo, halls⟩ := hwf
    have hprops : ∀ pc ∈ sf.segments, pairsKeysDistinct pc.2 = true ∧
        ∀ e ∈ pc.2, getSegmentPos e.1 = some pc.1 := by
      intro pc hpc
      have h2 := halls pc hpc
      exact ⟨h2.1, fun e he => of_decide_eq_true (h2.2 e he)⟩
    rw [flatMap_contrib q s sf.segments hndo hprops]
    have h0 : SegFreq.countOf ⟨sf.segment_size, sf.segment_step, [], 0⟩ q s = 0 := rfl
    rw [h0]
    unfold SegFreq.countOf
    omega

/-- C3 witness: the round-trip theorem applied to the concrete SegFreq
with one well-formed segment anchored at 3. -/
theorem segfreq_dump_load_roundtrip_witness :
    (1 ≤ sfC1.segment_step ∧ sfC1.segment_step + 2 ≤ sfC1.segment_size ∧
     sfC1.wfSegments = true ∧
     ∀ pc ∈ sfC1.segments, ∀ e ∈ pc.2, wfSeg pc.1 e.1 = true) ∧
    (∃ sf2, loadFile (dump sfC1) = some sf2 ∧
      sf2.segment_size = sfC1.segment_size ∧
      sf2.segment_step = sfC1.segment_step ∧
      ∀ pos seg, sf2.countOf pos seg = sfC1.countOf pos seg) :=
  ⟨⟨by decide, by decide, by decide, by decide⟩,
   segfreq_dump_load_roundtrip sfC1 (by decide) (by decide) (by decide) (by decide)⟩

/-! ## segfreq.py: get_consensus -/

/-- Generic insertion-ordered association list lookup with a default. -/
def alistGet {κ ν : Type} [DecidableEq κ] (dflt : ν) : List (κ × ν) → κ → ν
  | [], _ => dflt
  | (k0, v0) :: rest, k => if k0 = k then v0 else alistGet dflt rest k

def alistHas {κ ν : Type} [DecidableEq κ] : List (κ × ν) → κ → Bool
  | [], _ => false
  | (k0, _) :: rest, k => if k0 = k then true else alistHas rest k

/-- Python d[k] = v on an insertion-ordered dict. -/
def alistSet {κ ν : Type} [DecidableEq κ] : List (κ × ν) → κ → ν → List (κ × ν)
  | [], k, v => [(k, v)]
  | (k0, v0) :: rest, k, v =>
    if k0 = k then (k0, v) :: rest else (k0, v0) :: alistSet rest k v

/-- Python range(start, stop, step) for a positive step: number of
elements. -/
def rangeLen (start stop : Int) (step : Nat) : Nat :=
  if start < stop then (((stop - start - 1) / (step : Int)) + 1).toNat else 0

/-- Python range(start, stop, step) for a positive step, ascending. -/
def intRangeUp (start stop : Int) (step : Nat) : List Int :=
  (List.range (rangeLen start stop step)).map
    (fun i : Nat => start + (step : Int) * (i : Int))

/-- Python range(start, stop, -step) for a positive step, descending. -/
def intRangeDown (start stop : Int) (step : Nat) : List Int :=
  (List.range (rangeLen stop start step)).map
    (fun i : Nat => start - (step : Int) * (i : Int))

/-- Accumulation state of get_consensus: the (pos, bp) buckets of PosNA
counters and the per-position column totals, both insertion-ordered. -/
structure ConsAcc where
  consensus : List ((Int × Nat) × Cnt PosNA)
  posTotal : List (Int × Int)

/-- Processing of one anchor window in get_consensus: for each counted
segment (only the most common one at level 1 or higher), record every
node that falls inside [anchor, anchor + step) and inside the requested
range into its (pos, bp) bucket and set the column total. -/
def consAnchor (sf : SegFreq) (pos_start pos_end : Int) (level : ℚ)
    (acc : ConsAcc) (pos : Int) : ConsAcc :=
  if SegDict.hasKey sf.segments pos then
    let entries := SegDict.get sf.segments pos
    let total := Cnt.sumValues entries
    let iter := if level ≥ 1 then (Cnt.mostCommon entries).take 1
                else Cnt.mostCommon entries
    iter.foldl (fun acc2 e =>
      e.1.foldl (fun acc3 slot =>
        match slot with
        | none => acc3
        | some nd =>
          if nd.pos ≥ pos + sf.segment_step ∨ nd.pos < pos_start ∨ nd.pos > pos_end
          then acc3
          else
            { consensus := alistSet acc3.consensus (nd.pos, nd.bp)
                (Cnt.add (alistGet [] acc3.consensus (nd.pos, nd.bp)) nd e.2),
              posTotal := alistSet acc3.posTotal nd.pos total })
        acc2)
      acc
  else acc

/-- The bucket-collection phase of get_consensus over the anchors of the
requested range. -/
def consBuild (sf : SegFreq) (pos_start pos_end : Int) (level : ℚ) : ConsAcc :=
  (intRangeUp (pos_start - (pos_start - 1) % sf.segment_step)
      ((pos_end - (pos_end - 1) % sf.segment_step) + 1)
      sf.segment_step.toNat).foldl
    (consAnchor sf pos_start pos_end level) ⟨[], []⟩

/-- The qualified PosNAs of one (pos, bp) bucket: every entry at level 1
or higher, otherwise the entries whose count reaches the fraction of the
column total. -/
def qualifiedAt (acc : ConsAcc) (level : ℚ) (pos : Int) (bp : Nat) : List PosNA :=
  ((Cnt.mostCommon (alistGet [] acc.consensus (pos, bp))).filter
    (fun pr => level ≥ 1 ∨ ((pr.2 : ℚ) ≥ ((alistGet 0 acc.posTotal pos : Int) : ℚ) * level))).map
    Prod.fst

/-- The while (pos, bp) in consensus loop of get_consensus, with fuel (a
bound on the bp chain length); the merge arity failure propagates as
none. -/
def consBpLoop (acc : ConsAcc) (level : ℚ) (pos : Int) : Nat → Nat → Option (List PosNA)
  | 0, _ => some []
  | fuel + 1, bp =>
    if alistHas acc.consensus (pos, bp) then
      (consBpLoop acc level pos fuel (bp + 1)).bind (fun rest =>
        if qualifiedAt acc level pos bp = [] then some rest
        else (mergePosnasStar (qualifiedAt acc level pos bp)).map (fun m => m :: rest))
    else some []

/-- SegFreq.get_consensus from segfreq.py: collect the qualified buckets,
then emit one merged PosNA per populated (pos, bp) bucket, positions
ascending, insertion offsets ascending; a raise inside the merge is
none. -/
def getConsensus (sf : SegFreq) (pos_start pos_end : Int) (level : ℚ) :
    Option (List PosNA) :=
  (intRangeUp pos_start (pos_end + 1) 1).foldl
    (fun racc pos => racc.bind (fun l =>
      (consBpLoop (consBuild sf pos_start pos_end level) level pos
        ((consBuild sf pos_start pos_end level).consensus.length + 1) 0).map
        (fun l2 => l ++ l2)))
    (some [])

/-! ### C7: shape of the get_consensus result -/

theorem mem_alistSet {κ ν : Type} [DecidableEq κ] :
    ∀ (l : List (κ × ν)) (k : κ) (v : ν), ∀ e ∈ alistSet l k v, e ∈ l ∨ e = (k, v) := by
  intro l k v
  induction l with
  | nil =>
    intro e he
    simp only [alistSet, List.mem_singleton] at he
    exact Or.inr he
  | cons x rest ih =>
    intro e he
    obtain ⟨k0, v0⟩ := x
    unfold alistSet at he
    by_cases hk : k0 = k
    · rw [if_pos hk] at he
      rcases List.mem_cons.mp he with he | he
      · subst hk
        exact Or.inr (by rw [he])
      · exact Or.inl (List.mem_cons_of_mem _ he)
    · rw [if_neg hk] at he
      rcases List.mem_cons.mp he with he | he
      · exact Or.inl (by rw [he]; exact List.mem_cons_self _ _)
      · rcases ih e he with h2 | h2
        · exact Or.inl (List.mem_cons_of_mem _ h2)
        · exact Or.inr h2

theorem alistGet_mem {κ ν : Type} [DecidableEq κ] (dflt : ν) :
    ∀ (l : List (κ × ν)) (k : κ), alistGet dflt l k ≠ dflt →
      (k, alistGet dflt l k) ∈ l := by
  intro l k
  induction l with
  | nil => intro h; exact absurd rfl h
  | cons x rest ih =>
    intro h
    obtain ⟨k0, v0⟩ := x
    unfold alistGet at h ⊢
    by_cases hk : k0 = k
    · rw [if_pos hk] at h ⊢
      subst hk
      exact List.mem_cons_self _ _
    · rw [if_neg hk] at h ⊢
      exact List.mem_cons_of_mem _ (ih h)

theorem mem_cnt_add {α : Type} [DecidableEq α] :
    ∀ (c : Cnt α) (k : α) (v : Int), ∀ e ∈ Cnt.add c k v, e ∈ c ∨ e.1 = k := by
  intro c k v
  induction c with
  | nil =>
    intro e he
    simp only [Cnt.add, List.mem_singleton] at he
    exact Or.inr (by rw [he])
  | cons x rest ih =>
    intro e he
    obtain ⟨k0, v0⟩ := x
    unfold Cnt.add at he
    by_cases hk : k0 = k
    · rw [if_pos hk] at he
      rcases List.mem_cons.mp he with he | he
      · exact Or.inr (by rw [he]; exact hk)
      · exact Or.inl (List.mem_cons_of_mem _ he)
    · rw [if_neg hk] at he
      rcases List.mem_cons.mp he with he | he
      · exact Or.inl (by rw [he]; exact List.mem_cons_self _ _)
      · rcases ih e he with h2 | h2
        · exact Or.inl (List.mem_cons_of_mem _ h2)
        · exact Or.inr h2

theorem insertDesc_perm {α : Type} [DecidableEq α] (x : α × Int) :
    ∀ c : Cnt α, (Cnt.insertDesc x c).Perm (x :: c) := by
  intro c
  induction c with
  | nil => exact List.Perm.refl _
  | cons y ys ih =>
    unfold Cnt.insertDesc
    by_cases h : y.2 > x.2
    · rw [if_pos h]
      exact (ih.cons y).trans (List.Perm.swap x y ys)
    · rw [if_neg h]

theorem mostCommon_perm {α : Type} [DecidableEq α] :
    ∀ c : Cnt α, (Cnt.mostCommon c).Perm c := by
  intro c
  induction c with
  | nil => exact List.Perm.refl _
  | cons e rest ih =>
    have h1 : Cnt.mostCommon (e :: rest) = Cnt.insertDesc e (Cnt.mostCommon rest) := rfl
    rw [h1]
    exact (insertDesc_perm e (Cnt.mostCommon rest)).trans (ih.cons e)

theorem mergePosnas_key (p q m : PosNA) (h : mergePosnas p q = some m) :
    m.pos = p.pos ∧ m.bp = p.bp := by
  unfold mergePosnas at h
  by_cases h1 : p.pos ≠ q.pos
  · rw [if_pos h1] at h; cases h
  · rw [if_neg h1] at h
    by_cases h2 : p.bp ≠ q.bp
    · rw [if_pos h2] at h; cases h
    · rw [if_neg h2] at h
      by_cases h3 : p.na = GAP ∨ q.na = GAP
      · rw [if_pos h3] at h
        cases Option.some.inj h
        exact ⟨rfl, rfl⟩
      · rw [if_neg h3] at h
        by_cases h4 : p.na = q.na
        · rw [if_pos h4] at h
          cases Option.some.inj h
          exact ⟨rfl, rfl⟩
        · rw [if_neg h4] at h
          rcases hr : REVERSED_AMBIGUOUS_NAS
              (sortedDedup (expandNa p.na ++ expandNa q.na)) with _ | c
          · rw [hr] at h; cases h
          · rw [hr] at h
            simp only [Option.map_some'] at h
            cases Option.some.inj h
            exact ⟨rfl, rfl⟩

theorem mergePosnasStar_key (l : List PosNA) (m : PosNA)
    (h : mergePosnasStar l = some m) : ∃ p ∈ l, m.pos = p.pos ∧ m.bp = p.bp := by
  unfold mergePosnasStar at h
  match l, h with
  | [a, b], h =>
    exact ⟨a, List.mem_cons_self _ _, mergePosnas_key a b m h⟩

/-- Invariant of the consensus buckets: every stored PosNA carries
exactly the (pos, bp) of its bucket key, and every bucket position lies
in the requested range. -/
def consInv (a b : Int) (acc : ConsAcc) : Prop :=
  ∀ kc ∈ acc.consensus, ∀ ec ∈ kc.2,
    (ec : PosNA × Int).1.pos = kc.1.1 ∧ ec.1.bp = kc.1.2 ∧ a ≤ kc.1.1 ∧ kc.1.1 ≤ b

theorem consInv_insert (a b : Int) (acc : ConsAcc) (nd : PosNA) (count total : Int)
    (hinv : consInv a b acc) (hlo : a ≤ nd.pos) (hhi : nd.pos ≤ b) :
    consInv a b
      { consensus := alistSet acc.consensus (nd.pos, nd.bp)
          (Cnt.add (alistGet [] acc.consensus (nd.pos, nd.bp)) nd count),
        posTotal := alistSet acc.posTotal nd.pos total } := by
  intro kc hkc ec hec
  simp only at hkc
  rcases mem_alistSet acc.consensus (nd.pos, nd.bp) _ kc hkc with h2 | h2
  · exact hinv kc h2 ec hec
  · subst h2
    simp only at hec ⊢
    rcases mem_cnt_add _ nd count ec hec with h3 | h3
    · by_cases hne : alistGet [] acc.consensus (nd.pos, nd.bp) = []
      · rw [hne] at h3; cases h3
      · have hmem := alistGet_mem [] acc.consensus (nd.pos, nd.bp) hne
        exact hinv _ hmem ec h3
    · rw [h3]
      exact ⟨rfl, rfl, hlo, hhi⟩

theorem consInv_anchor (sf : SegFreq) (a b : Int) (level : ℚ) (pos : Int) :
    ∀ acc, consInv a b acc → consInv a b (consAnchor sf a b level acc pos) := by
  intro acc hinv
  unfold consAnchor
  by_cases hk : SegDict.hasKey sf.segments pos
  · rw [if_pos hk]
    simp only
    generalize (if level ≥ 1
      then (Cnt.mostCommon (SegDict.get sf.segments pos)).take 1
      else Cnt.mostCommon (SegDict.get sf.segments pos)) = iter
    induction iter generalizing acc with
    | nil => exact hinv
    | cons e rest ihe =>
      rw [List.foldl_cons]
      apply ihe
      generalize e.1 = slots
      induction slots generalizing acc with
      | nil => exact hinv
      | cons slot srest ihs =>
        rw [List.foldl_cons]
        apply ihs
        cases slot with
        | none => exact hinv
        | some nd =>
          simp only
          by_cases hg : nd.pos ≥ pos + sf.segment_step ∨ nd.pos < a ∨ nd.pos > b
          · rw [if_pos hg]
            exact hinv
          · rw [if_neg hg]
            push_neg at hg
            exact consInv_insert a b acc nd e.2 _ hinv (by omega) (by omega)
  · rw [if_neg hk]
    exact hinv

theorem consInv_build (sf : SegFreq) (a b : Int) (level : ℚ) :
    consInv a b (consBuild sf a b level) := by
  unfold consBuild
  generalize intRangeUp (a - (a - 1) % sf.segment_step)
      ((b - (b - 1) % sf.segment_step) + 1) sf.segment_step.toNat = anchors
  have h0 : consInv a b ⟨[], []⟩ := by
    intro kc hkc
    cases hkc
  generalize hacc : (⟨[], []⟩ : ConsAcc) = acc0
  rw [hacc] at h0
  clear hacc
  induction anchors generalizing acc0 with
  | nil => exact h0
  | cons p rest ih =>
    rw [List.foldl_cons]
    exact ih _ (consInv_anchor sf a b level p acc0 h0)

theorem qualifiedAt_mem (acc : ConsAcc) (level : ℚ) (pos : Int) (bp : Nat)
    (a b : Int) (hinv : consInv a b acc) :
    ∀ x ∈ qualifiedAt acc level pos bp,
      x.pos = pos ∧ x.bp = bp ∧ a ≤ pos ∧ pos ≤ b := by
  intro x hx
  unfold qualifiedAt at hx
  obtain ⟨pr, hpr, hfst⟩ := List.mem_map.mp hx
  have hpr2 := List.mem_of_mem_filter hpr
  have hpr3 : pr ∈ alistGet [] acc.consensus (pos, bp) :=
    ((mostCommon_perm _).mem_iff).mp hpr2
  have hne : alistGet ([] : Cnt PosNA) acc.consensus (pos, bp) ≠ [] := by
    intro hh
    rw [hh] at hpr3
    cases hpr3
  have hmem := alistGet_mem [] acc.consensus (pos, bp) hne
  have := hinv _ hmem pr hpr3
  rw [hfst] at this
  exact this

theorem consBpLoop_shape (acc : ConsAcc) (level : ℚ) (pos : Int)
    (a b : Int) (hinv : consInv a b acc) :
    ∀ (fuel bp : Nat) (l : List PosNA),
    consBpLoop acc level pos fuel bp = some l →
    List.Pairwise slotLt l ∧
      ∀ x ∈ l, x.pos = pos ∧ bp ≤ x.bp ∧ a ≤ pos ∧ pos ≤ b := by
  intro fuel
  induction fuel with
  | zero =>
    intro bp l h
    cases Option.some.inj h
    exact ⟨List.Pairwise.nil, by intro x hx; cases hx⟩
  | succ fuel ih =>
    intro bp l h
    unfold consBpLoop at h
    by_cases hk : alistHas acc.consensus (pos, bp)
    · rw [if_pos hk] at h
      rcases hrest : consBpLoop acc level pos fuel (bp + 1) with _ | rest
      · rw [hrest, Option.none_bind] at h; cases h
      · rw [hrest, Option.some_bind] at h
        obtain ⟨hpw, hball⟩ := ih (bp + 1) rest hrest
        by_cases hq : qualifiedAt acc level pos bp = []
        · rw [if_pos hq] at h
          cases Option.some.inj h
          refine ⟨hpw, ?_⟩
          intro x hx
          have := hball x hx
          exact ⟨this.1, by omega, this.2.2.1, this.2.2.2⟩
        · rw [if_neg hq] at h
          rcases hm : mergePosnasStar (qualifiedAt acc level pos bp) with _ | m
          · rw [hm, Option.map_none'] at h; cases h
          · rw [hm, Option.map_some'] at h
            cases Option.some.inj h
            obtain ⟨p, hp, hmp, hmb⟩ := mergePosnasStar_key _ m hm
            have hpq := qualifiedAt_mem acc level pos bp a b hinv p hp
            have hmpos : m.pos = pos := by rw [hmp, hpq.1]
            have hmbp : m.bp = bp := by rw [hmb, hpq.2.1]
            constructor
            · rw [List.pairwise_cons]
              refine ⟨?_, hpw⟩
              intro y hy
              have hyp := hball y hy
              right
              constructor
              · rw [hmpos, hyp.1]
              · rw [hmbp]
                omega
            · intro x hx
              rcases List.mem_cons.mp hx with hx | hx
              · subst hx
                exact ⟨hmpos, by omega, hpq.2.2.1, hpq.2.2.2⟩
              · have := hball x hx
                exact ⟨this.1, by omega, this.2.2.1, this.2.2.2⟩
    · rw [if_neg hk] at h
      cases Option.some.inj h
      exact ⟨List.Pairwise.nil, by intro x hx; cases hx⟩

theorem mem_intRangeUp_one (start stop p : Int) (h : p ∈ intRangeUp start stop 1) :
    start ≤ p ∧ p < stop := by
  by_cases hss : start < stop
  · unfold intRangeUp rangeLen at h
    rw [if_pos hss] at h
    simp only [Nat.cast_one, Int.ediv_one] at h
    obtain ⟨i, hi, hp⟩ := List.mem_map.mp h
    rw [List.mem_range] at hi
    omega
  · unfold intRangeUp rangeLen at h
    rw [if_neg hss] at h
    simp at h

theorem pairwise_intRangeUp (start stop : Int) (step : Nat) (hstep : 1 ≤ step) :
    List.Pairwise (· < ·) (intRangeUp start stop step) := by
  unfold intRangeUp
  rw [List.pairwise_map]
  apply (List.pairwise_lt_range _).imp
  intro i j hij
  have h1 : (step : Int) * i < (step : Int) * j := by
    apply mul_lt_mul_of_pos_left
    · exact_mod_cast hij
    · exact_mod_cast hstep
  omega

theorem consFold_none (acc : ConsAcc) (level : ℚ) (fuel : Nat) :
    ∀ poss : List Int,
    poss.foldl (fun racc pos => racc.bind (fun l =>
      (consBpLoop acc level pos fuel 0).map (fun l2 => l ++ l2))) none = none := by
  intro poss
  induction poss with
  | nil => rfl
  | cons p rest ih =>
    rw [List.foldl_cons, Option.none_bind]
    exact ih

theorem consFold_shape (acc : ConsAcc) (level : ℚ) (a b : Int) (fuel : Nat)
    (hinv : consInv a b acc) :
    ∀ (poss : List Int) (r0 r : List PosNA),
    List.Pairwise (· < ·) poss →
    List.Pairwise slotLt r0 →
    (∀ x ∈ r0, a ≤ x.pos ∧ x.pos ≤ b) →
    (∀ x ∈ r0, ∀ p ∈ poss, x.pos < p) →
    poss.foldl (fun racc pos => racc.bind (fun l =>
      (consBpLoop acc level pos fuel 0).map (fun l2 => l ++ l2))) (some r0) = some r →
    List.Pairwise slotLt r ∧ ∀ x ∈ r, a ≤ x.pos ∧ x.pos ≤ b := by
  intro poss
  induction poss with
  | nil =>
    intro r0 r _ hpw hb _ h
    cases Option.some.inj h
    exact ⟨hpw, hb⟩
  | cons p rest ih =>
    intro r0 r hposs hpw hb hlt h
    rw [List.foldl_cons, Option.some_bind] at h
    rcases hblk : consBpLoop acc level p fuel 0 with _ | blk
    · rw [hblk, Option.map_none'] at h
      rw [consFold_none acc level fuel rest] at h
      cases h
    · rw [hblk, Option.map_some'] at h
      obtain ⟨hbpw, hball⟩ := consBpLoop_shape acc level p a b hinv fuel 0 blk hblk
      rw [List.pairwise_cons] at hposs
      apply ih (r0 ++ blk) r hposs.2 ?_ ?_ ?_ h
      · rw [List.pairwise_append]
        refine ⟨hpw, hbpw, ?_⟩
        intro x hx y hy
        have hyp := (hball y hy).1
        left
        rw [hyp]
        exact hlt x hx p (List.mem_cons_self _ _)
      · intro x hx
        rcases List.mem_append.mp hx with hx | hx
        · exact hb x hx
        · have := hball x hx
          rw [this.1]
          exact ⟨this.2.2.1, this.2.2.2⟩
      · intro x hx p2 hp2
        rcases List.mem_append.mp hx with hx | hx
        · exact hlt x hx p2 (List.mem_cons_of_mem _ hp2)
        · rw [(hball x hx).1]
          exact hposs.1 p2 hp2

/-- C7 amended: whenever get_consensus returns (no merge-arity raise),
the result is a strictly increasing sequence of PosNAs, ordered by
(pos, bp), all of whose positions lie within [pos_start, pos_end];
positions with no qualifying observation contribute nothing (no None
placeholder), so the sequence length is not tied to the width of the
requested range. -/
theorem getConsensus_shape (sf : SegFreq) (pos_start pos_end : Int) (level : ℚ)
    (r : List PosNA) (h : getConsensus sf pos_start pos_end level = some r) :
    List.Pairwise slotLt r ∧ ∀ x ∈ r, pos_start ≤ x.pos ∧ x.pos ≤ pos_end := by
  unfold getConsensus at h
  have hinv := consInv_build sf pos_start pos_end level
  apply consFold_shape (consBuild sf pos_start pos_end level) level pos_start pos_end
    ((consBuild sf pos_start pos_end level).consensus.length + 1) hinv
    (intRangeUp pos_start (pos_end + 1) 1) [] r
  · exact pairwise_intRangeUp pos_start (pos_end + 1) 1 (by omega)
  · exact List.Pairwise.nil
  · intro x hx; cases hx
  · intro x hx; cases hx
  · exact h

/-- The empty SegFreq with segment_size 3 and segment_step 1 used by the
C7 counterexample. -/
def sfC7 : SegFreq := ⟨3, 1, [], 0⟩

/-- C7 counterexample: on an empty SegFreq, get_consensus(p, p, 1.0)
returns the empty tuple, not a single-element sequence: unobserved
positions are omitted entirely rather than emitted as None. -/
theorem getConsensus_not_spanning :
    mkSegFreq 3 1 = some sfC7 ∧
    getConsensus sfC7 5 5 1 = some [] ∧
    ([] : List PosNA).length ≠ 1 := by
  refine ⟨by decide, by decide, by decide⟩

/-- C7 amended witness: the shape theorem applied to the concrete empty
SegFreq at the single-position range. -/
theorem getConsensus_shape_witness :
    getConsensus sfC7 5 5 1 = some [] ∧
    (List.Pairwise slotLt ([] : List PosNA) ∧
      ∀ x ∈ ([] : List PosNA), (5 : Int) ≤ x.pos ∧ x.pos ≤ 5) :=
  ⟨by decide, getConsensus_shape sfC7 5 5 1 [] (by decide)⟩

/-! ## segfreq.py: get_patterns

The get_patterns method keeps four mutable counters (a per-position dict
of segment percentage counters, a per-position dict of segment count
counters, and flat seed counters for both) plus the two accumulating
pattern counters.  The Python loop interleaves filling the node_map with
the counter subtraction inside one for loop over selected_segments; the
two halves touch disjoint state (the node_map only reads the immutable
segments, the subtraction only reads and writes the counters), so they
are modelled as two separate folds over the same list. -/

/-- One iteration record of the get_patterns while loop: the chained
(position, segment) pairs in selection order, the pattern count and
percent at emission time, and the sorted node tuple. -/
structure PatEmit where
  chain : List (Int × Seg)
  count : Int
  pcnt : Int
  nodes : List PosNA
deriving DecidableEq

/-- The mutable state of get_patterns. -/
structure PatState where
  btwPcnt : SegDict
  btwCt : SegDict
  seedPcnt : Cnt (Int × Seg)
  seedCt : Cnt (Int × Seg)
  patPcnt : Cnt (List PosNA)
  patCt : Cnt (List PosNA)
  emits : List PatEmit
deriving DecidableEq

/-- real_pos_start of get_patterns: pos_start aligned down to the step
grid. -/
def patRealStart (sf : SegFreq) (pos_start : Int) : Int :=
  pos_start - (pos_start - 1) % sf.segment_step

/-- real_pos_end of get_patterns: the last anchor whose window still fits
before pos_end, aligned up to the step grid and clamped to at least
real_pos_start. -/
def patRealEnd (sf : SegFreq) (pos_start pos_end : Int) : Int :=
  if patRealStart sf pos_start >
      (pos_end - sf.segment_size + 1) +
        (1 - (pos_end - sf.segment_size + 1)) % sf.segment_step
  then patRealStart sf pos_start
  else (pos_end - sf.segment_size + 1) +
    (1 - (pos_end - sf.segment_size + 1)) % sf.segment_step

/-- The body of the seeding loop for one counted segment at one grid
position: mask the segment to the requested range and accumulate its
percentage (count * 10000 // total; Python raises ZeroDivisionError when
a nonempty counter sums to zero, which positive counts rule out) and
count into the per-position and the seed counters. -/
def seedEntry (pos_start pos_end pos total : Int) (st2 : PatState)
    (e : Seg × Int) : PatState :=
  { st2 with
    btwPcnt := SegDict.modify st2.btwPcnt pos
      (fun c => Cnt.add c (maskSegment e.1 pos_start pos_end)
        (Int.fdiv (e.2 * 10000) total)),
    btwCt := SegDict.modify st2.btwCt pos
      (fun c => Cnt.add c (maskSegment e.1 pos_start pos_end) e.2),
    seedPcnt := Cnt.add st2.seedPcnt (pos, maskSegment e.1 pos_start pos_end)
      (Int.fdiv (e.2 * 10000) total),
    seedCt := Cnt.add st2.seedCt (pos, maskSegment e.1 pos_start pos_end) e.2 }

/-- The seeding body for one grid position: reset both per-position
counters to empty, then fold every counted segment stored at the
position in. -/
def seedOne (sf : SegFreq) (pos_start pos_end : Int) (st : PatState)
    (pos : Int) : PatState :=
  (SegDict.get sf.segments pos).foldl
    (seedEntry pos_start pos_end pos
      (Cnt.sumValues (SegDict.get sf.segments pos)))
    { st with
      btwPcnt := SegDict.set st.btwPcnt pos [],
      btwCt := SegDict.set st.btwCt pos [] }

/-- The seeding loop of get_patterns over the aligned grid positions. -/
def seedPatterns (sf : SegFreq) (pos_start pos_end : Int) : PatState :=
  (intRangeUp (patRealStart sf pos_start)
      (1 + patRealEnd sf pos_start pos_end) sf.segment_step.toNat).foldl
    (seedOne sf pos_start pos_end) ⟨[], [], [], [], [], [], []⟩

/-- The inner for segment, pcnt in pos_segments.most_common() search of
one walk step: the first stored segment continuous with the previous one
(on the left walk the candidate precedes the previous segment, on the
right walk it follows it), with its percent and its count. -/
def findContinuous (st : PatState) (step : Nat) (dirRight : Bool)
    (pos : Int) (prev : Seg) : Option (Seg × Int × Int) :=
  ((Cnt.mostCommon (SegDict.get st.btwPcnt pos)).find?
      (fun e => if dirRight then isContinuous prev e.1 step
                else isContinuous e.1 prev step)).map
    (fun e => (e.1, e.2, Cnt.get (SegDict.get st.btwCt pos) e.1))

/-- One directional chain walk of get_patterns (each of the two for pos
loops with its for-else inner search): extend the chain while a
continuous segment exists, keeping the running minima of percent and
count; the for-else break ends the walk at the first position without a
continuous segment. -/
def walkDir (st : PatState) (step : Nat) (dirRight : Bool) :
    List Int → Seg → List (Int × Seg) → Int → Int →
      List (Int × Seg) × Int × Int
  | [], _, sel, mnP, mnC => (sel, mnP, mnC)
  | pos :: rest, prev, sel, mnP, mnC =>
    match findContinuous st step dirRight pos prev with
    | none => (sel, mnP, mnC)
    | some (seg, pcnt, count) =>
      walkDir st step dirRight rest seg (sel ++ [(pos, seg)])
        (if pcnt < mnP then pcnt else mnP)
        (if count < mnC then count else mnC)

/-- The left walk of one iteration, from the seed position downwards. -/
def patLeft (sf : SegFreq) (realStart : Int) (st : PatState)
    (sk : Int × Seg) (pc0 ct0 : Int) : List (Int × Seg) × Int × Int :=
  walkDir st sf.segment_step.toNat false
    (intRangeDown (sk.1 - sf.segment_step) (realStart - 1)
      sf.segment_step.toNat)
    sk.2 [] pc0 ct0

/-- The right walk of one iteration, from the seed position upwards. -/
def patRight (sf : SegFreq) (realEnd : Int) (st : PatState)
    (sk : Int × Seg) (mnP mnC : Int) : List (Int × Seg) × Int × Int :=
  walkDir st sf.segment_step.toNat true
    (intRangeUp (sk.1 + sf.segment_step) (1 + realEnd)
      sf.segment_step.toNat)
    sk.2 [] mnP mnC

/-- selected_segments of one iteration with the final running minima:
the seed, the left-walk chain, then the right-walk chain. -/
def patSelected (sf : SegFreq) (realStart realEnd : Int) (st : PatState)
    (sk : Int × Seg) (pc0 ct0 : Int) : List (Int × Seg) × Int × Int :=
  (sk :: (patLeft sf realStart st sk pc0 ct0).1 ++
      (patRight sf realEnd st sk (patLeft sf realStart st sk pc0 ct0).2.1
        (patLeft sf realStart st sk pc0 ct0).2.2).1,
   (patRight sf realEnd st sk (patLeft sf realStart st sk pc0 ct0).2.1
     (patLeft sf realStart st sk pc0 ct0).2.2).2)

/-- The four counter subtractions for one selected chain element. -/
def patSubRaw (ctMin pcMin : Int) (st : PatState) (ps : Int × Seg) :
    PatState :=
  { st with
    seedPcnt := Cnt.add st.seedPcnt ps (-pcMin),
    btwPcnt := SegDict.modify st.btwPcnt ps.1 (fun c => Cnt.add c ps.2 (-pcMin)),
    seedCt := Cnt.add st.seedCt ps (-ctMin),
    btwCt := SegDict.modify st.btwCt ps.1 (fun c => Cnt.add c ps.2 (-ctMin)) }

/-- Deletion of one chain element from all four counters. -/
def patDelKey (st : PatState) (ps : Int × Seg) : PatState :=
  { st with
    seedPcnt := Cnt.del st.seedPcnt ps,
    btwPcnt := SegDict.modify st.btwPcnt ps.1 (fun c => Cnt.del c ps.2),
    seedCt := Cnt.del st.seedCt ps,
    btwCt := SegDict.modify st.btwCt ps.1 (fun c => Cnt.del c ps.2) }

/-- Subtraction then zero-count deletion for one selected chain element
(the counter half of the for segpos, segment in selected_segments
loop). -/
def patSubOne (ctMin pcMin : Int) (st : PatState) (ps : Int × Seg) :
    PatState :=
  if Cnt.get (patSubRaw ctMin pcMin st ps).seedCt ps = 0
  then patDelKey (patSubRaw ctMin pcMin st ps) ps
  else patSubRaw ctMin pcMin st ps

/-- The node_map fill of get_patterns: every non-None node of the chained
segments inside the requested range, keyed by (pos, bp), later segments
overwriting earlier ones. -/
def patNodeMap (pos_start pos_end : Int) (selected : List (Int × Seg)) :
    List ((Int × Nat) × PosNA) :=
  selected.foldl
    (fun m ps =>
      ps.2.foldl
        (fun m2 slot =>
          match slot with
          | none => m2
          | some nd =>
            if nd.pos < pos_start ∨ nd.pos > pos_end then m2
            else alistSet m2 (nd.pos, nd.bp) nd)
        m)
    []

/-- Insertion into a list sorted ascending by the (pos, bp, na) tuple
order of PosNA. -/
def insertPosna (x : PosNA) : List PosNA → List PosNA
  | [] => [x]
  | y :: ys => if PosNA.keyLt y x then y :: insertPosna x ys else x :: y :: ys

/-- Python sorted over PosNA values. -/
def sortPosnas (l : List PosNA) : List PosNA := l.foldr insertPosna []

/-- The recording tail of one loop iteration: add the sorted node tuple
to both pattern counters when it is nonempty, and append the iteration
to the trace. -/
def patRecord (selected : List (Int × Seg)) (pcMin ctMin : Int)
    (nodes : List PosNA) (st2 : PatState) : PatState :=
  if nodes = [] then
    { st2 with emits := st2.emits ++ [⟨selected, ctMin, pcMin, nodes⟩] }
  else
    { st2 with
      patPcnt := Cnt.add st2.patPcnt nodes pcMin,
      patCt := Cnt.add st2.patCt nodes ctMin,
      emits := st2.emits ++ [⟨selected, ctMin, pcMin, nodes⟩] }

/-- The whole bookkeeping tail of one loop iteration: subtract the
minima from every chained segment (deleting entries whose count reaches
zero), then record the pattern built from the node map. -/
def patEmitStep (pos_start pos_end : Int) (selected : List (Int × Seg))
    (pcMin ctMin : Int) (st : PatState) : PatState :=
  patRecord selected pcMin ctMin
    (sortPosnas ((patNodeMap pos_start pos_end selected).map Prod.snd))
    (selected.foldl (patSubOne ctMin pcMin) st)

/-- One iteration of the get_patterns while loop: pick the most common
seed with its percent, read its count, walk left then right, then
subtract and record; none only on an empty seed counter (unreachable
under the loop guard). -/
def patIter (sf : SegFreq) (pos_start pos_end realStart realEnd : Int)
    (st : PatState) : Option PatState :=
  match Cnt.mostCommon st.seedPcnt with
  | [] => none
  | (sk, pc0) :: _ =>
    some (patEmitStep pos_start pos_end
      (patSelected sf realStart realEnd st sk pc0 (Cnt.get st.seedCt sk)).1
      (patSelected sf realStart realEnd st sk pc0 (Cnt.get st.seedCt sk)).2.1
      (patSelected sf realStart realEnd st sk pc0 (Cnt.get st.seedCt sk)).2.2
      st)

/-- The while loop of get_patterns with fuel: it runs while the seed
counter still has entries (zero counts included, matching Counter
truthiness) and either top_n_seeds is below 1 or fewer patterns than
top_n_seeds have been collected. -/
def patLoop (sf : SegFreq) (pos_start pos_end realStart realEnd topN : Int) :
    Nat → PatState → PatState
  | 0, st => st
  | fuel + 1, st =>
    if st.seedPcnt ≠ [] ∧ (topN < 1 ∨ (st.patPcnt.length : Int) < topN) then
      match patIter sf pos_start pos_end realStart realEnd st with
      | none => st
      | some st2 => patLoop sf pos_start pos_end realStart realEnd topN fuel st2
    else st

/-- The full get_patterns run: seeding followed by the while loop. -/
def getPatternsRun (sf : SegFreq) (pos_start pos_end topN : Int)
    (fuel : Nat) : PatState :=
  patLoop sf pos_start pos_end (patRealStart sf pos_start)
    (patRealEnd sf pos_start pos_end) topN fuel
    (seedPatterns sf pos_start pos_end)

/-- SegFreq.get_patterns from segfreq.py: the final pattern dict in
patterns_pcnt.most_common order, mapping each pattern to its count and
its percentage divided by 10000. -/
def getPatterns (sf : SegFreq) (pos_start pos_end topN : Int)
    (fuel : Nat) : List (List PosNA × (Int × ℚ)) :=
  (Cnt.mostCommon (getPatternsRun sf pos_start pos_end topN fuel).patPcnt).map
    (fun e =>
      (e.1, (Cnt.get (getPatternsRun sf pos_start pos_end topN fuel).patCt e.1,
        (e.2 : ℚ) / 10000)))

/-- The observed support of a chained (position, masked segment) pair:
its count as recorded by the seeding phase. -/
def origSupport (sf : SegFreq) (pos_start pos_end pos : Int)
    (seg : Seg) : Int :=
  Cnt.get (SegDict.get (seedPatterns sf pos_start pos_end).btwCt pos) seg

/-! ### Counter and dict lemmas for the get_patterns invariants -/

theorem getCnt_zero_of_any_false {α : Type} [DecidableEq α] :
    ∀ (c : Cnt α) (k : α), c.any (fun e => decide (e.1 = k)) = false →
      Cnt.get c k = 0 := by
  intro c k h
  induction c with
  | nil => rfl
  | cons e rest ih =>
    simp only [List.any_cons, Bool.or_eq_false_iff] at h
    simp only [Cnt.get]
    rw [if_neg, ih h.2]
    intro he
    rw [he] at h
    simp at h

theorem get_del_nodup {α : Type} [DecidableEq α] :
    ∀ (c : Cnt α) (k k2 : α), pairsKeysDistinct c = true →
      Cnt.get (Cnt.del c k) k2 = if k2 = k then 0 else Cnt.get c k2 := by
  intro c k k2 hnd
  induction c with
  | nil => simp [Cnt.del, Cnt.get]
  | cons e rest ih =>
    simp only [pairsKeysDistinct, Bool.and_eq_true, Bool.not_eq_true',
      Bool.not_eq_true] at hnd
    simp only [Cnt.del]
    by_cases h1 : e.1 = k
    · rw [if_pos h1]
      by_cases h2 : k2 = k
      · rw [if_pos h2, h2, ← h1, getCnt_zero_of_any_false rest e.1 hnd.1]
      · rw [if_neg h2]
        show Cnt.get rest k2 = Cnt.get ((e.1, e.2) :: rest) k2
        simp only [Cnt.get]
        rw [if_neg]
        intro he
        exact h2 (by rw [← he, h1])
    · rw [if_neg h1]
      show Cnt.get ((e.1, e.2) :: Cnt.del rest k) k2 = _
      simp only [Cnt.get]
      by_cases h2 : e.1 = k2
      · rw [if_pos h2, if_pos h2]
        rw [if_neg]
        intro hk
        exact h1 (by rw [h2, hk])
      · rw [if_neg h2, if_neg h2, ih hnd.2]

theorem anyKey_add {α : Type} [DecidableEq α] :
    ∀ (c : Cnt α) (k k0 : α) (v : Int),
      (Cnt.add c k v).any (fun e => decide (e.1 = k0)) =
        (c.any (fun e => decide (e.1 = k0)) || decide (k = k0)) := by
  intro c k k0 v
  induction c with
  | nil => simp [Cnt.add]
  | cons e rest ih =>
    simp only [Cnt.add]
    by_cases h1 : e.1 = k
    · rw [if_pos h1]
      simp only [List.any_cons]
      rw [h1]
      cases hd : decide (k = k0) <;> simp [hd]
    · rw [if_neg h1]
      simp only [List.any_cons, ih, Bool.or_assoc]

theorem pairsKeysDistinct_add {α : Type} [DecidableEq α] :
    ∀ (c : Cnt α) (k : α) (v : Int), pairsKeysDistinct c = true →
      pairsKeysDistinct (Cnt.add c k v) = true := by
  intro c k v hnd
  induction c with
  | nil => simp [Cnt.add, pairsKeysDistinct]
  | cons e rest ih =>
    simp only [pairsKeysDistinct, Bool.and_eq_true, Bool.not_eq_true'] at hnd
    simp only [Cnt.add]
    by_cases h1 : e.1 = k
    · rw [if_pos h1]
      simp only [pairsKeysDistinct, Bool.and_eq_true, Bool.not_eq_true']
      exact hnd
    · rw [if_neg h1]
      simp only [pairsKeysDistinct, Bool.and_eq_true, Bool.not_eq_true']
      refine ⟨?_, ih hnd.2⟩
      rw [anyKey_add, hnd.1]
      simp only [Bool.false_or, decide_eq_false_iff_not]
      intro hk
      exact h1 hk.symm

theorem del_sublist {α : Type} [DecidableEq α] :
    ∀ (c : Cnt α) (k : α), (Cnt.del c k).Sublist c := by
  intro c k
  induction c with
  | nil => simp [Cnt.del]
  | cons e rest ih =>
    simp only [Cnt.del]
    by_cases h1 : e.1 = k
    · rw [if_pos h1]
      exact List.sublist_cons_self e rest
    · rw [if_neg h1]
      exact ih.cons₂ e

theorem any_false_of_sublist {β : Type} (p : β → Bool) {l1 l2 : List β}
    (h : l1.Sublist l2) (h2 : l2.any p = false) : l1.any p = false := by
  refine Bool.eq_false_iff.mpr fun hc => ?_
  rcases List.any_eq_true.mp hc with ⟨x, hx, hpx⟩
  exact Bool.eq_false_iff.mp h2 (List.any_eq_true.mpr ⟨x, h.mem hx, hpx⟩)

theorem pairsKeysDistinct_del {α : Type} [DecidableEq α] :
    ∀ (c : Cnt α) (k : α), pairsKeysDistinct c = true →
      pairsKeysDistinct (Cnt.del c k) = true := by
  intro c k hnd
  induction c with
  | nil => exact hnd
  | cons e rest ih =>
    simp only [pairsKeysDistinct, Bool.and_eq_true, Bool.not_eq_true'] at hnd
    simp only [Cnt.del]
    by_cases h1 : e.1 = k
    · rw [if_pos h1]
      exact hnd.2
    · rw [if_neg h1]
      simp only [pairsKeysDistinct, Bool.and_eq_true, Bool.not_eq_true']
      exact ⟨any_false_of_sublist _ (del_sublist rest k) hnd.1, ih hnd.2⟩

theorem segget_modify :
    ∀ (d : SegDict) (pos q : Int) (f : Cnt Seg → Cnt Seg),
      SegDict.get (SegDict.modify d pos f) q =
        if pos = q then f (SegDict.get d pos) else SegDict.get d q := by
  intro d pos q f
  induction d with
  | nil => simp [SegDict.modify, SegDict.get]
  | cons e rest ih =>
    obtain ⟨p, c⟩ := e
    simp only [SegDict.modify]
    by_cases h1 : p = pos
    · rw [if_pos h1]
      subst h1
      show (if p = q then f c else SegDict.get rest q) = _
      have hg : SegDict.get ((p, c) :: rest) p = c := by
        simp [SegDict.get]
      by_cases h2 : p = q
      · rw [if_pos h2, if_pos h2, hg]
      · rw [if_neg h2, if_neg h2]
        show _ = SegDict.get ((p, c) :: rest) q
        simp [SegDict.get, h2]
    · rw [if_neg h1]
      show (if p = q then c else SegDict.get (SegDict.modify rest pos f) q) = _
      by_cases h2 : p = q
      · rw [if_pos h2, if_neg (fun hpq => h1 (h2.trans hpq.symm))]
        show _ = SegDict.get ((p, c) :: rest) q
        simp [SegDict.get, h2]
      · rw [if_neg h2, ih]
        by_cases h3 : pos = q
        · rw [if_pos h3, if_pos h3]
          simp [SegDict.get, h1]
        · rw [if_neg h3, if_neg h3]
          simp [SegDict.get, h2]

theorem segget_set :
    ∀ (d : SegDict) (pos q : Int) (v : Cnt Seg),
      SegDict.get (SegDict.set d pos v) q =
        if pos = q then v else SegDict.get d q := by
  intro d pos q v
  induction d with
  | nil => simp [SegDict.set, SegDict.get]
  | cons e rest ih =>
    obtain ⟨p, c⟩ := e
    simp only [SegDict.set]
    by_cases h1 : p = pos
    · rw [if_pos h1]
      subst h1
      show (if p = q then v else SegDict.get rest q) = _
      by_cases h2 : p = q
      · rw [if_pos h2, if_pos h2]
      · rw [if_neg h2, if_neg h2]
        simp [SegDict.get, h2]
    · rw [if_neg h1]
      show (if p = q then c else SegDict.get (SegDict.set rest pos v) q) = _
      by_cases h2 : p = q
      · rw [if_pos h2, if_neg (fun hpq => h1 (h2.trans hpq.symm))]
        simp [SegDict.get, h2]
      · rw [if_neg h2, ih]
        by_cases h3 : pos = q
        · rw [if_pos h3, if_pos h3]
        · rw [if_neg h3, if_neg h3]
          simp [SegDict.get, h2]

theorem mem_segdict_modify :
    ∀ (d : SegDict) (pos : Int) (f : Cnt Seg → Cnt Seg) (pc : Int × Cnt Seg),
      pc ∈ SegDict.modify d pos f →
        pc ∈ d ∨ pc = (pos, f (SegDict.get d pos)) := by
  intro d pos f pc h
  induction d with
  | nil =>
    simp only [SegDict.modify, List.mem_singleton] at h
    exact Or.inr (by rw [h]; rfl)
  | cons e rest ih =>
    obtain ⟨p, c⟩ := e
    simp only [SegDict.modify] at h
    by_cases h1 : p = pos
    · rw [if_pos h1] at h
      rcases List.mem_cons.mp h with h2 | h2
      · subst h1
        exact Or.inr (by rw [h2]; simp [SegDict.get])
      · exact Or.inl (List.mem_cons_of_mem _ h2)
    · rw [if_neg h1] at h
      rcases List.mem_cons.mp h with h2 | h2
      · exact Or.inl (by rw [h2]; exact List.mem_cons_self _ _)
      · rcases ih h2 with h3 | h3
        · exact Or.inl (List.mem_cons_of_mem _ h3)
        · refine Or.inr (by rw [h3]; simp [SegDict.get, if_neg h1])

theorem mem_segdict_set :
    ∀ (d : SegDict) (pos : Int) (v : Cnt Seg) (pc : Int × Cnt Seg),
      pc ∈ SegDict.set d pos v → pc ∈ d ∨ pc = (pos, v) := by
  intro d pos v pc h
  induction d with
  | nil =>
    simp only [SegDict.set, List.mem_singleton] at h
    exact Or.inr h
  | cons e rest ih =>
    obtain ⟨p, c⟩ := e
    simp only [SegDict.set] at h
    by_cases h1 : p = pos
    · rw [if_pos h1] at h
      rcases List.mem_cons.mp h with h2 | h2
      · subst h1
        exact Or.inr h2
      · exact Or.inl (List.mem_cons_of_mem _ h2)
    · rw [if_neg h1] at h
      rcases List.mem_cons.mp h with h2 | h2
      · exact Or.inl (by rw [h2]; exact List.mem_cons_self _ _)
      · rcases ih h2 with h3 | h3
        · exact Or.inl (List.mem_cons_of_mem _ h3)
        · exact Or.inr h3

theorem segdictGet_mem :
    ∀ (d : SegDict) (q : Int),
      SegDict.get d q = [] ∨ (q, SegDict.get d q) ∈ d := by
  intro d q
  induction d with
  | nil => exact Or.inl rfl
  | cons e rest ih =>
    obtain ⟨p, c⟩ := e
    simp only [SegDict.get]
    by_cases h1 : p = q
    · rw [if_pos h1]
      subst h1
      exact Or.inr (List.mem_cons_self _ _)
    · rw [if_neg h1]
      rcases ih with h2 | h2
      · exact Or.inl h2
      · exact Or.inr (List.mem_cons_of_mem _ h2)

/-- The count of a segment at a position in the mutable per-position
count dict of a get_patterns state. -/
def btwGet (st : PatState) (pos : Int) (seg : Seg) : Int :=
  Cnt.get (SegDict.get st.btwCt pos) seg

/-- Data invariant of the get_patterns loop relative to the counts
recorded at seeding time: current counts stay within [0, orig], the flat
seed count counter mirrors the per-position dict, and the key lists
carry no duplicates. -/
def patInv (orig : Int → Seg → Int) (st : PatState) : Prop :=
  (∀ p s, 0 ≤ btwGet st p s ∧ btwGet st p s ≤ orig p s) ∧
  (∀ p s, Cnt.get st.seedCt (p, s) = btwGet st p s) ∧
  pairsKeysDistinct st.seedCt = true ∧
  (∀ pc ∈ st.btwCt, pairsKeysDistinct pc.2 = true)

theorem innerNodup_get (d : SegDict)
    (h : ∀ pc ∈ d, pairsKeysDistinct pc.2 = true) (p : Int) :
    pairsKeysDistinct (SegDict.get d p) = true := by
  rcases segdictGet_mem d p with h2 | h2
  · rw [h2]; rfl
  · exact h _ h2

theorem patSubRaw_btwGet (ctMin pcMin : Int) (st : PatState) (ps : Int × Seg)
    (q : Int) (s : Seg) :
    btwGet (patSubRaw ctMin pcMin st ps) q s =
      btwGet st q s + (if q = ps.1 ∧ s = ps.2 then -ctMin else 0) := by
  show Cnt.get (SegDict.get (SegDict.modify st.btwCt ps.1
      (fun c => Cnt.add c ps.2 (-ctMin))) q) s = _
  rw [segget_modify]
  by_cases h1 : ps.1 = q
  · rw [if_pos h1]
    subst h1
    show Cnt.get (Cnt.add (SegDict.get st.btwCt ps.1) ps.2 (-ctMin)) s = _
    rw [Cnt.get_add]
    by_cases h2 : s = ps.2
    · simp [h2, btwGet]
    · simp [h2, btwGet]
  · rw [if_neg h1, if_neg (fun hc : q = ps.1 ∧ s = ps.2 => h1 hc.1.symm),
      add_zero]
    rfl

theorem patSubRaw_seedCt (ctMin pcMin : Int) (st : PatState)
    (ps k : Int × Seg) :
    Cnt.get (patSubRaw ctMin pcMin st ps).seedCt k =
      Cnt.get st.seedCt k + (if k = ps then -ctMin else 0) := by
  show Cnt.get (Cnt.add st.seedCt ps (-ctMin)) k = _
  rw [Cnt.get_add]

theorem patSubRaw_nodups (ctMin pcMin : Int) (st : PatState) (ps : Int × Seg)
    (h1 : pairsKeysDistinct st.seedCt = true)
    (h2 : ∀ pc ∈ st.btwCt, pairsKeysDistinct pc.2 = true) :
    pairsKeysDistinct (patSubRaw ctMin pcMin st ps).seedCt = true ∧
    ∀ pc ∈ (patSubRaw ctMin pcMin st ps).btwCt,
      pairsKeysDistinct pc.2 = true := by
  constructor
  · exact pairsKeysDistinct_add _ _ _ h1
  · intro pc hpc
    rcases mem_segdict_modify _ _ _ _ hpc with h3 | h3
    · exact h2 _ h3
    · rw [h3]
      exact pairsKeysDistinct_add _ _ _ (innerNodup_get _ h2 ps.1)

theorem patDelKey_nodups (st : PatState) (ps : Int × Seg)
    (h1 : pairsKeysDistinct st.seedCt = true)
    (h2 : ∀ pc ∈ st.btwCt, pairsKeysDistinct pc.2 = true) :
    pairsKeysDistinct (patDelKey st ps).seedCt = true ∧
    ∀ pc ∈ (patDelKey st ps).btwCt, pairsKeysDistinct pc.2 = true := by
  constructor
  · exact pairsKeysDistinct_del _ _ h1
  · intro pc hpc
    rcases mem_segdict_modify _ _ _ _ hpc with h3 | h3
    · exact h2 _ h3
    · rw [h3]
      exact pairsKeysDistinct_del _ _ (innerNodup_get _ h2 ps.1)

theorem patDelKey_btwGet (st : PatState) (ps : Int × Seg)
    (h2 : ∀ pc ∈ st.btwCt, pairsKeysDistinct pc.2 = true)
    (hz : btwGet st ps.1 ps.2 = 0) (q : Int) (s : Seg) :
    btwGet (patDelKey st ps) q s = btwGet st q s := by
  show Cnt.get (SegDict.get (SegDict.modify st.btwCt ps.1
      (fun c => Cnt.del c ps.2)) q) s = _
  rw [segget_modify]
  by_cases h1 : ps.1 = q
  · rw [if_pos h1]
    subst h1
    show Cnt.get (Cnt.del (SegDict.get st.btwCt ps.1) ps.2) s = _
    rw [get_del_nodup _ _ _ (innerNodup_get _ h2 ps.1)]
    by_cases h3 : s = ps.2
    · rw [if_pos h3, h3]
      exact hz.symm
    · rw [if_neg h3]
      rfl
  · rw [if_neg h1]
    rfl

theorem patDelKey_seedCt (st : PatState) (ps : Int × Seg)
    (h1 : pairsKeysDistinct st.seedCt = true)
    (hz : Cnt.get st.seedCt ps = 0) (k : Int × Seg) :
    Cnt.get (patDelKey st ps).seedCt k = Cnt.get st.seedCt k := by
  show Cnt.get (Cnt.del st.seedCt ps) k = _
  rw [get_del_nodup _ _ _ h1]
  by_cases h3 : k = ps
  · rw [if_pos h3, h3, hz]
  · rw [if_neg h3]

theorem patSubOne_spec (orig : Int → Seg → Int) (ctMin pcMin : Int)
    (st : PatState) (ps : Int × Seg)
    (hinv : patInv orig st) (hct : 0 ≤ ctMin)
    (hle : ctMin ≤ btwGet st ps.1 ps.2) :
    patInv orig (patSubOne ctMin pcMin st ps) ∧
    (∀ q s, btwGet (patSubOne ctMin pcMin st ps) q s =
      btwGet st q s + (if q = ps.1 ∧ s = ps.2 then -ctMin else 0)) ∧
    (patSubOne ctMin pcMin st ps).emits = st.emits := by
  obtain ⟨hrange, hsync, hnd1, hnd2⟩ := hinv
  have hrawN := patSubRaw_nodups ctMin pcMin st ps hnd1 hnd2
  have hrawSync : ∀ p s,
      Cnt.get (patSubRaw ctMin pcMin st ps).seedCt (p, s) =
        btwGet (patSubRaw ctMin pcMin st ps) p s := by
    intro p s
    rw [patSubRaw_seedCt, patSubRaw_btwGet, hsync]
    congr 1
    simp only [Prod.ext_iff]
  have hrawRange : ∀ q s, 0 ≤ btwGet (patSubRaw ctMin pcMin st ps) q s ∧
      btwGet (patSubRaw ctMin pcMin st ps) q s ≤ orig q s := by
    intro q s
    rw [patSubRaw_btwGet]
    by_cases hc : q = ps.1 ∧ s = ps.2
    · rw [if_pos hc]
      obtain ⟨hq, hs⟩ := hc
      subst hq
      subst hs
      have h1 := hrange ps.1 ps.2
      omega
    · rw [if_neg hc, add_zero]
      exact hrange q s
  have hrawInv : patInv orig (patSubRaw ctMin pcMin st ps) :=
    ⟨hrawRange, hrawSync, hrawN.1, hrawN.2⟩
  by_cases hz : Cnt.get (patSubRaw ctMin pcMin st ps).seedCt ps = 0
  · have hres : patSubOne ctMin pcMin st ps =
        patDelKey (patSubRaw ctMin pcMin st ps) ps := by
      unfold patSubOne
      rw [if_pos hz]
    have hbz : btwGet (patSubRaw ctMin pcMin st ps) ps.1 ps.2 = 0 := by
      rw [← hrawSync ps.1 ps.2]
      exact hz
    have hGd := patDelKey_btwGet (patSubRaw ctMin pcMin st ps) ps hrawN.2 hbz
    have hSd := patDelKey_seedCt (patSubRaw ctMin pcMin st ps) ps hrawN.1 hz
    have hNd := patDelKey_nodups (patSubRaw ctMin pcMin st ps) ps hrawN.1 hrawN.2
    rw [hres]
    refine ⟨⟨?_, ?_, hNd.1, hNd.2⟩, ?_, rfl⟩
    · intro q s
      rw [hGd]
      exact hrawRange q s
    · intro p s
      rw [hGd, hSd]
      exact hrawSync p s
    · intro q s
      rw [hGd, patSubRaw_btwGet]
  · have hres : patSubOne ctMin pcMin st ps = patSubRaw ctMin pcMin st ps := by
      unfold patSubOne
      rw [if_neg hz]
    rw [hres]
    exact ⟨hrawInv, patSubRaw_btwGet ctMin pcMin st ps, rfl⟩

theorem patSubFold (orig : Int → Seg → Int) (ctMin pcMin : Int) :
    ∀ (sel : List (Int × Seg)) (st : PatState),
      patInv orig st → 0 ≤ ctMin →
      (∀ ps ∈ sel, ctMin ≤ btwGet st ps.1 ps.2) →
      List.Pairwise (fun x y : Int × Seg => x.1 ≠ y.1) sel →
      patInv orig (sel.foldl (patSubOne ctMin pcMin) st) ∧
      (sel.foldl (patSubOne ctMin pcMin) st).emits = st.emits := by
  intro sel
  induction sel with
  | nil =>
    intro st hinv _ _ _
    exact ⟨hinv, rfl⟩
  | cons ps tail ih =>
    intro st hinv hct hsel hpw
    obtain ⟨hinv1, hG, hE⟩ := patSubOne_spec orig ctMin pcMin st ps hinv hct
      (hsel ps (List.mem_cons_self _ _))
    simp only [List.foldl_cons]
    have htail : ∀ pt ∈ tail,
        ctMin ≤ btwGet (patSubOne ctMin pcMin st ps) pt.1 pt.2 := by
      intro pt hpt
      rw [hG]
      have hne : ¬(pt.1 = ps.1 ∧ pt.2 = ps.2) := by
        intro hc
        exact ((List.pairwise_cons.mp hpw).1 pt hpt) hc.1.symm
      rw [if_neg hne, add_zero]
      exact hsel pt (List.mem_cons_of_mem _ hpt)
    obtain ⟨ha, hb⟩ := ih (patSubOne ctMin pcMin st ps) hinv1 hct htail
      (List.pairwise_cons.mp hpw).2
    exact ⟨ha, hb.trans hE⟩

theorem mem_intRangeUp_ge (start stop : Int) (step : Nat) (p : Int)
    (h : p ∈ intRangeUp start stop step) : start ≤ p := by
  unfold intRangeUp at h
  obtain ⟨i, _, hp⟩ := List.mem_map.mp h
  have h2 : 0 ≤ (step : Int) * (i : Int) := by positivity
  omega

theorem mem_intRangeDown_le (start stop : Int) (step : Nat) (p : Int)
    (h : p ∈ intRangeDown start stop step) : p ≤ start := by
  unfold intRangeDown at h
  obtain ⟨i, _, hp⟩ := List.mem_map.mp h
  have h2 : 0 ≤ (step : Int) * (i : Int) := by positivity
  omega

theorem pairwise_intRangeDown (start stop : Int) (step : Nat)
    (hstep : 1 ≤ step) :
    List.Pairwise (fun a b : Int => b < a) (intRangeDown start stop step) := by
  unfold intRangeDown
  rw [List.pairwise_map]
  apply (List.pairwise_lt_range _).imp
  intro i j hij
  have h1 : (step : Int) * i < (step : Int) * j := by
    apply mul_lt_mul_of_pos_left
    · exact_mod_cast hij
    · exact_mod_cast hstep
  omega

theorem findContinuous_count (st : PatState) (step : Nat) (dir : Bool)
    (pos : Int) (prev : Seg) (seg : Seg) (pcnt count : Int)
    (h : findContinuous st step dir pos prev = some (seg, pcnt, count)) :
    count = btwGet st pos seg := by
  unfold findContinuous at h
  cases hf : (Cnt.mostCommon (SegDict.get st.btwPcnt pos)).find?
      (fun e => if dir then isContinuous prev e.1 step
                else isContinuous e.1 prev step) with
  | none =>
    rw [hf] at h
    simp at h
  | some e =>
    rw [hf, Option.map_some'] at h
    have h4 := Option.some.inj h
    rw [Prod.mk.injEq, Prod.mk.injEq] at h4
    rw [← h4.2.2, h4.1]
    rfl

theorem walkDir_spec (st : PatState) (step : Nat) (dir : Bool) :
    ∀ (poss : List Int) (prev : Seg) (sel : List (Int × Seg)) (mnP mnC : Int),
      (walkDir st step dir poss prev sel mnP mnC).2.2 ≤ mnC ∧
      (0 ≤ mnC → (∀ p s, 0 ≤ btwGet st p s) →
        0 ≤ (walkDir st step dir poss prev sel mnP mnC).2.2) ∧
      (∀ ps ∈ (walkDir st step dir poss prev sel mnP mnC).1,
        ps ∈ sel ∨ (ps.1 ∈ poss ∧
          (walkDir st step dir poss prev sel mnP mnC).2.2 ≤
            btwGet st ps.1 ps.2)) ∧
      (List.Pairwise (fun a b : Int => a ≠ b) poss →
        List.Pairwise (fun x y : Int × Seg => x.1 ≠ y.1) sel →
        (∀ ps ∈ sel, ∀ p ∈ poss, ps.1 ≠ p) →
        List.Pairwise (fun x y : Int × Seg => x.1 ≠ y.1)
          (walkDir st step dir poss prev sel mnP mnC).1) := by
  intro poss
  induction poss with
  | nil =>
    intro prev sel mnP mnC
    exact ⟨le_refl _, fun h _ => h, fun ps hps => Or.inl hps,
      fun _ h _ => h⟩
  | cons pos rest ih =>
    intro prev sel mnP mnC
    cases hf : findContinuous st step dir pos prev with
    | none =>
      simp only [walkDir, hf]
      exact ⟨le_refl _, fun h _ => h, fun ps hps => Or.inl hps,
        fun _ h _ => h⟩
    | some v =>
      obtain ⟨seg, pcnt, count⟩ := v
      have hcount := findContinuous_count st step dir pos prev seg pcnt count hf
      simp only [walkDir, hf]
      obtain ⟨ih1, ih2, ih3, ih4⟩ := ih seg (sel ++ [(pos, seg)])
        (if pcnt < mnP then pcnt else mnP)
        (if count < mnC then count else mnC)
      have hC1 : (if count < mnC then count else mnC) ≤ mnC := by
        by_cases h : count < mnC
        · rw [if_pos h]; omega
        · rw [if_neg h]
      have hC2 : (if count < mnC then count else mnC) ≤ count := by
        by_cases h : count < mnC
        · rw [if_pos h]
        · rw [if_neg h]; omega
      refine ⟨ih1.trans hC1, ?_, ?_, ?_⟩
      · intro h0 hnn
        apply ih2 _ hnn
        have h3 : 0 ≤ count := hcount ▸ hnn pos seg
        by_cases h : count < mnC
        · rw [if_pos h]; exact h3
        · rw [if_neg h]; exact h0
      · intro ps hps
        rcases ih3 ps hps with h | ⟨hmem, hle⟩
        · rcases List.mem_append.mp h with h2 | h2
          · exact Or.inl h2
          · have h3 : ps = (pos, seg) := List.mem_singleton.mp h2
            refine Or.inr ⟨?_, ?_⟩
            · rw [h3]
              exact List.mem_cons_self _ _
            · rw [h3]
              calc _ ≤ (if count < mnC then count else mnC) := ih1
                _ ≤ count := hC2
                _ = btwGet st pos seg := hcount
        · exact Or.inr ⟨List.mem_cons_of_mem _ hmem, hle⟩
      · intro h1 h2 h3
        apply ih4 (List.pairwise_cons.mp h1).2
        · rw [List.pairwise_append]
          refine ⟨h2, List.pairwise_singleton _ _, ?_⟩
          intro x hx y hy
          rw [List.mem_singleton.mp hy]
          exact h3 x hx pos (List.mem_cons_self _ _)
        · intro ps hps p hp
          rcases List.mem_append.mp hps with h4 | h4
          · exact h3 ps h4 p (List.mem_cons_of_mem _ hp)
          · rw [List.mem_singleton.mp h4]
            exact (List.pairwise_cons.mp h1).1 p hp

theorem patRecord_btwCt (selected : List (Int × Seg)) (pcMin ctMin : Int)
    (nodes : List PosNA) (st2 : PatState) :
    (patRecord selected pcMin ctMin nodes st2).btwCt = st2.btwCt := by
  unfold patRecord
  split <;> rfl

theorem patRecord_seedCt (selected : List (Int × Seg)) (pcMin ctMin : Int)
    (nodes : List PosNA) (st2 : PatState) :
    (patRecord selected pcMin ctMin nodes st2).seedCt = st2.seedCt := by
  unfold patRecord
  split <;> rfl

theorem patRecord_emits (selected : List (Int × Seg)) (pcMin ctMin : Int)
    (nodes : List PosNA) (st2 : PatState) :
    (patRecord selected pcMin ctMin nodes st2).emits =
      st2.emits ++ [⟨selected, ctMin, pcMin, nodes⟩] := by
  unfold patRecord
  split <;> rfl

theorem patInv_record (orig : Int → Seg → Int) (selected : List (Int × Seg))
    (pcMin ctMin : Int) (nodes : List PosNA) (st2 : PatState)
    (h : patInv orig st2) :
    patInv orig (patRecord selected pcMin ctMin nodes st2) := by
  obtain ⟨h1, h2, h3, h4⟩ := h
  have hb : ∀ p s, btwGet (patRecord selected pcMin ctMin nodes st2) p s =
      btwGet st2 p s := by
    intro p s
    unfold btwGet
    rw [patRecord_btwCt]
  refine ⟨?_, ?_, ?_, ?_⟩
  · intro p s
    rw [hb]
    exact h1 p s
  · intro p s
    rw [hb, patRecord_seedCt]
    exact h2 p s
  · rw [patRecord_seedCt]
    exact h3
  · rw [patRecord_btwCt]
    exact h4

theorem patSelected_spec (sf : SegFreq) (realStart realEnd : Int)
    (st : PatState) (sk : Int × Seg) (pc0 ct0 : Int)
    (hstep : 1 ≤ sf.segment_step)
    (hct0 : ct0 ≤ btwGet st sk.1 sk.2)
    (hct0n : 0 ≤ ct0)
    (hnn : ∀ p s, 0 ≤ btwGet st p s) :
    0 ≤ (patSelected sf realStart realEnd st sk pc0 ct0).2.2 ∧
    (∀ ps ∈ (patSelected sf realStart realEnd st sk pc0 ct0).1,
      (patSelected sf realStart realEnd st sk pc0 ct0).2.2 ≤
        btwGet st ps.1 ps.2) ∧
    List.Pairwise (fun x y : Int × Seg => x.1 ≠ y.1)
      (patSelected sf realStart realEnd st sk pc0 ct0).1 := by
  have hstepN : 1 ≤ sf.segment_step.toNat := by omega
  unfold patSelected patLeft patRight
  set possL := intRangeDown (sk.1 - sf.segment_step) (realStart - 1)
    sf.segment_step.toNat with hpossL
  set possR := intRangeUp (sk.1 + sf.segment_step) (1 + realEnd)
    sf.segment_step.toNat with hpossR
  set L := walkDir st sf.segment_step.toNat false possL sk.2 [] pc0 ct0
    with hLdef
  set R := walkDir st sf.segment_step.toNat true possR sk.2 [] L.2.1 L.2.2
    with hRdef
  obtain ⟨L1, L2, L3, L4⟩ := walkDir_spec st sf.segment_step.toNat false
    possL sk.2 [] pc0 ct0
  obtain ⟨R1, R2, R3, R4⟩ := walkDir_spec st sf.segment_step.toNat true
    possR sk.2 [] L.2.1 L.2.2
  rw [← hLdef] at L1 L2 L3 L4
  rw [← hRdef] at R1 R2 R3 R4
  have hL0 : 0 ≤ L.2.2 := L2 hct0n hnn
  have hR0 : 0 ≤ R.2.2 := R2 hL0 hnn
  have hLmem : ∀ ps ∈ L.1, ps.1 ∈ possL ∧ L.2.2 ≤ btwGet st ps.1 ps.2 := by
    intro ps hps
    rcases L3 ps hps with h | h
    · exact absurd h (List.not_mem_nil ps)
    · exact h
  have hRmem : ∀ ps ∈ R.1, ps.1 ∈ possR ∧ R.2.2 ≤ btwGet st ps.1 ps.2 := by
    intro ps hps
    rcases R3 ps hps with h | h
    · exact absurd h (List.not_mem_nil ps)
    · exact h
  have hLpos : ∀ ps ∈ L.1, ps.1 < sk.1 := by
    intro ps hps
    have h1 := mem_intRangeDown_le _ _ _ _ (hLmem ps hps).1
    omega
  have hRpos : ∀ ps ∈ R.1, sk.1 < ps.1 := by
    intro ps hps
    have h1 := mem_intRangeUp_ge _ _ _ _ (hRmem ps hps).1
    omega
  refine ⟨hR0, ?_, ?_⟩
  · intro ps hps
    rcases List.mem_cons.mp hps with h | h
    · rw [h]
      calc R.2.2 ≤ L.2.2 := R1
        _ ≤ ct0 := L1
        _ ≤ btwGet st sk.1 sk.2 := hct0
    · rcases List.mem_append.mp h with h2 | h2
      · exact R1.trans (hLmem ps h2).2
      · exact (hRmem ps h2).2
  · have pwL : List.Pairwise (fun x y : Int × Seg => x.1 ≠ y.1) L.1 := by
      apply L4 ((pairwise_intRangeDown _ _ _ hstepN).imp fun h => ne_of_gt h)
        List.Pairwise.nil
      intro ps hps
      exact absurd hps (List.not_mem_nil ps)
    have pwR : List.Pairwise (fun x y : Int × Seg => x.1 ≠ y.1) R.1 := by
      apply R4 ((pairwise_intRangeUp _ _ _ hstepN).imp fun h => ne_of_lt h)
        List.Pairwise.nil
      intro ps hps
      exact absurd hps (List.not_mem_nil ps)
    show List.Pairwise (fun x y : Int × Seg => x.1 ≠ y.1) ((sk :: L.1) ++ R.1)
    rw [List.pairwise_append]
    refine ⟨?_, pwR, ?_⟩
    · exact List.Pairwise.cons (fun x hx => ne_of_gt (hLpos x hx)) pwL
    · intro x hx y hy
      rcases List.mem_cons.mp hx with h2 | h2
      · rw [h2]
        exact ne_of_lt (hRpos y hy)
      · exact ne_of_lt ((hLpos x h2).trans (hRpos y hy))

theorem patIter_spec (sf : SegFreq) (a b realStart realEnd : Int)
    (orig : Int → Seg → Int) (st st2 : PatState)
    (hstep : 1 ≤ sf.segment_step)
    (hinv : patInv orig st)
    (h : patIter sf a b realStart realEnd st = some st2) :
    patInv orig st2 ∧
    ∃ em : PatEmit, st2.emits = st.emits ++ [em] ∧
      ∀ ps ∈ em.chain, em.count ≤ orig ps.1 ps.2 := by
  unfold patIter at h
  cases hmc : Cnt.mostCommon st.seedPcnt with
  | nil =>
    rw [hmc] at h
    simp at h
  | cons hd tl =>
    obtain ⟨sk, pc0⟩ := hd
    rw [hmc] at h
    set S := patSelected sf realStart realEnd st sk pc0
      (Cnt.get st.seedCt sk) with hSdef
    have h2 : st2 = patEmitStep a b S.1 S.2.1 S.2.2 st :=
      (Option.some.inj h).symm
    obtain ⟨hrange, hsync, hnd1, hnd2⟩ := hinv
    have hsk : Cnt.get st.seedCt sk = btwGet st sk.1 sk.2 := hsync sk.1 sk.2
    have hnn : ∀ p s, 0 ≤ btwGet st p s := fun p s => (hrange p s).1
    have hct0n : 0 ≤ Cnt.get st.seedCt sk := by
      rw [hsk]
      exact hnn sk.1 sk.2
    obtain ⟨hS0, hSb, hSpw⟩ := patSelected_spec sf realStart realEnd st sk pc0
      (Cnt.get st.seedCt sk) hstep (le_of_eq hsk) hct0n hnn
    rw [← hSdef] at hS0 hSb hSpw
    obtain ⟨hfInv, hfEmits⟩ := patSubFold orig S.2.2 S.2.1 S.1 st
      ⟨hrange, hsync, hnd1, hnd2⟩ hS0 hSb hSpw
    rw [h2]
    unfold patEmitStep
    constructor
    · exact patInv_record orig _ _ _ _ _ hfInv
    · refine ⟨⟨S.1, S.2.2, S.2.1,
        sortPosnas ((patNodeMap a b S.1).map Prod.snd)⟩, ?_, ?_⟩
      · rw [patRecord_emits, hfEmits]
      · intro ps hps
        calc S.2.2 ≤ btwGet st ps.1 ps.2 := hSb ps hps
          _ ≤ orig ps.1 ps.2 := (hrange ps.1 ps.2).2

theorem patLoop_emits (sf : SegFreq) (a b realStart realEnd topN : Int)
    (orig : Int → Seg → Int) (hstep : 1 ≤ sf.segment_step) :
    ∀ (fuel : Nat) (st : PatState), patInv orig st →
      (∀ e ∈ st.emits, ∀ ps ∈ e.chain, e.count ≤ orig ps.1 ps.2) →
      ∀ e ∈ (patLoop sf a b realStart realEnd topN fuel st).emits,
        ∀ ps ∈ e.chain, e.count ≤ orig ps.1 ps.2 := by
  intro fuel
  induction fuel with
  | zero =>
    intro st _ hem
    exact hem
  | succ n ih =>
    intro st hinv hem
    rw [patLoop]
    by_cases hc : st.seedPcnt ≠ [] ∧
        (topN < 1 ∨ (st.patPcnt.length : Int) < topN)
    · rw [if_pos hc]
      cases hit : patIter sf a b realStart realEnd st with
      | none => exact hem
      | some st2 =>
        obtain ⟨hinv2, em, hemeq, hembd⟩ :=
          patIter_spec sf a b realStart realEnd orig st st2 hstep
            ⟨hinv.1, hinv.2.1, hinv.2.2.1, hinv.2.2.2⟩ hit
        apply ih st2 hinv2
        intro e he
        rw [hemeq] at he
        rcases List.mem_append.mp he with h2 | h2
        · exact hem e h2
        · rw [List.mem_singleton.mp h2]
          exact hembd
    · rw [if_neg hc]
      exact hem

theorem seedEntry_btwGet (a b pos total : Int) (st : PatState) (e : Seg × Int)
    (q : Int) (s : Seg) :
    btwGet (seedEntry a b pos total st e) q s =
      btwGet st q s +
        (if q = pos ∧ s = maskSegment e.1 a b then e.2 else 0) := by
  show Cnt.get (SegDict.get (SegDict.modify st.btwCt pos
      (fun c => Cnt.add c (maskSegment e.1 a b) e.2)) q) s = _
  rw [segget_modify]
  by_cases h1 : pos = q
  · rw [if_pos h1]
    subst h1
    show Cnt.get (Cnt.add (SegDict.get st.btwCt pos)
      (maskSegment e.1 a b) e.2) s = _
    rw [Cnt.get_add]
    by_cases h2 : s = maskSegment e.1 a b
    · simp [h2, btwGet]
    · simp [h2, btwGet]
  · rw [if_neg h1,
      if_neg (fun hc : q = pos ∧ s = maskSegment e.1 a b => h1 hc.1.symm),
      add_zero]
    rfl

theorem seedEntry_seedCt (a b pos total : Int) (st : PatState) (e : Seg × Int)
    (k : Int × Seg) :
    Cnt.get (seedEntry a b pos total st e).seedCt k =
      Cnt.get st.seedCt k +
        (if k = (pos, maskSegment e.1 a b) then e.2 else 0) := by
  show Cnt.get (Cnt.add st.seedCt (pos, maskSegment e.1 a b) e.2) k = _
  rw [Cnt.get_add]

theorem seedEntry_nodups (a b pos total : Int) (st : PatState) (e : Seg × Int)
    (h1 : pairsKeysDistinct st.seedCt = true)
    (h2 : ∀ pc ∈ st.btwCt, pairsKeysDistinct pc.2 = true) :
    pairsKeysDistinct (seedEntry a b pos total st e).seedCt = true ∧
    ∀ pc ∈ (seedEntry a b pos total st e).btwCt,
      pairsKeysDistinct pc.2 = true := by
  constructor
  · exact pairsKeysDistinct_add _ _ _ h1
  · intro pc hpc
    rcases mem_segdict_modify _ _ _ _ hpc with h3 | h3
    · exact h2 _ h3
    · rw [h3]
      exact pairsKeysDistinct_add _ _ _ (innerNodup_get _ h2 pos)

theorem seedEntries_fold (a b pos total : Int) :
    ∀ (entries : List (Seg × Int)) (st : PatState),
      (∀ e ∈ entries, 0 ≤ e.2) →
      ((∀ p s, Cnt.get st.seedCt (p, s) = btwGet st p s) ∧
       (∀ p s, 0 ≤ btwGet st p s) ∧
       pairsKeysDistinct st.seedCt = true ∧
       (∀ pc ∈ st.btwCt, pairsKeysDistinct pc.2 = true)) →
      ((∀ p s,
          Cnt.get (entries.foldl (seedEntry a b pos total) st).seedCt (p, s) =
            btwGet (entries.foldl (seedEntry a b pos total) st) p s) ∧
       (∀ p s, 0 ≤ btwGet (entries.foldl (seedEntry a b pos total) st) p s) ∧
       pairsKeysDistinct
         (entries.foldl (seedEntry a b pos total) st).seedCt = true ∧
       (∀ pc ∈ (entries.foldl (seedEntry a b pos total) st).btwCt,
          pairsKeysDistinct pc.2 = true)) ∧
      (∀ p s, p ≠ pos →
        btwGet (entries.foldl (seedEntry a b pos total) st) p s =
          btwGet st p s) ∧
      (∀ k : Int × Seg, k.1 ≠ pos →
        Cnt.get (entries.foldl (seedEntry a b pos total) st).seedCt k =
          Cnt.get st.seedCt k) ∧
      (entries.foldl (seedEntry a b pos total) st).emits = st.emits := by
  intro entries
  induction entries with
  | nil =>
    intro st _ hinv
    exact ⟨hinv, fun p s _ => rfl, fun k _ => rfl, rfl⟩
  | cons e rest ih =>
    intro st he hinv
    obtain ⟨hsync, hnn, hnd1, hnd2⟩ := hinv
    have he2 : 0 ≤ e.2 := he e (List.mem_cons_self _ _)
    have hsync1 : ∀ p s,
        Cnt.get (seedEntry a b pos total st e).seedCt (p, s) =
          btwGet (seedEntry a b pos total st e) p s := by
      intro p s
      rw [seedEntry_seedCt, seedEntry_btwGet, hsync]
      congr 1
      simp only [Prod.ext_iff]
    have hnn1 : ∀ p s, 0 ≤ btwGet (seedEntry a b pos total st e) p s := by
      intro p s
      rw [seedEntry_btwGet]
      have h1 := hnn p s
      by_cases hc : p = pos ∧ s = maskSegment e.1 a b
      · rw [if_pos hc]
        omega
      · rw [if_neg hc]
        omega
    have hnd := seedEntry_nodups a b pos total st e hnd1 hnd2
    simp only [List.foldl_cons]
    obtain ⟨hinvR, huB, huS, huE⟩ := ih (seedEntry a b pos total st e)
      (fun x hx => he x (List.mem_cons_of_mem _ hx))
      ⟨hsync1, hnn1, hnd.1, hnd.2⟩
    refine ⟨hinvR, ?_, ?_, ?_⟩
    · intro p s hp
      rw [huB p s hp, seedEntry_btwGet,
        if_neg (fun hc : p = pos ∧ s = maskSegment e.1 a b => hp hc.1),
        add_zero]
    · intro k hk
      rw [huS k hk, seedEntry_seedCt]
      rw [if_neg, add_zero]
      intro hc
      rw [hc] at hk
      exact hk rfl
    · exact huE

theorem seedOne_spec (sf : SegFreq) (a b : Int) (st : PatState) (pos : Int)
    (hentries : ∀ e ∈ SegDict.get sf.segments pos, 0 ≤ e.2)
    (hinv : (∀ p s, Cnt.get st.seedCt (p, s) = btwGet st p s) ∧
      (∀ p s, 0 ≤ btwGet st p s) ∧
      pairsKeysDistinct st.seedCt = true ∧
      (∀ pc ∈ st.btwCt, pairsKeysDistinct pc.2 = true))
    (hzero : ∀ s, Cnt.get st.seedCt (pos, s) = 0) :
    ((∀ p s, Cnt.get (seedOne sf a b st pos).seedCt (p, s) =
        btwGet (seedOne sf a b st pos) p s) ∧
     (∀ p s, 0 ≤ btwGet (seedOne sf a b st pos) p s) ∧
     pairsKeysDistinct (seedOne sf a b st pos).seedCt = true ∧
     (∀ pc ∈ (seedOne sf a b st pos).btwCt,
        pairsKeysDistinct pc.2 = true)) ∧
    (∀ k : Int × Seg, k.1 ≠ pos →
      Cnt.get (seedOne sf a b st pos).seedCt k = Cnt.get st.seedCt k) ∧
    (seedOne sf a b st pos).emits = st.emits := by
  obtain ⟨hsync, hnn, hnd1, hnd2⟩ := hinv
  have hinitB : ∀ q s,
      btwGet { st with
        btwPcnt := SegDict.set st.btwPcnt pos [],
        btwCt := SegDict.set st.btwCt pos [] } q s =
      if q = pos then 0 else btwGet st q s := by
    intro q s
    show Cnt.get (SegDict.get (SegDict.set st.btwCt pos []) q) s = _
    rw [segget_set]
    by_cases h1 : pos = q
    · rw [if_pos h1, if_pos h1.symm]
      rfl
    · rw [if_neg h1, if_neg (fun hc : q = pos => h1 hc.symm)]
      rfl
  have hinit : (∀ p s, Cnt.get ({ st with
        btwPcnt := SegDict.set st.btwPcnt pos [],
        btwCt := SegDict.set st.btwCt pos [] } : PatState).seedCt (p, s) =
        btwGet { st with
          btwPcnt := SegDict.set st.btwPcnt pos [],
          btwCt := SegDict.set st.btwCt pos [] } p s) ∧
      (∀ p s, 0 ≤ btwGet { st with
        btwPcnt := SegDict.set st.btwPcnt pos [],
        btwCt := SegDict.set st.btwCt pos [] } p s) ∧
      pairsKeysDistinct ({ st with
        btwPcnt := SegDict.set st.btwPcnt pos [],
        btwCt := SegDict.set st.btwCt pos [] } : PatState).seedCt = true ∧
      (∀ pc ∈ ({ st with
        btwPcnt := SegDict.set st.btwPcnt pos [],
        btwCt := SegDict.set st.btwCt pos [] } : PatState).btwCt,
        pairsKeysDistinct pc.2 = true) := by
    refine ⟨?_, ?_, hnd1, ?_⟩
    · intro p s
      rw [hinitB]
      by_cases h1 : p = pos
      · rw [if_pos h1, h1]
        exact hzero s
      · rw [if_neg h1]
        exact hsync p s
    · intro p s
      rw [hinitB]
      by_cases h1 : p = pos
      · rw [if_pos h1]
      · rw [if_neg h1]
        exact hnn p s
    · intro pc hpc
      rcases mem_segdict_set _ _ _ _ hpc with h3 | h3
      · exact hnd2 _ h3
      · rw [h3]
        rfl
  obtain ⟨hinvR, _, huS, huE⟩ := seedEntries_fold a b pos
    (Cnt.sumValues (SegDict.get sf.segments pos))
    (SegDict.get sf.segments pos) _ hentries hinit
  refine ⟨hinvR, ?_, huE⟩
  intro k hk
  exact huS k hk

theorem seedFold_spec (sf : SegFreq) (a b : Int)
    (hpos : ∀ pc ∈ sf.segments, ∀ e ∈ pc.2, 0 < e.2) :
    ∀ (poss : List Int) (st : PatState),
      List.Pairwise (fun x y : Int => x ≠ y) poss →
      ((∀ p s, Cnt.get st.seedCt (p, s) = btwGet st p s) ∧
       (∀ p s, 0 ≤ btwGet st p s) ∧
       pairsKeysDistinct st.seedCt = true ∧
       (∀ pc ∈ st.btwCt, pairsKeysDistinct pc.2 = true)) →
      (∀ p ∈ poss, ∀ s, Cnt.get st.seedCt (p, s) = 0) →
      ((∀ p s, Cnt.get (poss.foldl (seedOne sf a b) st).seedCt (p, s) =
          btwGet (poss.foldl (seedOne sf a b) st) p s) ∧
       (∀ p s, 0 ≤ btwGet (poss.foldl (seedOne sf a b) st) p s) ∧
       pairsKeysDistinct (poss.foldl (seedOne sf a b) st).seedCt = true ∧
       (∀ pc ∈ (poss.foldl (seedOne sf a b) st).btwCt,
          pairsKeysDistinct pc.2 = true)) ∧
      (poss.foldl (seedOne sf a b) st).emits = st.emits := by
  intro poss
  induction poss with
  | nil =>
    intro st _ hinv _
    exact ⟨hinv, rfl⟩
  | cons pos rest ih =>
    intro st hpw hinv hz
    have hentries : ∀ e ∈ SegDict.get sf.segments pos, 0 ≤ e.2 := by
      intro e he
      rcases segdictGet_mem sf.segments pos with h1 | h1
      · rw [h1] at he
        exact absurd he (List.not_mem_nil e)
      · exact le_of_lt (hpos _ h1 e he)
    obtain ⟨hinv1, huS, huE⟩ := seedOne_spec sf a b st pos hentries hinv
      (fun s => hz pos (List.mem_cons_self _ _) s)
    have hz1 : ∀ p ∈ rest, ∀ s,
        Cnt.get (seedOne sf a b st pos).seedCt (p, s) = 0 := by
      intro p hp s
      have hne : p ≠ pos := by
        intro hc
        exact ((List.pairwise_cons.mp hpw).1 p hp) hc.symm
      rw [huS (p, s) hne]
      exact hz p (List.mem_cons_of_mem _ hp) s
    simp only [List.foldl_cons]
    obtain ⟨hinvR, hER⟩ := ih (seedOne sf a b st pos)
      (List.pairwise_cons.mp hpw).2 hinv1 hz1
    exact ⟨hinvR, hER.trans huE⟩

theorem seedPatterns_inv (sf : SegFreq) (a b : Int)
    (hstep : 1 ≤ sf.segment_step)
    (hpos : ∀ pc ∈ sf.segments, ∀ e ∈ pc.2, 0 < e.2) :
    patInv (btwGet (seedPatterns sf a b)) (seedPatterns sf a b) ∧
    (seedPatterns sf a b).emits = [] := by
  have hstepN : 1 ≤ sf.segment_step.toNat := by omega
  have hpw : List.Pairwise (fun x y : Int => x ≠ y)
      (intRangeUp (patRealStart sf a) (1 + patRealEnd sf a b)
        sf.segment_step.toNat) :=
    (pairwise_intRangeUp _ _ _ hstepN).imp fun h => ne_of_lt h
  obtain ⟨⟨hsync, hnn, hnd1, hnd2⟩, hE⟩ := seedFold_spec sf a b hpos
    (intRangeUp (patRealStart sf a) (1 + patRealEnd sf a b)
      sf.segment_step.toNat)
    ⟨[], [], [], [], [], [], []⟩ hpw
    ⟨fun p s => rfl, fun p s => le_refl 0, rfl, fun pc hpc =>
      absurd hpc (List.not_mem_nil pc)⟩
    (fun p _ s => rfl)
  refine ⟨⟨?_, hsync, hnd1, hnd2⟩, hE⟩
  intro p s
  exact ⟨hnn p s, le_refl _⟩

/-- C5 (amended): within one get_patterns run, every iteration of the
while loop reports a pattern count that never exceeds the count recorded
at seeding time for any of the (position, masked segment) pairs chained
together in that iteration.  The bound cannot be transferred to the
returned dict itself, because one node tuple can be produced by several
iterations whose counts accumulate in patterns_ct. -/
theorem getPatterns_emission_bound (sf : SegFreq)
    (pos_start pos_end topN : Int) (fuel : Nat)
    (hstep : 1 ≤ sf.segment_step)
    (hpos : ∀ pc ∈ sf.segments, ∀ e ∈ pc.2, 0 < e.2) :
    ∀ e ∈ (getPatternsRun sf pos_start pos_end topN fuel).emits,
      ∀ ps ∈ e.chain,
        e.count ≤ origSupport sf pos_start pos_end ps.1 ps.2 := by
  obtain ⟨hinv, hE⟩ := seedPatterns_inv sf pos_start pos_end hstep hpos
  refine patLoop_emits sf pos_start pos_end (patRealStart sf pos_start)
    (patRealEnd sf pos_start pos_end) topN
    (btwGet (seedPatterns sf pos_start pos_end)) hstep fuel
    (seedPatterns sf pos_start pos_end) hinv ?_
  rw [hE]
  intro e he
  exact absurd he (List.not_mem_nil e)

/-- The segment (A at 1, B at 2, C at 3) of the C5 counterexample. -/
def segX5 : Seg := [some ⟨1, 0, 65⟩, some ⟨2, 0, 66⟩, some ⟨3, 0, 67⟩]

/-- The segment (B at 2, C at 3, None) of the C5 counterexample,
anchored at position 2 and continuous with segX5. -/
def segY5 : Seg := [some ⟨2, 0, 66⟩, some ⟨3, 0, 67⟩, none]

/-- A SegFreq with segment_size 3 and segment_step 1 holding ten reads
of segX5 and four reads of the overlapping segY5. -/
def sfC5 : SegFreq := ⟨3, 1, [(1, [(segX5, 10)]), (2, [(segY5, 4)])], 2⟩

/-- The node tuple (A at 1, B at 2, C at 3). -/
def patC5 : List PosNA := [⟨1, 0, 65⟩, ⟨2, 0, 66⟩, ⟨3, 0, 67⟩]

/-- C5 counterexample: get_patterns(1, 4, 0) on sfC5 returns the pattern
(A, B, C) with count 10, although the iteration that first produced that
pattern chained segY5, whose observed support is only 4.  The first
iteration emits the tuple with count 4 and exhausts segY5; the second
iteration walks the leftover ten reads of segX5 alone, produces the same
node tuple again, and the counts accumulate to 10 in patterns_ct, past
the minimum support of the chained segments. -/
theorem getPatterns_count_exceeds_support :
    (getPatterns sfC5 1 4 0 10).map (fun e => (e.1, e.2.1)) =
      [(patC5, 10)] ∧
    (∃ e ∈ (getPatternsRun sfC5 1 4 0 10).emits,
      e.nodes = patC5 ∧ (2, segY5) ∈ e.chain) ∧
    origSupport sfC5 1 4 2 segY5 = 4 := by decide

/-- Witness: the emission bound evaluated on the concrete sfC5 run. -/
theorem getPatterns_emission_bound_witness :
    (1 ≤ sfC5.segment_step) ∧
    (∀ pc ∈ sfC5.segments, ∀ e ∈ pc.2, 0 < e.2) ∧
    ∀ e ∈ (getPatternsRun sfC5 1 4 0 10).emits,
      ∀ ps ∈ e.chain, e.count ≤ origSupport sfC5 1 4 ps.1 ps.2 :=
  ⟨by decide, by decide,
    getPatterns_emission_bound sfC5 1 4 0 10 (by decide) (by decide)⟩

/-! ### C6 support: counters with equal lookups are permutations -/

theorem get_of_mem_nodup {α : Type} [DecidableEq α] :
    ∀ (c : Cnt α) (k : α) (v : Int), pairsKeysDistinct c = true →
      (k, v) ∈ c → Cnt.get c k = v := by
  intro c k v hnd hm
  induction c with
  | nil => exact absurd hm (List.not_mem_nil _)
  | cons e rest ih =>
    simp only [pairsKeysDistinct, Bool.and_eq_true, Bool.not_eq_true'] at hnd
    rcases List.mem_cons.mp hm with h1 | h1
    · rw [← h1]
      simp [Cnt.get]
    · have hne : e.1 ≠ k := by
        intro hc
        have : rest.any (fun e2 => decide (e2.1 = e.1)) = true :=
          List.any_eq_true.mpr ⟨(k, v), h1, by simp [hc]⟩
        rw [hnd.1] at this
        exact Bool.false_ne_true this
      show Cnt.get ((e.1, e.2) :: rest) k = v
      simp only [Cnt.get, if_neg hne]
      exact ih hnd.2 h1

theorem get_ne_imp_mem {α : Type} [DecidableEq α] :
    ∀ (c : Cnt α) (k : α), Cnt.get c k ≠ 0 → (k, Cnt.get c k) ∈ c := by
  intro c k h
  induction c with
  | nil => exact absurd rfl h
  | cons e rest ih =>
    by_cases h1 : e.1 = k
    · show (k, Cnt.get ((e.1, e.2) :: rest) k) ∈ _
      simp only [Cnt.get, if_pos h1]
      rw [← h1]
      exact List.mem_cons_self _ _
    · show (k, Cnt.get ((e.1, e.2) :: rest) k) ∈ _
      simp only [Cnt.get, if_neg h1]
      have h2 : Cnt.get rest k ≠ 0 := by
        intro hc
        apply h
        show Cnt.get ((e.1, e.2) :: rest) k = 0
        simp only [Cnt.get, if_neg h1]
        exact hc
      exact List.mem_cons_of_mem _ (ih h2)

theorem nodup_of_keysDistinct {α : Type} [DecidableEq α] :
    ∀ c : Cnt α, pairsKeysDistinct c = true → c.Nodup := by
  intro c h
  induction c with
  | nil => exact List.nodup_nil
  | cons e rest ih =>
    simp only [pairsKeysDistinct, Bool.and_eq_true, Bool.not_eq_true'] at h
    rw [List.nodup_cons]
    refine ⟨?_, ih h.2⟩
    intro hm
    have : rest.any (fun e2 => decide (e2.1 = e.1)) = true :=
      List.any_eq_true.mpr ⟨e, hm, by simp⟩
    rw [h.1] at this
    exact Bool.false_ne_true this

theorem cnt_perm_of_get_eq {α : Type} [DecidableEq α] (c1 c2 : Cnt α)
    (h1 : pairsKeysDistinct c1 = true) (h2 : pairsKeysDistinct c2 = true)
    (hp1 : ∀ e ∈ c1, 0 < e.2) (hp2 : ∀ e ∈ c2, 0 < e.2)
    (hg : ∀ k, Cnt.get c1 k = Cnt.get c2 k) : c1.Perm c2 := by
  rw [List.perm_ext_iff_of_nodup (nodup_of_keysDistinct _ h1)
    (nodup_of_keysDistinct _ h2)]
  intro a
  obtain ⟨k, v⟩ := a
  constructor
  · intro hm
    have hv : Cnt.get c1 k = v := get_of_mem_nodup _ _ _ h1 hm
    have hvpos : 0 < v := hp1 _ hm
    have hv2 : Cnt.get c2 k = v := by rw [← hg]; exact hv
    have hne : Cnt.get c2 k ≠ 0 := by rw [hv2]; omega
    have := get_ne_imp_mem c2 k hne
    rw [hv2] at this
    exact this
  · intro hm
    have hv : Cnt.get c2 k = v := get_of_mem_nodup _ _ _ h2 hm
    have hvpos : 0 < v := hp2 _ hm
    have hv2 : Cnt.get c1 k = v := by rw [hg]; exact hv
    have hne : Cnt.get c1 k ≠ 0 := by rw [hv2]; omega
    have := get_ne_imp_mem c1 k hne
    rw [hv2] at this
    exact this

theorem any_eq_of_perm {β : Type} (p : β → Bool) {l1 l2 : List β}
    (h : l1.Perm l2) : l1.any p = l2.any p := by
  cases ha : l1.any p
  · cases hb : l2.any p
    · rfl
    · exfalso
      rcases List.any_eq_true.mp hb with ⟨x, hx, hpx⟩
      have h2 := List.any_eq_true.mpr ⟨x, h.mem_iff.mpr hx, hpx⟩
      rw [ha] at h2
      exact Bool.false_ne_true h2
  · rcases List.any_eq_true.mp ha with ⟨x, hx, hpx⟩
    exact (List.any_eq_true.mpr ⟨x, h.mem_iff.mp hx, hpx⟩).symm

/-! ### C6 support: lookup formulas for the two counting folds -/

theorem freqFold_get (positions : List Int) :
    ∀ (entries : List (Seg × Int)) (init : Cnt (List Nat)) (b : List Nat),
      Cnt.get (entries.foldl (freqEntry positions) init) b =
      Cnt.get init b + (entries.map (fun e =>
        if segmentNas e.1 positions = some b then e.2 else 0)).sum := by
  intro entries
  induction entries with
  | nil =>
    intro init b
    simp
  | cons e rest ih =>
    intro init b
    simp only [List.foldl_cons, List.map_cons, List.sum_cons]
    cases hs : segmentNas e.1 positions with
    | none =>
      have he : freqEntry positions init e = init := by
        unfold freqEntry
        rw [hs]
      rw [he, ih]
      simp
    | some nas =>
      have he : freqEntry positions init e = Cnt.add init nas e.2 := by
        unfold freqEntry
        rw [hs]
      rw [he, ih, Cnt.get_add]
      by_cases hb : b = nas
      · rw [if_pos hb, if_pos (by rw [hb])]
        omega
      · rw [if_neg hb,
          if_neg (fun hc : some nas = some b => hb (Option.some.inj hc).symm)]
        omega

theorem freqFold_hasKey (positions : List Int) :
    ∀ (entries : List (Seg × Int)) (init : Cnt (List Nat)) (b : List Nat),
      Cnt.hasKey (entries.foldl (freqEntry positions) init) b =
      (Cnt.hasKey init b ||
        entries.any (fun e => decide (segmentNas e.1 positions = some b))) := by
  intro entries
  induction entries with
  | nil =>
    intro init b
    simp
  | cons e rest ih =>
    intro init b
    simp only [List.foldl_cons, List.any_cons]
    cases hs : segmentNas e.1 positions with
    | none =>
      have he : freqEntry positions init e = init := by
        unfold freqEntry
        rw [hs]
      rw [he, ih]
      simp
    | some nas =>
      have he : freqEntry positions init e = Cnt.add init nas e.2 := by
        unfold freqEntry
        rw [hs]
      rw [he, ih, Cnt.hasKey_add]
      by_cases hb : b = nas
      · subst hb
        simp [Bool.or_assoc]
      · have hc : ¬(some nas = some b) :=
          fun hc => hb (Option.some.inj hc).symm
        simp [hb, hc, Bool.or_assoc]

/-- The byte string contributed by one segment at exactly one position in
get_pos_nas (all nodes at the position, insertions concatenated). -/
def posColumn (pos : Int) (s : Seg) : List Nat :=
  ((s.filterMap id).filter (fun nd => decide (nd.pos = pos))).map PosNA.na

theorem posnasFold_get (pos : Int) :
    ∀ (entries : List (Seg × Int)) (init : Cnt (List Nat)) (b : List Nat),
      Cnt.get (entries.foldl (posNasEntry pos) init) b =
      Cnt.get init b + (entries.map (fun e =>
        if posColumn pos e.1 = b ∧ b ≠ [] then e.2 else 0)).sum := by
  intro entries
  induction entries with
  | nil =>
    intro init b
    simp
  | cons e rest ih =>
    intro init b
    simp only [List.foldl_cons, List.map_cons, List.sum_cons]
    have he : posNasEntry pos init e =
        if posColumn pos e.1 = [] then init
        else Cnt.add init (posColumn pos e.1) e.2 := rfl
    rw [he]
    by_cases hn : posColumn pos e.1 = []
    · rw [if_pos hn, ih]
      have hc : ¬(posColumn pos e.1 = b ∧ b ≠ []) := by
        intro hc
        exact hc.2 (by rw [← hc.1, hn])
      rw [if_neg hc]
      omega
    · rw [if_neg hn, ih, Cnt.get_add]
      by_cases hb : b = posColumn pos e.1
      · have hcond : posColumn pos e.1 = b ∧ b ≠ [] :=
          ⟨hb.symm, by rw [hb]; exact hn⟩
        rw [if_pos hb, if_pos hcond]
        omega
      · have hcond : ¬(posColumn pos e.1 = b ∧ b ≠ []) :=
          fun hc => hb hc.1.symm
        rw [if_neg hb, if_neg hcond]
        omega

theorem posnasFold_hasKey (pos : Int) :
    ∀ (entries : List (Seg × Int)) (init : Cnt (List Nat)) (b : List Nat),
      Cnt.hasKey (entries.foldl (posNasEntry pos) init) b =
      (Cnt.hasKey init b ||
        entries.any (fun e => decide (posColumn pos e.1 = b ∧ b ≠ []))) := by
  intro entries
  induction entries with
  | nil =>
    intro init b
    simp
  | cons e rest ih =>
    intro init b
    simp only [List.foldl_cons, List.any_cons]
    have he : posNasEntry pos init e =
        if posColumn pos e.1 = [] then init
        else Cnt.add init (posColumn pos e.1) e.2 := rfl
    rw [he]
    by_cases hn : posColumn pos e.1 = []
    · rw [if_pos hn, ih]
      have hc : ¬(posColumn pos e.1 = b ∧ b ≠ []) := by
        intro hc
        exact hc.2 (by rw [← hc.1, hn])
      simp [hc]
    · rw [if_neg hn, ih, Cnt.hasKey_add]
      by_cases hb : b = posColumn pos e.1
      · subst hb
        rw [decide_eq_true (show posColumn pos e.1 = posColumn pos e.1 ∧
          posColumn pos e.1 ≠ [] from ⟨rfl, hn⟩)]
        simp [Bool.or_assoc]
      · have hcond : ¬(posColumn pos e.1 = b ∧ b ≠ []) :=
          fun hc => hb hc.1.symm
        simp [hb, hcond, Bool.or_assoc]

/-- Structural hypothesis for the multiset-semantics theorem: within each
position the stored segments are distinct and every count is positive
(true of every SegFreq built through add with positive counts). -/
def SegFreq.wfCounts (sf : SegFreq) : Bool :=
  sf.segments.all (fun pc => pairsKeysDistinct pc.2 &&
    pc.2.all (fun e => decide (0 < e.2)))

theorem wfCounts_get (sf : SegFreq) (h : sf.wfCounts = true) (q : Int) :
    pairsKeysDistinct (SegDict.get sf.segments q) = true ∧
    ∀ e ∈ SegDict.get sf.segments q, 0 < e.2 := by
  rcases segdictGet_mem sf.segments q with h1 | h1
  · rw [h1]
    exact ⟨rfl, fun e he => absurd he (List.not_mem_nil e)⟩
  · unfold SegFreq.wfCounts at h
    rw [List.all_eq_true] at h
    have h2 := h _ h1
    rw [Bool.and_eq_true, List.all_eq_true] at h2
    refine ⟨h2.1, fun e he => ?_⟩
    have h3 := h2.2 e he
    simpa using h3

/-- Equality of two counters as Python dicts: the same keys and the same
looked-up values. -/
def CntEquiv {α : Type} [DecidableEq α] (c1 c2 : Cnt α) : Prop :=
  (∀ k, Cnt.get c1 k = Cnt.get c2 k) ∧
  (∀ k, Cnt.hasKey c1 k = Cnt.hasKey c2 k)

/-- Equality of two get_frequency results: the same error behaviour, and
dict-equal counters on success. -/
def exceptCntEquiv (r1 r2 : Except Unit (Cnt (List Nat))) : Prop :=
  match r1, r2 with
  | .ok c1, .ok c2 => CntEquiv c1 c2
  | .error _, .error _ => True
  | .ok _, .error _ => False
  | .error _, .ok _ => False

theorem checkPositions_congr (s1 s2 : SegFreq)
    (hsize : s1.segment_size = s2.segment_size)
    (hmax : s1.max_segpos = s2.max_segpos) :
    ∀ (segpos : Int) (l : List Int),
      checkPositions s1 segpos l = checkPositions s2 segpos l := by
  intro segpos l
  induction l with
  | nil => rfl
  | cons p rest ih =>
    unfold checkPositions
    rw [hsize, hmax, ih]

/-- C6 (amended): the queries that do not consult Counter.most_common
depend only on multiset membership.  For two SegFreqs with equal
segment_size, segment_step, max_segpos and, at every position, the same
count for every segment (however insertion order built them),
get_frequency has the same error behaviour and returns dict-equal
counters, and get_pos_nas returns dict-equal counters.  The claim fails
for get_consensus and get_patterns, whose most_common tie-breaking
follows insertion order. -/
theorem segfreq_queries_respect_multiset (s1 s2 : SegFreq)
    (hsize : s1.segment_size = s2.segment_size)
    (hstep : s1.segment_step = s2.segment_step)
    (hmax : s1.max_segpos = s2.max_segpos)
    (hcnt : ∀ pos seg, s1.countOf pos seg = s2.countOf pos seg)
    (hwf1 : s1.wfCounts = true) (hwf2 : s2.wfCounts = true) :
    (∀ positions0 na_size,
      exceptCntEquiv (getFrequency s1 positions0 na_size)
        (getFrequency s2 positions0 na_size)) ∧
    (∀ pos, CntEquiv (getPosNas s1 pos) (getPosNas s2 pos)) := by
  have hq : ∀ q, (SegDict.get s1.segments q).Perm
      (SegDict.get s2.segments q) := by
    intro q
    have w1 := wfCounts_get s1 hwf1 q
    have w2 := wfCounts_get s2 hwf2 q
    exact cnt_perm_of_get_eq _ _ w1.1 w2.1 w1.2 w2.2 (fun seg => hcnt q seg)
  have hsp : ∀ p, segposFor s1 p = segposFor s2 p := by
    intro p
    unfold segposFor
    rw [hstep, hmax]
  have hfc : ∀ positions,
      CntEquiv (freqCounts s1 positions) (freqCounts s2 positions) := by
    intro positions
    constructor
    · intro b
      have e1 : Cnt.get (freqCounts s1 positions) b =
          Cnt.get ([] : Cnt (List Nat)) b +
            ((SegDict.get s1.segments
                (segposFor s1 (listMinD positions))).map
              (fun e => if segmentNas e.1 positions = some b
                then e.2 else 0)).sum :=
        freqFold_get positions _ [] b
      have e2 : Cnt.get (freqCounts s2 positions) b =
          Cnt.get ([] : Cnt (List Nat)) b +
            ((SegDict.get s2.segments
                (segposFor s2 (listMinD positions))).map
              (fun e => if segmentNas e.1 positions = some b
                then e.2 else 0)).sum :=
        freqFold_get positions _ [] b
      rw [← hsp (listMinD positions)] at e2
      rw [e1, e2, List.Perm.sum_eq (List.Perm.map _
        (hq (segposFor s1 (listMinD positions))))]
    · intro b
      have e1 : Cnt.hasKey (freqCounts s1 positions) b =
          (Cnt.hasKey ([] : Cnt (List Nat)) b ||
            (SegDict.get s1.segments
                (segposFor s1 (listMinD positions))).any
              (fun e => decide (segmentNas e.1 positions = some b))) :=
        freqFold_hasKey positions _ [] b
      have e2 : Cnt.hasKey (freqCounts s2 positions) b =
          (Cnt.hasKey ([] : Cnt (List Nat)) b ||
            (SegDict.get s2.segments
                (segposFor s2 (listMinD positions))).any
              (fun e => decide (segmentNas e.1 positions = some b))) :=
        freqFold_hasKey positions _ [] b
      rw [← hsp (listMinD positions)] at e2
      rw [e1, e2, any_eq_of_perm _
        (hq (segposFor s1 (listMinD positions)))]
  constructor
  · intro positions0 na_size
    have hc := checkPositions_congr s1 s2 hsize hmax
      (segposFor s2 (listMinD (padPositions positions0 na_size)))
      (padPositions positions0 na_size)
    unfold getFrequency
    rw [hsp (listMinD (padPositions positions0 na_size)), hc]
    cases checkPositions s2
        (segposFor s2 (listMinD (padPositions positions0 na_size)))
        (padPositions positions0 na_size) with
    | error e => trivial
    | ok u => exact hfc (padPositions positions0 na_size)
  · intro pos
    constructor
    · intro b
      have e1 : Cnt.get (getPosNas s1 pos) b =
          Cnt.get ([] : Cnt (List Nat)) b +
            ((SegDict.get s1.segments (segposFor s1 pos)).map
              (fun e => if posColumn pos e.1 = b ∧ b ≠ []
                then e.2 else 0)).sum :=
        posnasFold_get pos _ [] b
      have e2 : Cnt.get (getPosNas s2 pos) b =
          Cnt.get ([] : Cnt (List Nat)) b +
            ((SegDict.get s2.segments (segposFor s2 pos)).map
              (fun e => if posColumn pos e.1 = b ∧ b ≠ []
                then e.2 else 0)).sum :=
        posnasFold_get pos _ [] b
      rw [← hsp pos] at e2
      rw [e1, e2, List.Perm.sum_eq (List.Perm.map _ (hq (segposFor s1 pos)))]
    · intro b
      have e1 : Cnt.hasKey (getPosNas s1 pos) b =
          (Cnt.hasKey ([] : Cnt (List Nat)) b ||
            (SegDict.get s1.segments (segposFor s1 pos)).any
              (fun e => decide (posColumn pos e.1 = b ∧ b ≠ []))) :=
        posnasFold_hasKey pos _ [] b
      have e2 : Cnt.hasKey (getPosNas s2 pos) b =
          (Cnt.hasKey ([] : Cnt (List Nat)) b ||
            (SegDict.get s2.segments (segposFor s2 pos)).any
              (fun e => decide (posColumn pos e.1 = b ∧ b ≠ []))) :=
        posnasFold_hasKey pos _ [] b
      rw [← hsp pos] at e2
      rw [e1, e2, any_eq_of_perm _ (hq (segposFor s1 pos))]

/-- Canonical form of a SegFreq: positions sorted ascending and, within
each position, counted segments sorted by their dump key; two SegFreqs
with duplicate-free keys have the same canonical form exactly when they
hold the same position-to-multiset-of-segments contents. -/
def normSegFreq (sf : SegFreq) : SegFreq :=
  { sf with
    segments := sortByPos (sf.segments.map
      (fun pc => (pc.1, sortByKey (fun e => segKey e.1) pc.2))) }

/-- The segment (A at 1, B at 2, C at 3) of the C6 counterexample. -/
def segP6 : Seg := [some ⟨1, 0, 65⟩, some ⟨2, 0, 66⟩, some ⟨3, 0, 67⟩]

/-- The segment (G at 1, T at 2, T at 3) of the C6 counterexample. -/
def segQ6 : Seg := [some ⟨1, 0, 71⟩, some ⟨2, 0, 84⟩, some ⟨3, 0, 84⟩]

/-- Five reads of segP6 inserted before five reads of segQ6. -/
def sfC6a : SegFreq := ⟨3, 1, [(1, [(segP6, 5), (segQ6, 5)])], 1⟩

/-- The same multiset contents with the two segments inserted in the
opposite order. -/
def sfC6b : SegFreq := ⟨3, 1, [(1, [(segQ6, 5), (segP6, 5)])], 1⟩

/-- C6 counterexample: two SegFreqs holding identical
position-to-multiset-of-segments contents (equal canonical forms) but
built in different insertion orders return different results from
get_patterns(1, 3, 1): the two seeds tie at 5000 permille and
Counter.most_common breaks the tie by insertion order, so each SegFreq
reports the pattern of its first-inserted segment. -/
theorem getPatterns_depends_on_insertion_order :
    normSegFreq sfC6a = normSegFreq sfC6b ∧
    (getPatterns sfC6a 1 3 1 10).map (fun e => (e.1, e.2.1)) ≠
      (getPatterns sfC6b 1 3 1 10).map (fun e => (e.1, e.2.1)) := by decide

/-- Witness: the order-independence of get_frequency and get_pos_nas
evaluated at a concrete SegFreq. -/
theorem segfreq_queries_respect_multiset_witness :
    (∀ pos seg, sfC6a.countOf pos seg = sfC6a.countOf pos seg) ∧
    (SegFreq.wfCounts sfC6a = true) ∧
    ((∀ positions0 na_size,
      exceptCntEquiv (getFrequency sfC6a positions0 na_size)
        (getFrequency sfC6a positions0 na_size)) ∧
     (∀ pos, CntEquiv (getPosNas sfC6a pos) (getPosNas sfC6a pos))) :=
  ⟨fun _ _ => rfl, by decide,
    segfreq_queries_respect_multiset sfC6a sfC6a rfl rfl rfl
      (fun _ _ => rfl) (by decide) (by decide)⟩

/-! ## codonalign_consensus.py: the consensus codon rewrite loop

codonalign_consensus (lines 246-266) walks the codon-aligned query
codons of each fragment and, for every amino acid position whose codon
and quality counters are both present and nonempty, executes
codons[newcodon] += codons.pop(oldcodon), and the same for the quality
counter.  The augmented assignment reads codons[newcodon] before the
pop runs, so when the re-aligned codon equals the popped most common
codon the count is read, popped and added to itself rather than merely
moved.  The re-aligned codons themselves come from the external
postalign library (codon_align, group_by_codons), so they enter the
embedding as input data; .get returning None and an empty Counter both
skip the position, which the association table models with the empty
counter default. -/

abbrev CodonText : Type := List Nat

abbrev FragPosTable : Type := List ((String × Int) × Cnt CodonText)

/-- codons[newcodon] += codons.pop(oldcodon): the augmented assignment
reads codons[newcodon] (0 for a missing key in a Counter) before the
right-hand side runs, then the pop removes oldcodon and returns its
count, and the sum is stored under newcodon (in place, or appended for a
fresh key).  When newcodon equals oldcodon the old count is read, popped
and added to itself, doubling it. -/
def popAddCodon (c : Cnt CodonText) (oldcodon newcodon : CodonText) :
    Cnt CodonText :=
  alistSet (Cnt.del c oldcodon) newcodon
    (Cnt.get c newcodon + Cnt.get c oldcodon)

/-- One amino acid position of the rewrite loop: skip when either
counter is missing or empty, read the most common codon, rewrite both
counters; quas.pop raises KeyError (none) when the most common codon is
absent from the quality counter. -/
def codonalignOne (fragment_name : String) (aapos : Int)
    (newcodon : CodonText) (tabs : FragPosTable × FragPosTable) :
    Option (FragPosTable × FragPosTable) :=
  if alistGet [] tabs.1 (fragment_name, aapos) = [] ∨
      alistGet [] tabs.2 (fragment_name, aapos) = [] then some tabs
  else
    match Cnt.mostCommon (alistGet [] tabs.1 (fragment_name, aapos)) with
    | [] => some tabs
    | (oldcodon, _) :: _ =>
      if Cnt.hasKey (alistGet [] tabs.2 (fragment_name, aapos)) oldcodon then
        some (alistSet tabs.1 (fragment_name, aapos)
            (popAddCodon (alistGet [] tabs.1 (fragment_name, aapos))
              oldcodon newcodon),
          alistSet tabs.2 (fragment_name, aapos)
            (popAddCodon (alistGet [] tabs.2 (fragment_name, aapos))
              oldcodon newcodon))
      else none

/-- The for aapos0, (refcodon, querycodon) in enumerate(...) loop of one
fragment, over the codon-aligned query codons. -/
def codonalignFragment (fragment_name : String)
    (querycodons : List CodonText) (tabs : FragPosTable × FragPosTable) :
    Option (FragPosTable × FragPosTable) :=
  ((List.range querycodons.length).zip querycodons).foldl
    (fun acc p => acc.bind (codonalignOne fragment_name ((p.1 : Int) + 1) p.2))
    (some tabs)

/-- The outer fragment loop of codonalign_consensus, rewriting both
tables in place. -/
def codonalignConsensus (fragments : List (String × List CodonText))
    (tabs : FragPosTable × FragPosTable) :
    Option (FragPosTable × FragPosTable) :=
  fragments.foldl (fun acc f => acc.bind (codonalignFragment f.1 f.2))
    (some tabs)

theorem alistGet_set {κ ν : Type} [DecidableEq κ] :
    ∀ (l : List (κ × ν)) (dflt : ν) (k k2 : κ) (v : ν),
      alistGet dflt (alistSet l k v) k2 =
        if k = k2 then v else alistGet dflt l k2 := by
  intro l dflt k k2 v
  induction l with
  | nil =>
    simp only [alistSet, alistGet]
  | cons e rest ih =>
    obtain ⟨k0, v0⟩ := e
    simp only [alistSet]
    by_cases h1 : k0 = k
    · rw [if_pos h1]
      subst h1
      show (if k0 = k2 then v else alistGet dflt rest k2) = _
      by_cases h2 : k0 = k2
      · rw [if_pos h2, if_pos h2]
      · rw [if_neg h2, if_neg h2]
        show _ = alistGet dflt ((k0, v0) :: rest) k2
        simp [alistGet, h2]
    · rw [if_neg h1]
      show (if k0 = k2 then v0 else alistGet dflt (alistSet rest k v) k2) = _
      by_cases h2 : k0 = k2
      · rw [if_pos h2, if_neg (fun hk => h1 (h2.trans hk.symm))]
        simp [alistGet, h2]
      · rw [if_neg h2, ih]
        by_cases h3 : k = k2
        · rw [if_pos h3, if_pos h3]
        · rw [if_neg h3, if_neg h3]
          simp [alistGet, h2]

theorem optFold_bind_none {β γ : Type} (g : β → γ → Option γ) :
    ∀ l : List β,
      l.foldl (fun acc x => acc.bind (g x)) none = none := by
  intro l
  induction l with
  | nil => rfl
  | cons x rest ih =>
    rw [List.foldl_cons, Option.none_bind]
    exact ih

theorem optFold_pres {β γ : Type} (g : β → γ → Option γ) (P : γ → γ → Prop)
    (hrefl : ∀ t, P t t) (htrans : ∀ a b c, P a b → P b c → P a c)
    (hstep : ∀ x t t2, g x t = some t2 → P t t2) :
    ∀ (l : List β) (t t2 : γ),
      l.foldl (fun acc x => acc.bind (g x)) (some t) = some t2 → P t t2 := by
  intro l
  induction l with
  | nil =>
    intro t t2 h
    rw [List.foldl_nil] at h
    rw [← Option.some.inj h]
    exact hrefl t
  | cons x rest ih =>
    intro t t2 h
    rw [List.foldl_cons] at h
    cases hx : g x t with
    | none =>
      rw [show (some t).bind (g x) = none from by
        rw [Option.some_bind, hx]] at h
      rw [optFold_bind_none g rest] at h
      exact absurd h (by simp)
    | some t1 =>
      rw [show (some t).bind (g x) = some t1 from by
        rw [Option.some_bind, hx]] at h
      exact htrans _ _ _ (hstep x t t1 hx) (ih t1 t2 h)

theorem alistSet_sumValues {α : Type} [DecidableEq α] :
    ∀ (l : Cnt α) (k : α) (v : Int),
      Cnt.sumValues (alistSet l k v) =
        Cnt.sumValues l - Cnt.get l k + v := by
  intro l k v
  induction l with
  | nil =>
    simp [alistSet, Cnt.sumValues, Cnt.get]
  | cons e rest ih =>
    obtain ⟨k0, v0⟩ := e
    simp only [alistSet]
    by_cases h1 : k0 = k
    · rw [if_pos h1]
      have hg : Cnt.get ((k0, v0) :: rest) k = v0 := by
        simp [Cnt.get, h1]
      rw [hg]
      simp only [Cnt.sumValues, List.map_cons, List.sum_cons]
      ring
    · rw [if_neg h1]
      have hg : Cnt.get ((k0, v0) :: rest) k = Cnt.get rest k := by
        simp [Cnt.get, h1]
      rw [hg]
      simp only [Cnt.sumValues, List.map_cons, List.sum_cons]
      have ih2 : (List.map Prod.snd (alistSet rest k v)).sum =
          (List.map Prod.snd rest).sum - Cnt.get rest k + v := ih
      rw [ih2]
      ring

theorem anyKey_alistSet {α ν : Type} [DecidableEq α] :
    ∀ (l : List (α × ν)) (k k0 : α) (v : ν),
      (alistSet l k v).any (fun e => decide (e.1 = k0)) =
        (l.any (fun e => decide (e.1 = k0)) || decide (k = k0)) := by
  intro l k k0 v
  induction l with
  | nil => simp [alistSet]
  | cons e rest ih =>
    simp only [alistSet]
    by_cases h1 : e.1 = k
    · rw [if_pos h1]
      simp only [List.any_cons]
      rw [h1]
      cases hd : decide (k = k0) <;> simp [hd]
    · rw [if_neg h1]
      simp only [List.any_cons, ih, Bool.or_assoc]

theorem pairsKeysDistinct_alistSet {α ν : Type} [DecidableEq α] :
    ∀ (l : List (α × ν)) (k : α) (v : ν), pairsKeysDistinct l = true →
      pairsKeysDistinct (alistSet l k v) = true := by
  intro l k v hnd
  induction l with
  | nil => simp [alistSet, pairsKeysDistinct]
  | cons e rest ih =>
    simp only [pairsKeysDistinct, Bool.and_eq_true, Bool.not_eq_true'] at hnd
    simp only [alistSet]
    by_cases h1 : e.1 = k
    · rw [if_pos h1]
      simp only [pairsKeysDistinct, Bool.and_eq_true, Bool.not_eq_true']
      exact hnd
    · rw [if_neg h1]
      simp only [pairsKeysDistinct, Bool.and_eq_true, Bool.not_eq_true']
      refine ⟨?_, ih hnd.2⟩
      rw [anyKey_alistSet, hnd.1]
      simp only [Bool.false_or, decide_eq_false_iff_not]
      intro hk
      exact h1 hk.symm

theorem popAddCodon_nodup (c : Cnt CodonText) (oldcodon newcodon : CodonText)
    (h : pairsKeysDistinct c = true) :
    pairsKeysDistinct (popAddCodon c oldcodon newcodon) = true :=
  pairsKeysDistinct_alistSet _ _ _ (pairsKeysDistinct_del _ _ h)

/-- When the re-aligned codon differs from the popped codon, the
rewrite redistributes without changing the total. -/
theorem popAddCodon_sum_ne (c : Cnt CodonText) (oldcodon newcodon : CodonText)
    (hnd : pairsKeysDistinct c = true) (hne : newcodon ≠ oldcodon) :
    Cnt.sumValues (popAddCodon c oldcodon newcodon) = Cnt.sumValues c := by
  unfold popAddCodon
  rw [alistSet_sumValues, Cnt.sumValues_del, get_del_nodup _ _ _ hnd,
    if_neg hne]
  ring

/-- No duplicate codon keys within any stored counter of either table
(true of genuine Python Counters). -/
def tablesNodup (t : FragPosTable × FragPosTable) : Prop :=
  (∀ pc ∈ t.1, pairsKeysDistinct pc.2 = true) ∧
  (∀ pc ∈ t.2, pairsKeysDistinct pc.2 = true)

/-- Mass preservation between two table pairs, relative to
well-formedness of the starting tables. -/
def tablesPres (t t2 : FragPosTable × FragPosTable) : Prop :=
  tablesNodup t →
    tablesNodup t2 ∧
    (∀ k, Cnt.sumValues (alistGet [] t2.1 k) =
      Cnt.sumValues (alistGet [] t.1 k)) ∧
    (∀ k, Cnt.sumValues (alistGet [] t2.2 k) =
      Cnt.sumValues (alistGet [] t.2 k))

theorem tablesPres_refl (t : FragPosTable × FragPosTable) : tablesPres t t :=
  fun h => ⟨h, fun _ => rfl, fun _ => rfl⟩

theorem tablesPres_trans (a b c : FragPosTable × FragPosTable)
    (h1 : tablesPres a b) (h2 : tablesPres b c) : tablesPres a c := by
  intro ha
  obtain ⟨hb, s1, s2⟩ := h1 ha
  obtain ⟨hc, u1, u2⟩ := h2 hb
  exact ⟨hc, fun k => (u1 k).trans (s1 k), fun k => (u2 k).trans (s2 k)⟩

theorem tableInnerNodup (tb : FragPosTable)
    (h : ∀ pc ∈ tb, pairsKeysDistinct pc.2 = true) (k : String × Int) :
    pairsKeysDistinct (alistGet [] tb k) = true := by
  by_cases hne : alistGet ([] : Cnt CodonText) tb k = []
  · rw [hne]
    rfl
  · exact h _ (alistGet_mem [] tb k hne)

/-- Whether one amino acid position rewrite avoids the doubling case:
the position is skipped, or the re-aligned codon differs from the popped
most common codon. -/
def codonalignOneNoDouble (fragment_name : String) (aapos : Int)
    (newcodon : CodonText) (tabs : FragPosTable × FragPosTable) : Bool :=
  if alistGet [] tabs.1 (fragment_name, aapos) = [] ∨
      alistGet [] tabs.2 (fragment_name, aapos) = [] then true
  else
    match Cnt.mostCommon (alistGet [] tabs.1 (fragment_name, aapos)) with
    | [] => true
    | (oldcodon, _) :: _ => decide (newcodon ≠ oldcodon)

/-- The per-fragment run instrumented with the no-doubling flag. -/
def codonalignFragmentChk (fragment_name : String)
    (querycodons : List CodonText)
    (tb : (FragPosTable × FragPosTable) × Bool) :
    Option ((FragPosTable × FragPosTable) × Bool) :=
  ((List.range querycodons.length).zip querycodons).foldl
    (fun acc p => acc.bind (fun tb2 =>
      (codonalignOne fragment_name ((p.1 : Int) + 1) p.2 tb2.1).map
        (fun t2 => (t2, tb2.2 &&
          codonalignOneNoDouble fragment_name ((p.1 : Int) + 1) p.2 tb2.1))))
    (some tb)

/-- Whether a whole fragment avoids the doubling case when run on the
given tables. -/
def codonalignFragmentFlag (fragment_name : String)
    (querycodons : List CodonText) (t : FragPosTable × FragPosTable) : Bool :=
  match codonalignFragmentChk fragment_name querycodons (t, true) with
  | some tb => tb.2
  | none => false

/-- Whether the whole codonalign_consensus run avoids the doubling case:
no executed rewrite re-aligns a position onto its own most common
codon. -/
def codonalignNoDouble (fragments : List (String × List CodonText))
    (tabs : FragPosTable × FragPosTable) : Bool :=
  match fragments.foldl (fun acc f => acc.bind (fun tb =>
      (codonalignFragment f.1 f.2 tb.1).map
        (fun t2 => (t2, tb.2 && codonalignFragmentFlag f.1 f.2 tb.1))))
    (some (tabs, true)) with
  | some tb => tb.2
  | none => false

theorem optFold_chk_none {β γ : Type} (g : β → γ → Option γ)
    (flag : β → γ → Bool) :
    ∀ l : List β,
      l.foldl (fun acc x => acc.bind (fun tb =>
        (g x tb.1).map (fun t2 => (t2, tb.2 && flag x tb.1)))) none = none := by
  intro l
  induction l with
  | nil => rfl
  | cons x rest ih =>
    rw [List.foldl_cons, Option.none_bind]
    exact ih

theorem optFold_chk_fst {β γ : Type} (g : β → γ → Option γ)
    (flag : β → γ → Bool) :
    ∀ (l : List β) (t : γ) (b : Bool),
      (l.foldl (fun acc x => acc.bind (fun tb =>
          (g x tb.1).map (fun t2 => (t2, tb.2 && flag x tb.1))))
        (some (t, b))).map Prod.fst =
      l.foldl (fun acc x => acc.bind (g x)) (some t) := by
  intro l
  induction l with
  | nil =>
    intro t b
    rfl
  | cons x rest ih =>
    intro t b
    rw [List.foldl_cons, List.foldl_cons]
    cases hx : g x t with
    | none =>
      rw [show (some (t, b)).bind (fun tb =>
          (g x tb.1).map (fun t2 => (t2, tb.2 && flag x tb.1))) = none from by
        rw [Option.some_bind]
        show (g x t).map (fun t2 => (t2, b && flag x t)) = none
        rw [hx, Option.map_none']]
      rw [show (some t).bind (g x) = none from by rw [Option.some_bind, hx]]
      rw [optFold_chk_none g flag rest, optFold_bind_none g rest]
      rfl
    | some t1 =>
      rw [show (some (t, b)).bind (fun tb =>
          (g x tb.1).map (fun t2 => (t2, tb.2 && flag x tb.1))) =
          some (t1, b && flag x t) from by
        rw [Option.some_bind]
        show (g x t).map (fun t2 => (t2, b && flag x t)) =
          some (t1, b && flag x t)
        rw [hx, Option.map_some']]
      rw [show (some t).bind (g x) = some t1 from by
        rw [Option.some_bind, hx]]
      exact ih t1 (b && flag x t)

theorem optFold_pres_chk {β γ : Type} (g : β → γ → Option γ)
    (flag : β → γ → Bool) (P : γ → γ → Prop)
    (hrefl : ∀ t, P t t) (htrans : ∀ a b c, P a b → P b c → P a c)
    (hstep : ∀ x t t2, g x t = some t2 → flag x t = true → P t t2) :
    ∀ (l : List β) (t t2 : γ) (b : Bool),
      l.foldl (fun acc x => acc.bind (fun tb =>
        (g x tb.1).map (fun t2 => (t2, tb.2 && flag x tb.1))))
        (some (t, b)) = some (t2, true) →
      b = true ∧ P t t2 := by
  intro l
  induction l with
  | nil =>
    intro t t2 b h
    rw [List.foldl_nil] at h
    have h2 := Option.some.inj h
    rw [Prod.mk.injEq] at h2
    obtain ⟨hteq, hbeq⟩ := h2
    subst hteq
    exact ⟨hbeq, hrefl t⟩
  | cons x rest ih =>
    intro t t2 b h
    rw [List.foldl_cons] at h
    cases hx : g x t with
    | none =>
      rw [show (some (t, b)).bind (fun tb =>
          (g x tb.1).map (fun t2 => (t2, tb.2 && flag x tb.1))) = none from by
        rw [Option.some_bind]
        show (g x t).map (fun t2 => (t2, b && flag x t)) = none
        rw [hx, Option.map_none']] at h
      rw [optFold_chk_none g flag rest] at h
      exact absurd h (by simp)
    | some t1 =>
      rw [show (some (t, b)).bind (fun tb =>
          (g x tb.1).map (fun t2 => (t2, tb.2 && flag x tb.1))) =
          some (t1, b && flag x t) from by
        rw [Option.some_bind]
        show (g x t).map (fun t2 => (t2, b && flag x t)) =
          some (t1, b && flag x t)
        rw [hx, Option.map_some']] at h
      obtain ⟨hb, hP⟩ := ih t1 t2 (b && flag x t) h
      rw [Bool.and_eq_true] at hb
      exact ⟨hb.1, htrans _ _ _ (hstep x t t1 hx hb.2) hP⟩

theorem codonalignOne_pres (fn : String) (aapos : Int) (nc : CodonText)
    (t t2 : FragPosTable × FragPosTable)
    (h : codonalignOne fn aapos nc t = some t2)
    (hflag : codonalignOneNoDouble fn aapos nc t = true) :
    tablesPres t t2 := by
  unfold codonalignOne at h
  unfold codonalignOneNoDouble at hflag
  by_cases hg : alistGet [] t.1 (fn, aapos) = [] ∨
      alistGet [] t.2 (fn, aapos) = []
  · rw [if_pos hg] at h
    rw [← Option.some.inj h]
    exact tablesPres_refl t
  · rw [if_neg hg] at h
    rw [if_neg hg] at hflag
    cases hmc : Cnt.mostCommon (alistGet [] t.1 (fn, aapos)) with
    | nil =>
      rw [hmc] at h
      rw [← Option.some.inj h]
      exact tablesPres_refl t
    | cons hd tl =>
      obtain ⟨oldcodon, cnt⟩ := hd
      rw [hmc] at h
      rw [hmc] at hflag
      have hne : nc ≠ oldcodon := by
        have h3 : decide (nc ≠ oldcodon) = true := hflag
        exact of_decide_eq_true h3
      have h2 : (if Cnt.hasKey (alistGet [] t.2 (fn, aapos)) oldcodon then
          some (alistSet t.1 (fn, aapos)
              (popAddCodon (alistGet [] t.1 (fn, aapos)) oldcodon nc),
            alistSet t.2 (fn, aapos)
              (popAddCodon (alistGet [] t.2 (fn, aapos)) oldcodon nc))
          else none) = some t2 := h
      by_cases hk : Cnt.hasKey (alistGet [] t.2 (fn, aapos)) oldcodon = true
      · rw [if_pos hk] at h2
        rw [← Option.some.inj h2]
        intro hnodup
        refine ⟨⟨?_, ?_⟩, ?_, ?_⟩
        · intro pc hpc
          rcases mem_alistSet _ _ _ pc hpc with h3 | h3
          · exact hnodup.1 _ h3
          · rw [h3]
            exact popAddCodon_nodup _ _ _
              (tableInnerNodup t.1 hnodup.1 (fn, aapos))
        · intro pc hpc
          rcases mem_alistSet _ _ _ pc hpc with h3 | h3
          · exact hnodup.2 _ h3
          · rw [h3]
            exact popAddCodon_nodup _ _ _
              (tableInnerNodup t.2 hnodup.2 (fn, aapos))
        · intro k
          show Cnt.sumValues (alistGet []
            (alistSet t.1 (fn, aapos)
              (popAddCodon (alistGet [] t.1 (fn, aapos)) oldcodon nc)) k) =
            Cnt.sumValues (alistGet [] t.1 k)
          rw [alistGet_set]
          by_cases hkk : (fn, aapos) = k
          · rw [if_pos hkk, popAddCodon_sum_ne _ _ _
              (tableInnerNodup t.1 hnodup.1 (fn, aapos)) hne, hkk]
          · rw [if_neg hkk]
        · intro k
          show Cnt.sumValues (alistGet []
            (alistSet t.2 (fn, aapos)
              (popAddCodon (alistGet [] t.2 (fn, aapos)) oldcodon nc)) k) =
            Cnt.sumValues (alistGet [] t.2 k)
          rw [alistGet_set]
          by_cases hkk : (fn, aapos) = k
          · rw [if_pos hkk, popAddCodon_sum_ne _ _ _
              (tableInnerNodup t.2 hnodup.2 (fn, aapos)) hne, hkk]
          · rw [if_neg hkk]
      · rw [if_neg hk] at h2
        exact absurd h2 (by simp)

theorem codonalignFragment_pres (fn : String) (qcs : List CodonText)
    (t t2 : FragPosTable × FragPosTable)
    (h : codonalignFragment fn qcs t = some t2)
    (hflag : codonalignFragmentFlag fn qcs t = true) :
    tablesPres t t2 := by
  have hfst : (codonalignFragmentChk fn qcs (t, true)).map Prod.fst =
      codonalignFragment fn qcs t :=
    optFold_chk_fst
      (fun (p : Nat × CodonText) tb => codonalignOne fn ((p.1 : Int) + 1) p.2 tb)
      (fun (p : Nat × CodonText) tb =>
        codonalignOneNoDouble fn ((p.1 : Int) + 1) p.2 tb)
      ((List.range qcs.length).zip qcs) t true
  unfold codonalignFragmentFlag at hflag
  rw [h] at hfst
  cases hchk : codonalignFragmentChk fn qcs (t, true) with
  | none =>
    rw [hchk] at hfst
    exact absurd hfst (by simp)
  | some tb =>
    rw [hchk] at hfst
    rw [hchk] at hflag
    have ht2 : tb.1 = t2 := by
      rw [Option.map_some'] at hfst
      exact Option.some.inj hfst
    have hb : tb.2 = true := hflag
    have hrun : codonalignFragmentChk fn qcs (t, true) = some (t2, true) := by
      rw [hchk, ← ht2, ← hb]
    exact (optFold_pres_chk
      (fun (p : Nat × CodonText) tb2 => codonalignOne fn ((p.1 : Int) + 1) p.2 tb2)
      (fun (p : Nat × CodonText) tb2 =>
        codonalignOneNoDouble fn ((p.1 : Int) + 1) p.2 tb2)
      tablesPres tablesPres_refl tablesPres_trans
      (fun p ta tb2 hab hf =>
        codonalignOne_pres fn ((p.1 : Int) + 1) p.2 ta tb2 hab hf)
      ((List.range qcs.length).zip qcs) t t2 true hrun).2

/-- C4 (amended): the codon re-alignment preserves counter mass only
when no executed rewrite re-aligns a position onto its own most common
codon.  For such runs over well-formed tables, every (fragment, aapos)
key keeps the same sum of codon counts and the same sum of quality
scores.  The unconditional claim is false: codons[newcodon] +=
codons.pop(oldcodon) reads codons[newcodon] before the pop runs, so
when the re-aligned codon equals the consensus codon its count is
doubled instead of preserved. -/
theorem codonalign_preserves_mass
    (fragments : List (String × List CodonText))
    (tabs tabs2 : FragPosTable × FragPosTable)
    (hnodup : tablesNodup tabs)
    (h : codonalignConsensus fragments tabs = some tabs2)
    (hnd : codonalignNoDouble fragments tabs = true) :
    (∀ k, Cnt.sumValues (alistGet [] tabs2.1 k) =
      Cnt.sumValues (alistGet [] tabs.1 k)) ∧
    (∀ k, Cnt.sumValues (alistGet [] tabs2.2 k) =
      Cnt.sumValues (alistGet [] tabs.2 k)) := by
  have hfst : (fragments.foldl (fun acc f => acc.bind (fun tb =>
      (codonalignFragment f.1 f.2 tb.1).map
        (fun t2 => (t2, tb.2 && codonalignFragmentFlag f.1 f.2 tb.1))))
      (some (tabs, true))).map Prod.fst =
      codonalignConsensus fragments tabs :=
    optFold_chk_fst
      (fun (f : String × List CodonText) tb => codonalignFragment f.1 f.2 tb)
      (fun (f : String × List CodonText) tb => codonalignFragmentFlag f.1 f.2 tb)
      fragments tabs true
  unfold codonalignNoDouble at hnd
  rw [h] at hfst
  cases hchk : fragments.foldl (fun acc f => acc.bind (fun tb =>
      (codonalignFragment f.1 f.2 tb.1).map
        (fun t2 => (t2, tb.2 && codonalignFragmentFlag f.1 f.2 tb.1))))
      (some (tabs, true)) with
  | none =>
    rw [hchk] at hfst
    exact absurd hfst (by simp)
  | some tb =>
    rw [hchk] at hfst
    rw [hchk] at hnd
    have ht2 : tb.1 = tabs2 := by
      rw [Option.map_some'] at hfst
      exact Option.some.inj hfst
    have hb : tb.2 = true := hnd
    have hrun : fragments.foldl (fun acc f => acc.bind (fun tb =>
        (codonalignFragment f.1 f.2 tb.1).map
          (fun t2 => (t2, tb.2 && codonalignFragmentFlag f.1 f.2 tb.1))))
        (some (tabs, true)) = some (tabs2, true) := by
      rw [hchk, ← ht2, ← hb]
    have hpres := (optFold_pres_chk
      (fun (f : String × List CodonText) tb2 => codonalignFragment f.1 f.2 tb2)
      (fun (f : String × List CodonText) tb2 =>
        codonalignFragmentFlag f.1 f.2 tb2)
      tablesPres tablesPres_refl tablesPres_trans
      (fun f ta tb2 hab hf =>
        codonalignFragment_pres f.1 f.2 ta tb2 hab hf)
      fragments tabs tabs2 true hrun).2
    exact ⟨(hpres hnodup).2.1, (hpres hnodup).2.2⟩

/-- The single-fragment input of the C4 witness: one codon-aligned query
codon AAA at amino acid position 1. -/
def fragC4 : List (String × List CodonText) := [("gene1", [[65, 65, 65]])]

/-- The C4 tables: five reads of codon CCC with total quality 90 at
(gene1, 1). -/
def tabsC4 : FragPosTable × FragPosTable :=
  ([(("gene1", 1), [([67, 67, 67], 5)])],
   [(("gene1", 1), [([67, 67, 67], 90)])])

/-- The rewritten C4 witness tables: all mass moved onto codon AAA. -/
def tabsC4r : FragPosTable × FragPosTable :=
  ([(("gene1", 1), [([65, 65, 65], 5)])],
   [(("gene1", 1), [([65, 65, 65], 90)])])

/-- The single-fragment input of the C4 counterexample: the codon
alignment leaves the consensus codon CCC unchanged at position 1. -/
def fragC4d : List (String × List CodonText) := [("gene1", [[67, 67, 67]])]

/-- The doubled tables that the rewrite produces on fragC4d. -/
def tabsC4d : FragPosTable × FragPosTable :=
  ([(("gene1", 1), [([67, 67, 67], 10)])],
   [(("gene1", 1), [([67, 67, 67], 180)])])

/-- C4 counterexample: when the re-aligned codon equals the consensus
codon (the ordinary unchanged-codon case), codons[newcodon] +=
codons.pop(oldcodon) reads the old count before the pop removes it and
stores their sum, so the count and quality sums at (gene1, 1) double
from 5 and 90 to 10 and 180: codonalign_consensus does not preserve
counter mass. -/
theorem codonalign_doubles_consensus_codon :
    codonalignConsensus fragC4d tabsC4 = some tabsC4d ∧
    Cnt.sumValues (alistGet [] tabsC4d.1 ("gene1", 1)) = 10 ∧
    Cnt.sumValues (alistGet [] tabsC4.1 ("gene1", 1)) = 5 ∧
    Cnt.sumValues (alistGet [] tabsC4d.2 ("gene1", 1)) = 180 ∧
    Cnt.sumValues (alistGet [] tabsC4.2 ("gene1", 1)) = 90 :=
  ⟨rfl, rfl, rfl, rfl, rfl⟩

/-- Witness: the conditional mass preservation evaluated on a concrete
run whose re-aligned codon differs from the consensus codon. -/
theorem codonalign_preserves_mass_witness :
    tablesNodup tabsC4 ∧
    codonalignConsensus fragC4 tabsC4 = some tabsC4r ∧
    codonalignNoDouble fragC4 tabsC4 = true ∧
    ((∀ k, Cnt.sumValues (alistGet [] tabsC4r.1 k) =
        Cnt.sumValues (alistGet [] tabsC4.1 k)) ∧
     (∀ k, Cnt.sumValues (alistGet [] tabsC4r.2 k) =
        Cnt.sumValues (alistGet [] tabsC4.2 k))) :=
  ⟨⟨by decide, by decide⟩, rfl, rfl,
    codonalign_preserves_mass fragC4 tabsC4 tabsC4r
      ⟨by decide, by decide⟩ rfl rfl⟩


end Codfreq
